import Mathlib

/-!
Maxwell: signature scanning, address derivation and recoverable patches

A shallow embedding of `src/search.cpp`:

* `find_inst` (lines 146-190): the wildcard byte scan and its failure paths,
* `decode_pc` / `decode_imm` (lines 37-71): operand decoding,
* `PatternCommandBuffer::operator()` (lines 302-383): the pipeline interpreter,
* `load_address` / `get_address` (lines 527-548): the memoising registry.

Conventions.  A `size_t` is a natural number below `2 ^ 64`; every machine
addition and subtraction of the source is written with an explicit
`% 2 ^ 64`.  The image `exe` is the function sending an image-relative offset
`i` to the byte that `exe[i]` reads.  Globals of the source
(`g_cached_addresses`, the message boxes shown so far) are threaded through
explicitly.
-/

set_option autoImplicit false

namespace Maxwell

/-! ## Machine words and bytes -/

/-- One byte of the image (a `char` of the source, compared by value). -/
abbrev Byte := Fin 256

/-- The number of `size_t` values, `2 ^ 64`. -/
def SIZE : Nat := 2 ^ 64

/-- Unsigned 64-bit addition (`a + b` on `size_t`). -/
def add64 (a b : Nat) : Nat := (a + b) % SIZE

/-- Unsigned 64-bit subtraction (`a - b` on `size_t`, wrapping below zero). -/
def sub64 (a b : Nat) : Nat := (a + (SIZE - b % SIZE)) % SIZE

/-- Conversion of a mathematical integer to `size_t` (reduction modulo `2 ^ 64`). -/
def wrap64 (z : Int) : Nat := (z % (SIZE : Int)).toNat

/-- The byte `'*'` that `find_inst` treats as the wildcard marker (line 163). -/
def WILDCARD : Byte := 0x2A

/-! ## `find_inst` (src/search.cpp, lines 146-190) -/

/-- The inner loop of `find_inst` (lines 161-164) at candidate position `j`,
started at index `k` with the part of the needle that is left:
`found = needle[k] == '*' || needle[k] == *(exe + j + k)`, leaving the loop
at the first position where `found` becomes false. -/
def needle_loop (exe : Nat → Byte) (j : Nat) : List Byte → Nat → Bool
  | [], _ => true
  | c :: rest, k => (c == WILDCARD || c == exe (j + k)) && needle_loop exe j rest (k + 1)

/-- The value of `found` after the inner loop at candidate position `j`. -/
def needle_found (exe : Nat → Byte) (needle : List Byte) (j : Nat) : Bool :=
  needle_loop exe j needle 0

/-- The outer loop of `find_inst` (lines 160-169) from position `j` with `n`
iterations left before `j` reaches the loop bound: the first `j` at which the
inner loop leaves `found` true is returned. -/
def find_inst_loop (exe : Nat → Byte) (needle : List Byte) : Nat → Nat → Option Nat
  | 0, _ => none
  | n + 1, j => if needle_found exe needle j then some j else find_inst_loop exe needle n (j + 1)

/-- The loop bound `search_end - needle_length` of line 160, computed on `size_t`. -/
def scan_bound (needle : List Byte) (search_end : Nat) : Nat :=
  sub64 search_end needle.length

/-- The scan of `find_inst` (lines 157-169): `j` runs from `start` while
`j < search_end - needle_length`. `some j` is `return j`; `none` means the
loop ran to its bound. -/
def find_inst_scan (exe : Nat → Byte) (needle : List Byte) (start search_end : Nat) : Option Nat :=
  find_inst_loop exe needle (scan_bound needle search_end - start) start

/-- How a call of `find_inst` ends. -/
inductive FindOutcome where
  /-- Line 167, `return j`. -/
  | found (j : Nat)
  /-- Lines 182-186: the message box was answered with OK, `return 0ull`. -/
  | required_miss
  /-- Lines 182-184: the message box was answered with Cancel, `std::terminate()`. -/
  | terminate
  /-- Line 188: `throw std::logic_error`. -/
  | logic_error
  deriving DecidableEq, Repr

/-- The `size_t` a call of `find_inst` hands to its caller, if it returns at all. -/
def FindOutcome.returned : FindOutcome → Option Nat
  | .found j => some j
  | .required_miss => some 0
  | .terminate => none
  | .logic_error => none

/-- Whether the call showed the blocking message box of line 182. -/
def FindOutcome.notice : FindOutcome → Bool
  | .required_miss => true
  | .terminate => true
  | _ => false

/-- The function `find_inst` of lines 146-190. `exe_size` is the function-local
static of lines 149-155 (`BaseOfCode + SizeOfCode`), `end_` the optional
`end` argument, and `cancel` tells whether the user answers the message box
of line 182 with Cancel. -/
def find_inst (exe : Nat → Byte) (exe_size : Nat) (needle : List Byte) (start : Nat)
    (end_ : Option Nat) (is_required : Bool) (cancel : Bool) : FindOutcome :=
  let search_end := end_.getD exe_size
  match find_inst_scan exe needle start search_end with
  | some j => .found j
  | none =>
    if is_required then
      if cancel then .terminate else .required_miss
    else .logic_error

/-! ## Specification-side vocabulary for the scan -/

/-- The pattern matches the image at offset `j`: every needle position is the
wildcard marker or equals the image byte under it. -/
def MatchesAt (exe : Nat → Byte) (needle : List Byte) (j : Nat) : Prop :=
  ∀ k, ∀ h : k < needle.length, needle.get ⟨k, h⟩ = WILDCARD ∨ needle.get ⟨k, h⟩ = exe (j + k)

/-- An image given by its first bytes, zero elsewhere. -/
def image_of (bytes : List Byte) : Nat → Byte := fun i => bytes.getD i 0

instance (exe : Nat → Byte) (needle : List Byte) (j : Nat) : Decidable (MatchesAt exe needle j) := by
  unfold MatchesAt
  infer_instance

/-! ## `decode_pc` and `decode_imm` (src/search.cpp, lines 37-71)

The target is x86-64 (the file includes `Windows.h`), so a typed load through
a cast pointer reads its bytes in little-endian order. -/

/-- The load `*(uint8_t *)(&exe[p])`. -/
def read_u8 (exe : Nat → Byte) (p : Nat) : Nat := (exe p).val

/-- The load `*(uint16_t *)(&exe[p])`. -/
def read_u16 (exe : Nat → Byte) (p : Nat) : Nat := (exe p).val + 2 ^ 8 * (exe (p + 1)).val

/-- The load `*(uint32_t *)(&exe[p])`. -/
def read_u32 (exe : Nat → Byte) (p : Nat) : Nat :=
  (exe p).val + 2 ^ 8 * (exe (p + 1)).val + 2 ^ 16 * (exe (p + 2)).val + 2 ^ 24 * (exe (p + 3)).val

/-- The load `*(uint64_t *)(&exe[p])`. -/
def read_u64 (exe : Nat → Byte) (p : Nat) : Nat :=
  (exe p).val + 2 ^ 8 * (exe (p + 1)).val + 2 ^ 16 * (exe (p + 2)).val + 2 ^ 24 * (exe (p + 3)).val
    + 2 ^ 32 * (exe (p + 4)).val + 2 ^ 40 * (exe (p + 5)).val + 2 ^ 48 * (exe (p + 6)).val
    + 2 ^ 56 * (exe (p + 7)).val

/-- The signed reading of a `bits`-bit pattern `v` (what `int8_t` ... `int64_t`
give for the same bytes), as a mathematical integer. -/
def to_signed (bits : Nat) (v : Nat) : Int :=
  if v < 2 ^ (bits - 1) then (v : Int) else (v : Int) - 2 ^ bits

/-- The function `decode_pc` of lines 37-56. -/
def decode_pc (exe : Nat → Byte) (offset : Nat) (opcode_offset opcode_suffix_offset
    opcode_addr_size : Nat) : Nat :=
  let p := add64 offset opcode_offset
  let rel : Int :=
    match opcode_addr_size with
    | 1 => to_signed 8 (read_u8 exe p)
    | 2 => to_signed 16 (read_u16 exe p)
    | 8 => to_signed 64 (read_u64 exe p)
    | _ => to_signed 32 (read_u32 exe p)
  wrap64 ((offset : Int) + rel + opcode_offset + opcode_addr_size + opcode_suffix_offset)

/-- The function `decode_imm` of lines 58-71. -/
def decode_imm (exe : Nat → Byte) (offset : Nat) (opcode_offset value_size : Nat) : Nat :=
  let p := add64 offset opcode_offset
  match value_size with
  | 1 => read_u8 exe p
  | 2 => read_u16 exe p
  | 8 => read_u64 exe p
  | _ => read_u32 exe p

/-- The little-endian unsigned integer formed by the `n` bytes of the image
from position `p` on (specification side). -/
def le_uint (exe : Nat → Byte) (p : Nat) : Nat → Nat
  | 0 => 0
  | n + 1 => (exe p).val + 256 * le_uint exe (p + 1) n

/-- Sign extension of an `n`-byte two-complement value `v` (specification side). -/
def sign_extend (n : Nat) (v : Nat) : Int :=
  if 2 ^ (8 * n - 1) ≤ v then (v : Int) - 2 ^ (8 * n) else (v : Int)

/-! ## The pipeline (src/search.cpp, lines 209-442) -/

/-- The commands of a `PatternCommandBuffer` (`CommandType` with the member
of `CommandData` each one reads, lines 386-440). -/
inductive Command where
  | SetOptional (optional : Bool)
  | GetAddress (address_name : String)
  | GetVirtualFunctionAddress (table_offset function_index : Nat)
  | FindInst (pattern : List Byte) (range : Option Nat)
  | Offset (offset : Int)
  | DecodePC (opcode_offset opcode_suffix_offset opcode_addr_size : Nat)
  | DecodeIMM (opcode_offset value_size : Nat)
  | DecodeCall
  | AtExe
  | FromExe
  | FunctionStart (outside_byte : Byte)
  | FromExeBase (base_offset : Nat)
  deriving DecidableEq, Repr

/-- The class `PatternCommandBuffer` (lines 209-442): its only data member is
the vector `commands`. -/
structure PatternCommandBuffer where
  commands : List Command
  deriving DecidableEq, Repr

namespace PatternCommandBuffer

/-- The default-constructed buffer `PatternCommandBuffer{}`. -/
def empty : PatternCommandBuffer := { commands := [] }

/-- The call `commands.push_back(c)`. -/
def push_back (self : PatternCommandBuffer) (c : Command) : PatternCommandBuffer :=
  { commands := self.commands ++ [c] }

/-- Lines 217-220. -/
def set_optional (self : PatternCommandBuffer) (optional : Bool) : PatternCommandBuffer :=
  self.push_back (.SetOptional optional)

/-- Lines 221-225. -/
def get_address (self : PatternCommandBuffer) (address_name : String) : PatternCommandBuffer :=
  self.push_back (.GetAddress address_name)

/-- Lines 226-233. -/
def get_virtual_function_address (self : PatternCommandBuffer) (table_offset function_index : Nat) :
    PatternCommandBuffer :=
  self.push_back (.GetVirtualFunctionAddress table_offset function_index)

/-- Lines 234-237. -/
def find_inst (self : PatternCommandBuffer) (pattern : List Byte) : PatternCommandBuffer :=
  self.push_back (.FindInst pattern none)

/-- Lines 259-262. -/
def offset (self : PatternCommandBuffer) (offset : Int) : PatternCommandBuffer :=
  self.push_back (.Offset offset)

/-- Lines 238-240. -/
def find_after_inst (self : PatternCommandBuffer) (pattern : List Byte) : PatternCommandBuffer :=
  (self.find_inst pattern).offset pattern.length

/-- Lines 241-243. -/
def find_next_inst (self : PatternCommandBuffer) (pattern : List Byte) : PatternCommandBuffer :=
  (self.offset 1).find_inst pattern

/-- Lines 244-250. -/
def find_inst_in_range (self : PatternCommandBuffer) (pattern : List Byte) (range : Nat) :
    PatternCommandBuffer :=
  self.push_back (.FindInst pattern (some range))

/-- Lines 251-254. -/
def find_after_inst_in_range (self : PatternCommandBuffer) (pattern : List Byte) (range : Nat) :
    PatternCommandBuffer :=
  (self.find_inst_in_range pattern range).offset pattern.length

/-- Lines 255-258. -/
def find_next_inst_in_range (self : PatternCommandBuffer) (pattern : List Byte) (range : Nat) :
    PatternCommandBuffer :=
  (self.offset 1).find_inst_in_range pattern range

/-- Lines 263-270; the defaults of the source are `3`, `0`, `4`. -/
def decode_pc (self : PatternCommandBuffer) (opcode_offset opcode_suffix_offset
    opcode_addr_size : Nat) : PatternCommandBuffer :=
  self.push_back (.DecodePC opcode_offset opcode_suffix_offset opcode_addr_size)

/-- Lines 271-276; the defaults of the source are `3`, `4`. -/
def decode_imm (self : PatternCommandBuffer) (opcode_offset value_size : Nat) :
    PatternCommandBuffer :=
  self.push_back (.DecodeIMM opcode_offset value_size)

/-- Lines 277-280. -/
def decode_call (self : PatternCommandBuffer) : PatternCommandBuffer :=
  self.push_back .DecodeCall

/-- Lines 281-284. -/
def at_exe (self : PatternCommandBuffer) : PatternCommandBuffer :=
  self.push_back .AtExe

/-- Lines 285-288. -/
def from_exe (self : PatternCommandBuffer) : PatternCommandBuffer :=
  self.push_back .FromExe

/-- Lines 289-293; the default of the source is `0xcc`. -/
def function_start (self : PatternCommandBuffer) (outside_byte : Byte) : PatternCommandBuffer :=
  self.push_back (.FunctionStart outside_byte)

/-- Lines 296-300. -/
def from_exe_base (self : PatternCommandBuffer) (offset : Nat) : PatternCommandBuffer :=
  (self.push_back (.FromExeBase offset)).push_back .AtExe

end PatternCommandBuffer

/-- The fields of `Memory` that `search.cpp` reads. -/
structure Memory where
  exe_ptr : Nat
  after_bundle : Nat
  deriving DecidableEq, Repr

/-- A blocking `MessageBox` shown to the user. -/
inductive Notice where
  /-- Line 182: a required pattern was not found while resolving `pattern_name`. -/
  | pattern_not_found (pattern_name : String) (needle : List Byte)
  /-- Line 539: "Tried to get unknown address". -/
  | unknown_address (address_name : String)
  deriving DecidableEq, Repr

/-- The mutable globals: `g_cached_addresses` (line 510), the message boxes
shown so far, and the pairs reported through `DEBUG` at line 519. -/
structure Globals where
  g_cached_addresses : List (String × Nat)
  notices : List Notice
  debug_log : List (String × String)
  deriving DecidableEq, Repr

/-- The state of the globals when the module is loaded. -/
def Globals.initial : Globals := { g_cached_addresses := [], notices := [], debug_log := [] }

/-- Record that a message box was shown. -/
def Globals.notify (g : Globals) (n : Notice) : Globals := { g with notices := g.notices ++ [n] }

/-- The lookup `map.find(name)` in an `unordered_map` keyed by name. -/
def map_find {α : Type} : List (String × α) → String → Option α
  | [], _ => none
  | (k, v) :: rest, name => if k = name then some v else map_find rest name

/-- The assignment `map[name] = v`: overwrite the entry of `name`, or add one. -/
def map_set {α : Type} : List (String × α) → String → α → List (String × α)
  | [], name, v => [(name, v)]
  | (k, w) :: rest, name, v => if k = name then (k, v) :: rest else (k, w) :: map_set rest name v

/-- Everything a resolution reads and does not change. The pointer `exe` that
the callers pass is `mem.exe()`, so `(size_t)exe` is `mem.exe_ptr`.
`function_start` and `get_virtual_function_address` are declared in headers
outside this file and are taken as given; `msgbox_cancel n` tells whether
the user answers the message box shown after `n` earlier ones with Cancel. -/
structure Ctx where
  exe : Nat → Byte
  mem : Memory
  exe_size : Nat
  g_address_rules : List (String × PatternCommandBuffer)
  function_start : Nat → Byte → Nat
  get_virtual_function_address : Nat → Nat → Nat
  msgbox_cancel : Nat → Bool

/-- Modelled from the spec: `Memory::decode_call` is declared in `memory.h`,
which is not part of the sources. The specification gives `DecodeCallTarget()`
as the operand decoder with the defaults `opcode_len = 1`, `operand_size = 4`
(and no suffix) applied at the current offset. -/
def decode_call (exe : Nat → Byte) (offset : Nat) : Nat := decode_pc exe offset 1 0 4

/-- Modelled from the spec: `Memory::at_exe` is declared in `memory.h`, which is
not part of the sources. The specification gives `ToAbsolute()` as the
conversion from an image-relative offset to a process-absolute address. -/
def at_exe (mem : Memory) (offset : Nat) : Nat := add64 mem.exe_ptr offset

/-- How a computation over the globals ends: it returns `value`, or the
process is ended by `std::terminate()`. -/
inductive Outcome (α : Type) where
  | ok (value : α) (g : Globals)
  | terminated (g : Globals)
  deriving DecidableEq, Repr

/-- What one iteration of the loop of `operator()` does to the control flow:
go on with the next command, or leave the function through a `return`. -/
inductive Flow where
  | next (offset : Nat) (optional : Bool)
  | done (result : Option Nat)
  deriving DecidableEq, Repr

/-- One iteration of the loop of `operator()` (lines 317-379). `resolve` is
the global `get_address`; `none` means that a nested resolution did not
come back. -/
def exec_command (ctx : Ctx) (resolve : String → Globals → Option (Outcome Nat))
    (address_name : String) (offset : Nat) (optional : Bool) (g : Globals) :
    Command → Option (Outcome Flow)
  | .SetOptional b => some (.ok (.next offset b) g)
  | .GetAddress name =>
    match resolve name g with
    | none => none
    | some (.terminated g1) => some (.terminated g1)
    | some (.ok a g1) =>
      if optional && a == 0 then some (.ok (.done (some 0)) g1)
      else some (.ok (.next (sub64 a ctx.mem.exe_ptr) optional) g1)
  | .GetVirtualFunctionAddress t f =>
    some (.ok (.next (ctx.get_virtual_function_address t f) optional) g)
  | .FindInst pattern range =>
    match find_inst ctx.exe ctx.exe_size pattern offset (range.map (add64 offset)) (!optional)
        (ctx.msgbox_cancel g.notices.length) with
    | .found j => some (.ok (.next j optional) g)
    | .required_miss =>
      some (.ok (.next 0 optional) (g.notify (.pattern_not_found address_name pattern)))
    | .terminate => some (.terminated (g.notify (.pattern_not_found address_name pattern)))
    | .logic_error => some (.ok (.done (some 0)) g)
  | .Offset d => some (.ok (.next (wrap64 ((offset : Int) + d)) optional) g)
  | .DecodePC a b c => some (.ok (.next (decode_pc ctx.exe offset a b c) optional) g)
  | .DecodeIMM a b => some (.ok (.next (decode_imm ctx.exe offset a b) optional) g)
  | .DecodeCall => some (.ok (.next (decode_call ctx.exe offset) optional) g)
  | .AtExe => some (.ok (.next (at_exe ctx.mem offset) optional) g)
  | .FromExe => some (.ok (.next (sub64 offset ctx.mem.exe_ptr) optional) g)
  | .FunctionStart b => some (.ok (.next (ctx.function_start offset b) optional) g)
  | .FromExeBase b => some (.ok (.next b optional) g)

/-- The loop of `operator()` (line 316) over the commands that are left. -/
def run_commands (ctx : Ctx) (resolve : String → Globals → Option (Outcome Nat))
    (address_name : String) : List Command → Nat → Bool → Globals → Option (Outcome Flow)
  | [], offset, optional, g => some (.ok (.next offset optional) g)
  | c :: rest, offset, optional, g =>
    match exec_command ctx resolve address_name offset optional g c with
    | some (.ok (.next o b) g1) => run_commands ctx resolve address_name rest o b g1
    | r => r

/-- The call operator `PatternCommandBuffer::operator()` (lines 302-383): the
loop starts from `mem.after_bundle` with `optional = false`, and line 382
returns the offset the loop ends with. -/
def PatternCommandBuffer.call (self : PatternCommandBuffer) (ctx : Ctx)
    (resolve : String → Globals → Option (Outcome Nat)) (address_name : String) (g : Globals) :
    Option (Outcome (Option Nat)) :=
  match run_commands ctx resolve address_name self.commands ctx.mem.after_bundle false g with
  | none => none
  | some (.terminated g1) => some (.terminated g1)
  | some (.ok (.done r) g1) => some (.ok r g1)
  | some (.ok (.next offset _) g1) => some (.ok (some offset) g1)

/-! ## The registry (src/search.cpp, lines 510-548) -/

/-- The function `load_address` of lines 527-541. `fuel` bounds how deeply
rules may call `get_address` on each other; `none` means the bound was hit. -/
def load_address (ctx : Ctx) : Nat → String → Globals → Option (Outcome Nat)
  | 0, address_name, g =>
    match map_find ctx.g_address_rules address_name with
    | some _ => none
    | none => some (.ok 0 (g.notify (.unknown_address address_name)))
  | fuel + 1, address_name, g =>
    match map_find ctx.g_address_rules address_name with
    | some rule =>
      match rule.call ctx
          (fun name g1 =>
            match map_find g1.g_cached_addresses name with
            | some v => some (.ok v g1)
            | none => load_address ctx fuel name g1)
          address_name g with
      | none => none
      | some (.terminated g1) => some (.terminated g1)
      | some (.ok (some address) g1) =>
        some (.ok address
          { g1 with g_cached_addresses := map_set g1.g_cached_addresses address_name address })
      | some (.ok none g1) => some (.ok 0 (g1.notify (.unknown_address address_name)))
    | none => some (.ok 0 (g.notify (.unknown_address address_name)))

/-- The function `get_address` of lines 542-548. -/
def get_address (ctx : Ctx) (fuel : Nat) (address_name : String) (g : Globals) :
    Option (Outcome Nat) :=
  match map_find g.g_cached_addresses address_name with
  | some v => some (.ok v g)
  | none => load_address ctx fuel address_name g

/-! ## The rule table (src/search.cpp, lines 446-509)

The patterns are written in the source with the literal suffix `_gh` of
`ghidra_byte_string.h`: hexadecimal byte pairs, `..` for a wildcard byte.
They are given here as the bytes `find_inst` receives, with the marker
`'*'` at the wildcard positions. -/

/-- The pattern of `"get_state_func"` (line 452). -/
def get_state_func_pattern : List Byte :=
  [0x48, 0x89, 0x35, 0x54, 0x58, 0xbe, 0x02, 0xe8, 0x7f, 0x8b, 0x04, 0x00, 0x48, 0x81, 0xc6, 0x08, 0x1c, 0xb0, 0x00]

/-- The pattern of `"slots"` (line 463). -/
def slots_pattern : List Byte :=
  [0x48, 0x8b, 0x05, WILDCARD, WILDCARD, WILDCARD, WILDCARD, 0x48, 0x8b, WILDCARD, WILDCARD, WILDCARD, WILDCARD, WILDCARD,
    0x48, 0x89, 0x8c, 0x1f, 0xec, 0x05, 0x00, 0x00]

/-- The pattern of `"check"` (line 471). -/
def check_pattern : List Byte := [0x48, 0x83, 0xc3, 0x10, 0x48, 0x81, 0xfb, 0x50, 0x89, 0x00, 0x00]

/-- The pattern of `"warp"` (line 479). -/
def warp_pattern : List Byte := [0x4c, 0x8d, 0x6e, 0x28, 0x8a, 0x86, 0x1d, 0x6b, 0x02, 0x00]

/-- The first pattern of `"layer_base"` and `"layer_offset"` (lines 492, 503). -/
def layer_pattern : List Byte :=
  [0x4c, 0x8b, 0x35, WILDCARD, WILDCARD, WILDCARD, WILDCARD, 0x48, 0x8d, 0x9e, 0x10, 0x36, 0x03, 0x00]

/-- The table `g_address_rules` of lines 446-509. -/
def g_address_rules : List (String × PatternCommandBuffer) :=
  [ ("get_state_func",
      (((PatternCommandBuffer.empty.find_inst get_state_func_pattern).offset 7).decode_call).at_exe),
    ("slots", ((PatternCommandBuffer.empty.find_inst slots_pattern).decode_pc 3 0 4).at_exe),
    ("check", ((PatternCommandBuffer.empty.find_inst check_pattern).offset (-6)).at_exe),
    ("warp", ((PatternCommandBuffer.empty.find_inst warp_pattern).offset 12).at_exe),
    ("keyboard", PatternCommandBuffer.empty.from_exe_base 0x13aba),
    ("layer_base",
      ((((((PatternCommandBuffer.empty.find_inst layer_pattern).offset 14).decode_call).find_next_inst
        [0x48, 0x8b, 0x05]).decode_pc 3 0 4).at_exe)),
    ("layer_offset",
      (((((PatternCommandBuffer.empty.find_inst layer_pattern).offset 14).decode_call).find_after_inst
        [0x8b, 0x80]).at_exe)) ]

/-! ## Example inputs -/

/-- A context over the image `exe` and the rule table `rules`: the image is
loaded at `0x7ff600000000`, pipelines start at `after_bundle`, the code
section ends at `exe_size`, and every message box is answered with Cancel
exactly when `cancel` is set. -/
def example_ctx (exe : Nat → Byte) (after_bundle exe_size : Nat)
    (rules : List (String × PatternCommandBuffer)) (cancel : Bool) : Ctx :=
  { exe := exe
    mem := { exe_ptr := 0x7ff600000000, after_bundle := after_bundle }
    exe_size := exe_size
    g_address_rules := rules
    function_start := fun o _ => o
    get_virtual_function_address := fun _ _ => 0
    msgbox_cancel := fun _ => cancel }

/-- An image that is zero up to offset `0x1000` and holds the bytes of the
`"get_state_func"` signature from there. -/
def get_state_func_image : Nat → Byte :=
  fun i => if i < 0x1000 then 0 else get_state_func_pattern.getD (i - 0x1000) 0

/-- The rule table of the source over `get_state_func_image`, scanned from `0xff0`. -/
def get_state_func_ctx : Ctx := example_ctx get_state_func_image 0xff0 0x2000 g_address_rules false

/-- The first three steps of the `"get_state_func"` rule (lines 450-454). -/
def get_state_func_steps : PatternCommandBuffer :=
  ((PatternCommandBuffer.empty.find_inst get_state_func_pattern).offset 7).decode_call

/-- A pipeline whose only pattern step is optional. -/
def missing_buffer : PatternCommandBuffer :=
  ((PatternCommandBuffer.empty.set_optional true).find_inst [0x43]).at_exe

/-- The two-byte image `41 42` with the single rule `"missing"`. -/
def missing_ctx : Ctx := example_ctx (image_of [0x41, 0x42]) 0 2 [("missing", missing_buffer)] false

/-- A pipeline whose pattern step is required and is followed by two more steps. -/
def needed_buffer : PatternCommandBuffer :=
  ((PatternCommandBuffer.empty.find_inst [0x43]).offset 7).at_exe

/-- The two-byte image `41 42` with the single rule `"needed"`; message boxes
are answered with OK. -/
def needed_ctx : Ctx := example_ctx (image_of [0x41, 0x42]) 0 2 [("needed", needed_buffer)] false

/-- The rule table of the source over an image of zero bytes only, in which
no signature of the table occurs. -/
def zero_image_ctx : Ctx := example_ctx (image_of []) 0xff0 0x2000 g_address_rules false

/-- A series of calls `get_address(name)`, each with its own context (so the
image may differ from call to call), made one after the other on the
globals; `none` when one of them does not return. -/
def get_address_calls : List (Ctx × Nat × String) → Globals → Option Globals
  | [], g => some g
  | (ctx, fuel, name) :: rest, g =>
    match get_address ctx fuel name g with
    | some (.ok _ g1) => get_address_calls rest g1
    | _ => none

/-! ## `preload_addresses` (src/search.cpp, lines 512-526) -/

/-- The globals an outcome leaves behind, whether the computation returned or
the process was ended. -/
def Outcome.globals {α : Type} : Outcome α → Globals
  | .ok _ g => g
  | .terminated g => g

/-- The inner loop of lines 517-522 over the cache: one `DEBUG` entry
`(k, address_name)` for every cached pair `(k, v)` with `v == address` and
`k != address_name`. -/
def log_collisions (cache : List (String × Nat)) (address_name : String) (address : Nat) :
    List (String × String) :=
  (cache.filter (fun kv => kv.2 == address && kv.1 != address_name)).map
    (fun kv => (kv.1, address_name))

/-- The loop of `preload_addresses` (lines 515-525) over the rules that are
left, in the iteration order of the table. -/
def preload_loop (ctx : Ctx) (fuel : Nat) :
    List (String × PatternCommandBuffer) → Globals → Option (Outcome Unit)
  | [], g => some (.ok () g)
  | (address_name, rule) :: rest, g =>
    match rule.call ctx (get_address ctx fuel) address_name g with
    | none => none
    | some (.terminated g1) => some (.terminated g1)
    | some (.ok (some address) g1) =>
      preload_loop ctx fuel rest
        { g1 with
          debug_log := g1.debug_log ++ log_collisions g1.g_cached_addresses address_name address
          g_cached_addresses := map_set g1.g_cached_addresses address_name address }
    | some (.ok none g1) => preload_loop ctx fuel rest g1

/-- The function `preload_addresses` of lines 512-526. The list
`g_address_rules` is read in the order in which the `unordered_map` is
iterated. -/
def preload_addresses (ctx : Ctx) (fuel : Nat) (g : Globals) : Option (Outcome Unit) :=
  preload_loop ctx fuel ctx.g_address_rules g

/-- A small image: zero up to offset `0x20`, then the bytes of the
`"get_state_func"` signature. -/
def preload_image : Nat → Byte :=
  fun i => if i < 0x20 then 0 else get_state_func_pattern.getD (i - 0x20) 0

/-- The rule table of the source over `preload_image`, with pipelines starting
at `0x10` and a code section that ends at `0x40`. -/
def preload_ctx : Ctx := example_ctx preload_image 0x10 0x40 g_address_rules false

/-- The globals that `preload_addresses` leaves over `preload_ctx` when it
starts from the initial globals: only `"get_state_func"` is found, every
other pattern is reported and then replaced by offset 0. -/
def preload_result : Globals :=
  { g_cached_addresses :=
      [("get_state_func", 0x7ff600048bab), ("slots", 0x7ff600000007), ("check", 0x7ff5fffffffa),
        ("warp", 0x7ff60000000c), ("keyboard", 0x7ff600013aba), ("layer_base", 0x7ff600000007),
        ("layer_offset", 0x7ff600000002)]
    notices :=
      [.pattern_not_found "slots" slots_pattern, .pattern_not_found "check" check_pattern,
        .pattern_not_found "warp" warp_pattern, .pattern_not_found "layer_base" layer_pattern,
        .pattern_not_found "layer_base" [0x48, 0x8b, 0x05],
        .pattern_not_found "layer_offset" layer_pattern,
        .pattern_not_found "layer_offset" [0x8b, 0x80]]
    debug_log := [("slots", "layer_base")] }

/-- The number of entries of a collision log that report the pair `a`, `b`,
in either order. -/
def pair_count (log : List (String × String)) (a b : String) : Nat :=
  (log.filter (fun e => e == (a, b) || e == (b, a))).length

/-- Whether the cache holds entries for both names and they are equal. -/
def same_entry (cache : List (String × Nat)) (a b : String) : Bool :=
  match map_find cache a, map_find cache b with
  | some x, some y => x == y
  | _, _ => false

/-- A table of two rules that resolve to the same address: `"keyboard"` as in
the source, and `"keyboard_alias"`, which reaches it through a `GetAddress`
step and is iterated first. -/
def alias_rules : List (String × PatternCommandBuffer) :=
  [ ("keyboard_alias", (PatternCommandBuffer.empty.get_address "keyboard").at_exe),
    ("keyboard", PatternCommandBuffer.empty.from_exe_base 0x13aba) ]

/-- The table `alias_rules` over an image of zero bytes. -/
def alias_ctx : Ctx := example_ctx (image_of []) 0 0x100 alias_rules false

/-- The table `alias_rules` iterated in the other order. -/
def alias_ctx_reversed : Ctx := example_ctx (image_of []) 0 0x100 alias_rules.reverse false

/-- A table of two rules without `GetAddress` steps that resolve to the same
address. -/
def twin_rules : List (String × PatternCommandBuffer) :=
  [ ("keyboard", PatternCommandBuffer.empty.from_exe_base 0x13aba),
    ("keyboard_twin", (PatternCommandBuffer.empty.from_exe_base 0x13ab0).offset 10) ]

/-- The table `twin_rules` over an image of zero bytes. -/
def twin_ctx : Ctx := example_ctx (image_of []) 0 0x100 twin_rules false

/-- What stands behind a message box. For a pattern notice under the name
`name`: `name` has a rule, the rule has a pattern step for `p`, the steps
before it, run from the start of the pipeline, reach that step at an offset
`o` with the optional flag clear, and the scan of the step from `o` finds
nothing. For an unknown-address notice: the name has no rule. -/
def Notice.justified (ctx : Ctx) : Notice → Prop
  | .pattern_not_found name p =>
    ∃ (rule : PatternCommandBuffer) (before after : List Command) (range : Option Nat)
      (fuel o : Nat) (g g1 : Globals),
      map_find ctx.g_address_rules name = some rule ∧
        rule.commands = before ++ Command.FindInst p range :: after ∧
        run_commands ctx (get_address ctx fuel) name before ctx.mem.after_bundle false g =
          some (.ok (.next o false) g1) ∧
        find_inst_scan ctx.exe p o ((range.map (add64 o)).getD ctx.exe_size) = none
  | .unknown_address n => map_find ctx.g_address_rules n = none

/-- Whether a command list has no `GetAddress` step. -/
def get_address_free (cmds : List Command) : Bool :=
  cmds.all (fun c => match c with
    | .GetAddress _ => false
    | _ => true)

/-- The context `needed_ctx` with every message box answered by Cancel. -/
def needed_ctx_cancel : Ctx :=
  example_ctx (image_of [0x41, 0x42]) 0 2 [("needed", needed_buffer)] true

/-! ## Specification-side vocabulary for the pipeline -/

/-- One step of the fold that the specification describes: while the pipeline
is running, the next command is executed on the current state; once it
has ended (by a `return` or by the end of the process), the commands that
follow are passed over. -/
def fold_step (ctx : Ctx) (resolve : String → Globals → Option (Outcome Nat))
    (address_name : String) : Option (Outcome Flow) → Command → Option (Outcome Flow)
  | some (.ok (.next offset optional) g), c =>
    exec_command ctx resolve address_name offset optional g c
  | r, _ => r

/-- The arguments of the `SetOptional` steps of a command list, in order. -/
def set_optional_args (cmds : List Command) : List Bool :=
  cmds.filterMap (fun c => match c with
    | .SetOptional v => some v
    | _ => none)

/-- The argument of the most recent `SetOptional` step among the commands
`before`, and `false` if there is none. -/
def most_recent_set_optional (before : List Command) : Bool :=
  (set_optional_args before).getLast?.getD false

/-- The steps before the pattern step of the witness of the optional flag:
the flag is set, and later cleared again. -/
def flag_steps : List Command := [.SetOptional true, .Offset 1, .SetOptional false]

/-! ## The patch manager

`write_mem_recoverable` and `recover_mem` are called in `src/max.cpp` (line 18)
and `src/dll/ui.cpp` (lines 2790-2900) and declared in `memory.h`, which is
not part of the sources. They are modelled from section 4.5 of the
specification (`apply`, `revert`); the fourth argument of the calls, `true`
at every call site, is not described there and is left out. -/

/-- Modelled from the spec: the `PatchRecord` of section 3 (name as the key of
the map): target address, original-byte snapshot, current replacement bytes,
applied flag. The type is declared in `memory.h`, outside the sources. -/
structure PatchRecord where
  address : Nat
  original_bytes : List Byte
  replacement : List Byte
  applied : Bool
  deriving DecidableEq, Repr

/-- Modelled from the spec: the state the patch manager works on, which lives
behind `memory.h`: the live memory of the process, the name to record map,
and the number of calls of the write primitive made so far. -/
structure PatchState where
  memory : Nat → Byte
  patches : List (String × PatchRecord)
  writes : Nat

/-- Modelled from the spec: `read_bytes(address, len)` of the memory accessor
(section 6), declared in `memory.h`: the `len` bytes from `address` on. -/
def read_bytes (memory : Nat → Byte) (address len : Nat) : List Byte :=
  (List.range len).map (fun i => memory (address + i))

/-- Modelled from the spec: `write_bytes(address, bytes)` of the memory accessor
(section 6), declared in `memory.h`: the whole byte range is replaced in one
call, every other byte is left alone. -/
def write_bytes (memory : Nat → Byte) (address : Nat) (bytes : List Byte) : Nat → Byte :=
  fun p => if address ≤ p ∧ p < address + bytes.length then bytes.getD (p - address) 0 else memory p

/-- Modelled from the spec: `write_mem_recoverable` (the `apply` of section
4.5), declared in `memory.h`. "If no record exists, read and store
`original_bytes` from `address` exactly once, then write `new_bytes`, mark
applied. If already applied with identical bytes: no-op. If applied with
different bytes: overwrite live bytes but never re-capture `original_bytes`."
A record that is not applied (after a revert) is written and marked applied
again, with its snapshot kept. -/
def write_mem_recoverable (s : PatchState) (name : String) (address : Nat)
    (new_bytes : List Byte) : PatchState :=
  match map_find s.patches name with
  | none =>
    { memory := write_bytes s.memory address new_bytes
      patches := map_set s.patches name
        { address := address
          original_bytes := read_bytes s.memory address new_bytes.length
          replacement := new_bytes
          applied := true }
      writes := s.writes + 1 }
  | some r =>
    if r.applied && r.replacement == new_bytes then s
    else
      { memory := write_bytes s.memory address new_bytes
        patches := map_set s.patches name { r with replacement := new_bytes, applied := true }
        writes := s.writes + 1 }

/-- Modelled from the spec: `recover_mem` (the `revert` of section 4.5),
declared in `memory.h`. "If applied, write back `original_bytes`, mark not
applied; otherwise no-op." -/
def recover_mem (s : PatchState) (name : String) : PatchState :=
  match map_find s.patches name with
  | some r =>
    if r.applied then
      { memory := write_bytes s.memory r.address r.original_bytes
        patches := map_set s.patches name { r with applied := false }
        writes := s.writes + 1 }
    else s
  | none => s

/-- The series of `n` cycles, each an apply followed by a revert. -/
def apply_revert_cycles (name : String) (address : Nat) (bytes : List Byte) :
    Nat → PatchState → PatchState
  | 0, s => s
  | n + 1, s =>
    apply_revert_cycles name address bytes n
      (recover_mem (write_mem_recoverable s name address bytes) name)

/-- The series of `n` consecutive apply calls with the same arguments. -/
def apply_times (name : String) (address : Nat) (bytes : List Byte) :
    Nat → PatchState → PatchState
  | 0, s => s
  | n + 1, s => apply_times name address bytes n (write_mem_recoverable s name address bytes)

/-- A call of the patch manager. -/
inductive PatchOp where
  | apply (name : String) (address : Nat) (bytes : List Byte)
  | revert (name : String)
  deriving DecidableEq, Repr

/-- A series of calls of the patch manager, made one after the other. -/
def run_patch_ops : List PatchOp → PatchState → PatchState
  | [], s => s
  | .apply name address bytes :: rest, s =>
    run_patch_ops rest (write_mem_recoverable s name address bytes)
  | .revert name :: rest, s => run_patch_ops rest (recover_mem s name)

/-- A process memory that holds the byte `74` at the address `0x7ff600001000`
and zero elsewhere, with no patch recorded and no write made. -/
def shortjmp_state : PatchState :=
  { memory := fun p => if p = 0x7ff600001000 then 0x74 else 0
    patches := []
    writes := 0 }

/-- A table with an optional `GetAddress` step for a name that has no rule
(`"outer"`), one for a name whose own pipeline has a required pattern step
(`"outer2"`), and that pipeline (`"inner"`). -/
def optional_lookup_rules : List (String × PatternCommandBuffer) :=
  [ ("outer", ((PatternCommandBuffer.empty.set_optional true).get_address "nope").at_exe),
    ("outer2", ((PatternCommandBuffer.empty.set_optional true).get_address "inner").at_exe),
    ("inner", PatternCommandBuffer.empty.find_inst [0x43]) ]

/-- The table `optional_lookup_rules` over the image `41 42`; message boxes are
answered with OK. -/
def optional_lookup_ctx : Ctx :=
  example_ctx (image_of [0x41, 0x42]) 0 2 optional_lookup_rules false

/-- An image with the bytes `41 42 43` at offsets 5 to 7 and zero elsewhere. -/
def range_image : Nat → Byte := image_of [0, 0, 0, 0, 0, 0x41, 0x42, 0x43]

/-- A context over `range_image` without rules; pipelines start at offset 0 and
the code section ends at `0x100`. -/
def range_ctx : Ctx := example_ctx range_image 0 0x100 [] false

/-! ## The image bytes the scan of `find_inst` reads -/

/-- The image indices the inner loop of `find_inst` (lines 161-164) reads at
candidate position `j`, in order, from needle index `k` on. The image byte
`*(exe + j + k)` is read only when `needle[k]` is not `'*'` (the `||` of line
163 does not evaluate its right side otherwise), and the loop condition
`k < needle_length && found` ends the loop after the first mismatch. -/
def needle_loop_reads (exe : Nat → Byte) (j : Nat) : List Byte → Nat → List Nat
  | [], _ => []
  | c :: rest, k =>
    if c == WILDCARD then needle_loop_reads exe j rest (k + 1)
    else if c == exe (j + k) then (j + k) :: needle_loop_reads exe j rest (k + 1)
    else [j + k]

/-- The image indices the outer loop of `find_inst` (lines 160-169) reads from
position `j` on with `n` iterations left: those of the inner loop at `j`, and,
unless `found` ends the function there, those of the later iterations. -/
def find_inst_loop_reads (exe : Nat → Byte) (needle : List Byte) : Nat → Nat → List Nat
  | 0, _ => []
  | n + 1, j =>
    needle_loop_reads exe j needle 0 ++
      (if needle_found exe needle j then [] else find_inst_loop_reads exe needle n (j + 1))

/-- The image indices read by the scan of `find_inst` (lines 157-169), in order. -/
def find_inst_reads (exe : Nat → Byte) (needle : List Byte) (start search_end : Nat) : List Nat :=
  find_inst_loop_reads exe needle (scan_bound needle search_end - start) start

/-! ## `SearchTiles` (src/dll/ui.cpp, lines 488-534)

The types `Room`, `Map`, `Coord` and `SelectedTile` are declared in `max.h` and
`ui.h`; they are given here with the members that `SearchTiles` uses. Integer
members are mathematical integers. -/

/-- The constant `s32_max` of line 44, `INT_MAX / 2`. -/
def s32_max : Int := (2 ^ 31 - 1) / 2

/-- A pair of coordinates, members `x` and `y`. -/
structure Coord where
  x : Int
  y : Int
  deriving DecidableEq, Repr

/-- A room as `SearchTiles` reads it: the members `x` and `y`, and
`tiles l y x` for `tiles[l][y][x].id`. -/
structure Room where
  x : Int
  y : Int
  tiles : Nat → Nat → Nat → Nat

/-- What `SearchTiles` reads of the game through `Max::get()`: the value of
`*player_map()`, and for every map id the rooms `rooms[0 .. roomCount)` of
`map(mapId)`. -/
structure World where
  player_map : Int
  map : Int → List Room

/-- The tile a `Tile *` points to: `&map(map)->rooms[room].tiles[layer][y][x]`. -/
structure TileRef where
  map : Int
  room : Nat
  layer : Nat
  y : Nat
  x : Nat
  deriving DecidableEq, Repr

/-- The aggregate `SelectedTile`, with its members in the order in which line
512 initialises them. -/
structure SelectedTile where
  tile : TileRef
  room : Coord
  pos : Coord
  layer : Int
  map : Int
  deriving DecidableEq, Repr

/-- The comparator that `SearchTiles` passes to `std::sort` (lines 520-532). -/
def tile_less (a b : SelectedTile) : Bool :=
  decide (a.map < b.map) || (a.map == b.map && decide (a.room.y < b.room.y)) ||
    (a.map == b.map && a.room.y == b.room.y && decide (a.room.x < b.room.x)) ||
    (a.map == b.map && a.room.y == b.room.y && a.room.x == b.room.x &&
      decide (a.pos.y < b.pos.y)) ||
    (a.map == b.map && a.room.y == b.room.y && a.room.x == b.room.x && a.pos.y == b.pos.y &&
      decide (a.pos.x < b.pos.x)) ||
    (a.map == b.map && a.room.y == b.room.y && a.room.x == b.room.x && a.pos.y == b.pos.y &&
      a.pos.x == b.pos.x && decide (a.layer < b.layer))

/-- The call `std::sort(first, last, comp)` of the C++ standard library, as the
insertion sort that places each element before the first one that `comp` does
not order before it. -/
def std_sort {α : Type} (comp : α → α → Bool) (v : List α) : List α :=
  List.insertionSort (fun a b => comp b a = false) v

/-- The three inner loops of lines 507-516 for the room with index `r` of the
map `mapId`: the selected tiles in the order in which they are appended. -/
def room_matches (room : Room) (r : Nat) (mapId : Int) (searchId : Nat) : List SelectedTile :=
  (List.range 2).flatMap fun l =>
    (List.range 22).flatMap fun y =>
      (List.range 40).flatMap fun x =>
        if room.tiles l y x = searchId then
          [{ tile := { map := mapId, room := r, layer := l, y := y, x := x }
             room := { x := room.x, y := room.y }
             pos := { x := x, y := y }
             layer := l
             map := mapId }]
        else []

/-- The loop of line 506 over the rooms of one map, from room index `r` on. -/
def rooms_matches (mapId : Int) (searchId : Nat) : List Room → Nat → List SelectedTile
  | [], _ => []
  | room :: rest, r => room_matches room r mapId searchId ++ rooms_matches mapId searchId rest (r + 1)

/-- The map ids the loop of line 504 visits: `mapMin`, ..., `mapMax`. -/
def map_ids (mapMin mapMax : Int) : List Int :=
  (List.range (mapMax + 1 - mapMin).toNat).map fun i => mapMin + (i : Int)

/-- The loops of lines 504-518: everything that is appended to the vector. -/
def search_matches (world : World) (searchId : Nat) (mapMin mapMax : Int) : List SelectedTile :=
  (map_ids mapMin mapMax).flatMap fun mapId => rooms_matches mapId searchId (world.map mapId) 0

/-- The function `SearchTiles` of lines 488-534; the result is the vector
`searchTiles` as the call leaves it. -/
def SearchTiles (world : World) (searchTiles : List SelectedTile) (searchId : Nat)
    (mapId : Int) : List SelectedTile :=
  if mapId = -1 then
    std_sort tile_less
      (searchTiles ++ search_matches world searchId world.player_map world.player_map)
  else if mapId = s32_max then
    std_sort tile_less (searchTiles ++ search_matches world searchId 0 4)
  else if 0 ≤ mapId ∧ mapId ≤ 4 then
    std_sort tile_less (searchTiles ++ search_matches world searchId mapId mapId)
  else
    searchTiles

/-- The six keys of a selected tile as an element of the lexicographic order
on `(map, room.y, room.x, pos.y, pos.x, layer)` (specification side). -/
def tile_key (t : SelectedTile) : Lex (Int × Lex (Int × Lex (Int × Lex (Int × Lex (Int × Int))))) :=
  toLex (t.map, toLex (t.room.y, toLex (t.room.x, toLex (t.pos.y, toLex (t.pos.x, t.layer)))))

/-- A vector is sorted ascending in the lexicographic order of the keys
(specification side): no element has a larger key than a later one. -/
def sorted_by_key (v : List SelectedTile) : Prop :=
  v.Pairwise fun a b => tile_key a ≤ tile_key b

/-- A selected tile with the given keys `(map, room.y, room.x, pos.y, pos.x,
layer)`, for the examples. -/
def tile_at (map room_y room_x pos_y pos_x layer : Int) : SelectedTile :=
  { tile := { map := map, room := 0, layer := layer.toNat, y := pos_y.toNat, x := pos_x.toNat }
    room := { x := room_x, y := room_y }
    pos := { x := pos_x, y := pos_y }
    layer := layer
    map := map }

/-- A world whose map 1 has a single room at `(3, 2)` in which the tiles at
`(layer, y, x) = (0, 0, 1)` and `(1, 0, 0)` have id 7; every other id is 0. -/
def example_world : World :=
  { player_map := 1
    map := fun mapId =>
      if mapId = 1 then
        [{ x := 3, y := 2
           tiles := fun l y x => if (l = 0 ∧ y = 0 ∧ x = 1) ∨ (l = 1 ∧ y = 0 ∧ x = 0) then 7 else 0 }]
      else [] }

/-! ## `UI::Cheats` (src/dll/ui.cpp, lines 32-34 and 2790-2900) and `Max::get` (src/max.cpp, lines 11-24)

`write_mem_recoverable` and `recover_mem` are calls of the patch manager; the
model records them, in order, as `PatchOp` values. -/

/-- What a call of `UI::Cheats` reads besides the globals of the registry:
`options[name].value`, the member `doWarp`, what `Block()` returns, and the
helper `get_nop` of `memory.h` (the bytes written for `get_nop(n)`). -/
structure CheatsInputs where
  options : String → Bool
  doWarp : Bool
  Block : Bool
  get_nop : Nat → List Byte

/-- The function `CheatsEnabled` of lines 32-34. -/
def CheatsEnabled (inp : CheatsInputs) : Bool :=
  inp.options "cheat_active" && (inp.options "ui_visible" || !inp.options "ui_ignore_cheats")

/-- The state that `UI::Cheats` changes besides the globals of the registry: the
function-local static `is_init` of `max.cpp` (line 7) and the calls of the
patch manager made so far, in order. -/
structure CheatsState where
  is_init : Bool
  calls : List PatchOp
  deriving DecidableEq, Repr

/-- One more call of the patch manager. -/
def CheatsState.call (st : CheatsState) (op : PatchOp) : CheatsState :=
  { st with calls := st.calls ++ [op] }

/-- The patch name a call of the patch manager is made for. -/
def PatchOp.name : PatchOp → String
  | .apply name _ _ => name
  | .revert name => name

/-- The calls of the patch manager made for the patch `patch_name`, in order. -/
def calls_for (patch_name : String) (calls : List PatchOp) : List PatchOp :=
  calls.filter fun c => c.name == patch_name

/-- Sequencing: the second computation runs on what the first one returns; it
does not run when the first one ends the process or does not come back. -/
def and_then {α β : Type} (r : Option (Outcome α)) (k : α → Globals → Option (Outcome β)) :
    Option (Outcome β) :=
  match r with
  | none => none
  | some (.terminated g) => some (.terminated g)
  | some (.ok a g) => k a g

/-- The function `Max::get` of `max.cpp`, lines 11-24: on the first call it runs
`preload_addresses`, looks up `"check"` and, when the address is not zero,
calls `write_mem_recoverable("check", off, "E9 01 03 00 00 90"_gh, true)`. -/
def Max_get (ctx : Ctx) (fuel : Nat) (st : CheatsState) (g : Globals) :
    Option (Outcome CheatsState) :=
  if st.is_init then some (.ok st g)
  else
    and_then (preload_addresses ctx fuel g) fun _ g1 =>
      and_then (get_address ctx fuel "check" g1) fun off g2 =>
        some (.ok
          { is_init := true
            calls :=
              if off != 0 then st.calls ++ [.apply "check" off [0xE9, 0x01, 0x03, 0x00, 0x00, 0x90]]
              else st.calls } g2)

/-- The statements of `UI::Cheats`, by shape. -/
inductive CheatStatement where
  /-- The statement
  `if (condition && get_address(address_name) && CheatsEnabled())
     write_mem_recoverable(patch_name, get_address(address_name), bytes, true);
   else recover_mem(patch_name);`. -/
  | toggle (condition : Bool) (address_name patch_name : String) (bytes : List Byte)
  /-- Lines 2797-2806: as `toggle` for the address `"keyboard"` and the patch
  `"block"`, with the write under the inner `if (Block())`. -/
  | block (condition : Bool) (bytes : List Byte)
  /-- Lines 2879-2881: `if (condition && CheatsEnabled()) *Max::get().player_state() = 18;`. -/
  | noclip (condition : Bool)
  /-- Lines 2883-2892: the two patches `"groundhog_day"` and `"groundhog_day2"`. -/
  | groundhog (condition : Bool) (bytes : List Byte)

/-- One statement of `UI::Cheats`. In a condition `a && b && c` the operands
are evaluated from left to right and only as far as needed, so `get_address`
is called only when the option is on, once in the condition and once more for
the argument of `write_mem_recoverable`. The store of line 2880 goes to the
game memory, which the model does not hold; `player_state()` calls
`get_address("slots")` (`max.cpp`, lines 44-46 and 64). -/
def exec_statement (ctx : Ctx) (fuel : Nat) (inp : CheatsInputs) (st : CheatsState) (g : Globals) :
    CheatStatement → Option (Outcome CheatsState)
  | .toggle condition address_name patch_name bytes =>
    if condition then
      and_then (get_address ctx fuel address_name g) fun a g1 =>
        if a != 0 && CheatsEnabled inp then
          and_then (get_address ctx fuel address_name g1) fun a2 g2 =>
            some (.ok (st.call (.apply patch_name a2 bytes)) g2)
        else some (.ok (st.call (.revert patch_name)) g1)
    else some (.ok (st.call (.revert patch_name)) g)
  | .block condition bytes =>
    if condition then
      and_then (get_address ctx fuel "keyboard" g) fun a g1 =>
        if a != 0 && CheatsEnabled inp then
          if inp.Block then
            and_then (get_address ctx fuel "keyboard" g1) fun a2 g2 =>
              some (.ok (st.call (.apply "block" a2 bytes)) g2)
          else some (.ok (st.call (.revert "block")) g1)
        else some (.ok (st.call (.revert "block")) g1)
    else some (.ok (st.call (.revert "block")) g)
  | .noclip condition =>
    if condition && CheatsEnabled inp then
      and_then (Max_get ctx fuel st g) fun st1 g1 =>
        and_then (get_address ctx fuel "slots" g1) fun _ g2 => some (.ok st1 g2)
    else some (.ok st g)
  | .groundhog condition bytes =>
    if condition then
      and_then (get_address ctx fuel "groundhog_day" g) fun a g1 =>
        if a != 0 && CheatsEnabled inp then
          and_then (get_address ctx fuel "groundhog_day" g1) fun a2 g2 =>
            and_then (get_address ctx fuel "groundhog_day" g2) fun a3 g3 =>
              some (.ok
                ((st.call (.apply "groundhog_day" a2 bytes)).call
                  (.apply "groundhog_day2" (add64 a3 26) bytes)) g3)
        else
          some (.ok ((st.call (.revert "groundhog_day")).call (.revert "groundhog_day2")) g1)
    else some (.ok ((st.call (.revert "groundhog_day")).call (.revert "groundhog_day2")) g)

/-- The statements of `UI::Cheats` from line 2791 to line 2900, in order, with
the byte strings of the `_gh` literals. The last statement of the function
(lines 2902-2909, `cheat_stats`) stores to the game memory through `Max`
accessors and makes no call of the patch manager; it is not part of the
list. -/
def cheats_statements (inp : CheatsInputs) : List CheatStatement :=
  [ .toggle inp.doWarp "warp" "warp" [0xEB],
    .block (inp.options "input_block") (inp.get_nop 6),
    .toggle (inp.options "cheat_damage") "damage" "damage" (inp.get_nop 6),
    .toggle (inp.options "cheat_godmode") "god" "god" [0xE9, 0x71, 0x01, 0x00, 0x00, 0x90],
    .toggle (inp.options "cheat_darkness") "render_darkness" "render_darkness" [0xEB, 0x19],
    .toggle (inp.options "cheat_lights") "render_lights" "render_lights"
      [0xE9, 0x8A, 0x00, 0x00, 0x00, 0x90],
    .toggle (inp.options "cheat_gameboy") "render_gameboy" "render_gameboy" [0xEB, 0x0E],
    .toggle (inp.options "cheat_clouds") "render_clouds" "render_clouds" [0xEB, 0x24],
    .toggle (inp.options "cheat_hud") "render_hud" "render_hud" [0xEB, 0x74],
    .toggle (inp.options "cheat_player") "render_player" "render_player" [0xC3],
    .toggle (inp.options "cheat_credits") "skip_credits" "skip_credits" (inp.get_nop 2),
    .noclip (inp.options "cheat_noclip"),
    .groundhog (inp.options "cheat_groundhog") (inp.get_nop 2),
    .toggle (inp.options "cheat_water") "render_water" "cheat_water" [0xEB] ]

/-- The statements that are left, one after the other. -/
def run_statements (ctx : Ctx) (fuel : Nat) (inp : CheatsInputs) :
    List CheatStatement → CheatsState → Globals → Option (Outcome CheatsState)
  | [], st, g => some (.ok st g)
  | s :: rest, st, g =>
    and_then (exec_statement ctx fuel inp st g s) fun st1 g1 =>
      run_statements ctx fuel inp rest st1 g1

/-- The function `UI::Cheats` up to line 2900. -/
def Cheats (ctx : Ctx) (fuel : Nat) (inp : CheatsInputs) (st : CheatsState) (g : Globals) :
    Option (Outcome CheatsState) :=
  run_statements ctx fuel inp (cheats_statements inp) st g

/-- The ten toggles with a single patch, each as (option, address name, patch
name, bytes) (specification side). -/
def single_patch_toggles (inp : CheatsInputs) : List (String × String × String × List Byte) :=
  [ ("cheat_damage", "damage", "damage", inp.get_nop 6),
    ("cheat_godmode", "god", "god", [0xE9, 0x71, 0x01, 0x00, 0x00, 0x90]),
    ("cheat_darkness", "render_darkness", "render_darkness", [0xEB, 0x19]),
    ("cheat_lights", "render_lights", "render_lights", [0xE9, 0x8A, 0x00, 0x00, 0x00, 0x90]),
    ("cheat_gameboy", "render_gameboy", "render_gameboy", [0xEB, 0x0E]),
    ("cheat_clouds", "render_clouds", "render_clouds", [0xEB, 0x24]),
    ("cheat_hud", "render_hud", "render_hud", [0xEB, 0x74]),
    ("cheat_player", "render_player", "render_player", [0xC3]),
    ("cheat_credits", "skip_credits", "skip_credits", inp.get_nop 2),
    ("cheat_water", "render_water", "cheat_water", [0xEB]) ]

/-- The value `get_address(name)` returns when every registered name is in the
cache: the cached value, or 0 for a name without a rule. -/
def lookup_value (cache : List (String × Nat)) (name : String) : Nat :=
  (map_find cache name).getD 0

/-- The call the claim predicts for a toggle (specification side):
`write_mem_recoverable` at the looked-up address if the option is on, the
address is not zero and cheats are enabled, otherwise `recover_mem`. -/
def toggle_call (inp : CheatsInputs) (option : Bool) (address : Nat) (patch_name : String)
    (bytes : List Byte) : PatchOp :=
  if option && address != 0 && CheatsEnabled inp then .apply patch_name address bytes
  else .revert patch_name

/-- The calls of the patch manager one statement makes when every lookup is
answered from `cache` (specification side). -/
def expected_calls (inp : CheatsInputs) (cache : List (String × Nat)) : CheatStatement → List PatchOp
  | .toggle condition address_name patch_name bytes =>
    [toggle_call inp condition (lookup_value cache address_name) patch_name bytes]
  | .block condition bytes =>
    [toggle_call inp (condition && inp.Block) (lookup_value cache "keyboard") "block" bytes]
  | .noclip _ => []
  | .groundhog condition bytes =>
    if condition && lookup_value cache "groundhog_day" != 0 && CheatsEnabled inp then
      [.apply "groundhog_day" (lookup_value cache "groundhog_day") bytes,
        .apply "groundhog_day2" (add64 (lookup_value cache "groundhog_day") 26) bytes]
    else [.revert "groundhog_day", .revert "groundhog_day2"]

/-- The patch names a statement makes its calls for, one entry per call. -/
def patch_names : CheatStatement → List String
  | .toggle _ _ patch_name _ => [patch_name]
  | .block _ _ => ["block"]
  | .noclip _ => []
  | .groundhog _ _ => ["groundhog_day", "groundhog_day2"]

/-- The calls of the patch manager a statement can make when it returns, with
`v` for the address its lookup gave (specification side). The statement of
lines 2879-2881 makes none, or the one call of `Max::get` for `"check"`. -/
def allowed_calls (inp : CheatsInputs) : CheatStatement → List PatchOp → Prop
  | .toggle condition _ patch_name bytes, new =>
    ∃ v, new = [toggle_call inp condition v patch_name bytes]
  | .block condition bytes, new =>
    ∃ v, new = [toggle_call inp (condition && inp.Block) v "block" bytes]
  | .noclip _, new => new = [] ∨ ∃ off bytes, new = [.apply "check" off bytes]
  | .groundhog condition bytes, new =>
    ∃ v, new =
      if condition && v != 0 && CheatsEnabled inp then
        [.apply "groundhog_day" v bytes, .apply "groundhog_day2" (add64 v 26) bytes]
      else [.revert "groundhog_day", .revert "groundhog_day2"]

/-- The calls a series of statements can make when it returns: those of the
first statement followed by those of the rest (specification side). -/
def run_allowed (inp : CheatsInputs) : List CheatStatement → List PatchOp → Prop
  | [], new => new = []
  | s :: rest, new =>
    ∃ first later, new = first ++ later ∧ allowed_calls inp s first ∧ run_allowed inp rest later

/-- A rule table with the single rule `"damage"`, which yields the absolute
address of the image offset `0x1000`. -/
def cheats_ctx : Ctx :=
  example_ctx (image_of []) 0 0x2000
    [("damage", (PatternCommandBuffer.empty.from_exe_base 0x1000).at_exe)] false

/-- The globals after the rule `"damage"` has been resolved. -/
def cheats_globals : Globals :=
  { g_cached_addresses := [("damage", 0x7ff600001000)], notices := [], debug_log := [] }

/-- Inputs of `UI::Cheats` with the options `cheat_active`, `ui_visible` and
`cheat_damage` on and every other option off; `get_nop(n)` is `n` bytes `90`. -/
def cheats_inputs : CheatsInputs :=
  { options := fun name => name == "cheat_active" || name == "ui_visible" || name == "cheat_damage"
    doWarp := false
    Block := false
    get_nop := fun n => List.replicate n 0x90 }

/-! ## Lemmas about the scan -/

theorem needle_loop_iff (exe : Nat → Byte) (j : Nat) (needle : List Byte) (k0 : Nat) :
    needle_loop exe j needle k0 = true ↔
      ∀ k, ∀ h : k < needle.length,
        needle.get ⟨k, h⟩ = WILDCARD ∨ needle.get ⟨k, h⟩ = exe (j + (k0 + k)) := by
  induction needle generalizing k0 with
  | nil => simp [needle_loop]
  | cons c rest ih =>
    simp only [needle_loop, Bool.and_eq_true, Bool.or_eq_true, beq_iff_eq, ih]
    constructor
    · rintro ⟨h0, hrest⟩ k hk
      cases k with
      | zero => simpa using h0
      | succ k =>
        have := hrest k (by simpa using hk)
        simpa [Nat.add_assoc, Nat.add_comm 1 k] using this
    · intro h
      refine ⟨by simpa using h 0 (by simp), fun k hk => ?_⟩
      have := h (k + 1) (by simpa using hk)
      simpa [Nat.add_assoc, Nat.add_comm 1 k] using this

theorem needle_found_iff (exe : Nat → Byte) (needle : List Byte) (j : Nat) :
    needle_found exe needle j = true ↔ MatchesAt exe needle j := by
  simp [needle_found, MatchesAt, needle_loop_iff]

theorem find_inst_loop_some (exe : Nat → Byte) (needle : List Byte) (n start j : Nat)
    (h : find_inst_loop exe needle n start = some j) :
    start ≤ j ∧ j < start + n ∧ needle_found exe needle j = true ∧
      ∀ i, start ≤ i → i < j → needle_found exe needle i = false := by
  induction n generalizing start with
  | zero => simp [find_inst_loop] at h
  | succ n ih =>
    simp only [find_inst_loop] at h
    by_cases hf : needle_found exe needle start = true
    · simp only [hf, if_true, Option.some.injEq] at h
      subst h
      exact ⟨le_rfl, by omega, hf, fun i h1 h2 => by omega⟩
    · simp only [hf] at h
      obtain ⟨h1, h2, h3, h4⟩ := ih (start + 1) h
      refine ⟨by omega, by omega, h3, fun i hi1 hi2 => ?_⟩
      by_cases hi : i = start
      · subst hi
        simpa using hf
      · exact h4 i (by omega) hi2

theorem scan_bound_eq (needle : List Byte) (search_end : Nat)
    (h1 : needle.length ≤ search_end) (h2 : search_end < 2 ^ 64) :
    scan_bound needle search_end = search_end - needle.length := by
  have h3 : needle.length % 2 ^ 64 = needle.length := Nat.mod_eq_of_lt (by omega)
  simp only [scan_bound, sub64, SIZE, h3]
  have h4 : search_end + (2 ^ 64 - needle.length) = (search_end - needle.length) + 2 ^ 64 := by
    omega
  rw [h4, Nat.add_mod_right]
  exact Nat.mod_eq_of_lt (by omega)


theorem find_inst_scan_none (exe : Nat → Byte) (needle : List Byte) (start search_end : Nat)
    (hlen : needle.length ≤ search_end) (hend : search_end < 2 ^ 64)
    (habs : ∀ j, start ≤ j → j + needle.length < search_end → ¬ MatchesAt exe needle j) :
    find_inst_scan exe needle start search_end = none := by
  cases hres : find_inst_scan exe needle start search_end with
  | none => rfl
  | some r =>
    exfalso
    unfold find_inst_scan at hres
    rw [scan_bound_eq needle search_end hlen hend] at hres
    obtain ⟨r1, r2, r3, _⟩ := find_inst_loop_some exe needle _ start r hres
    exact habs r r1 (by omega) ((needle_found_iff exe needle r).mp r3)

/-! ## The claims -/

/-- C1 (failing input). On the two-byte image `41 42` the pattern `42` occurs at
offset 1, entirely inside `image[0, 2)` (`1 + 1 ≤ 2`), yet the scan of
`find_inst` with `start = 0` and `end = 2` visits only `j < 2 - 1` and ends
without a match: no call of `find_inst` returns offset 1 there. -/
theorem find_inst_misses_match_at_end :
    MatchesAt (image_of [0x41, 0x42]) [0x42] 1 ∧ 0 ≤ 1 ∧ 1 + [(0x42 : Byte)].length ≤ 2 ∧
      find_inst_scan (image_of [0x41, 0x42]) [0x42] 0 2 = none ∧
      (∀ is_required cancel : Bool,
        (find_inst (image_of [0x41, 0x42]) 2 [0x42] 0 (some 2) is_required cancel).returned
          ≠ some 1) ∧
      find_inst (image_of [0x41, 0x42]) 2 [0x42] 0 none false false = .logic_error := by
  decide

/-- C2. Whenever `find_inst` returns through line 167 with offset `j`, the
pattern matches the image at `j`, `j` is at least `start`, and the pattern
matches at no offset from `start` up to `j` (the first match wins). -/
theorem find_inst_found_is_first_match (exe : Nat → Byte) (exe_size : Nat) (needle : List Byte)
    (start : Nat) (end_ : Option Nat) (is_required cancel : Bool) (j : Nat)
    (h : find_inst exe exe_size needle start end_ is_required cancel = .found j) :
    (∀ k, ∀ hk : k < needle.length,
        needle.get ⟨k, hk⟩ = WILDCARD ∨ needle.get ⟨k, hk⟩ = exe (j + k)) ∧
      start ≤ j ∧ ∀ j', start ≤ j' → j' < j → ¬ MatchesAt exe needle j' := by
  unfold find_inst at h
  cases hres : find_inst_scan exe needle start (end_.getD exe_size) with
  | none =>
    simp only [hres] at h
    cases is_required <;> cases cancel <;> simp at h
  | some r =>
    simp only [hres, FindOutcome.found.injEq] at h
    subst h
    obtain ⟨r1, _, r3, r4⟩ := find_inst_loop_some exe needle _ start r hres
    refine ⟨(needle_found_iff exe needle r).mp r3, r1, fun j' h1 h2 hm => ?_⟩
    have := r4 j' h1 h2
    rw [(needle_found_iff exe needle j').mpr hm] at this
    exact Bool.noConfusion this

/-- Witness of C2: on the image `41 42 43 42` the pattern `42` is found at its
first occurrence, offset 1, and not at offset 3. -/
theorem find_inst_found_is_first_match_witness :
    (∀ k, ∀ hk : k < [(0x42 : Byte)].length,
        [(0x42 : Byte)].get ⟨k, hk⟩ = WILDCARD ∨
          [(0x42 : Byte)].get ⟨k, hk⟩ = image_of [0x41, 0x42, 0x43, 0x42] (1 + k)) ∧
      0 ≤ 1 ∧ ∀ j', 0 ≤ j' → j' < 1 → ¬ MatchesAt (image_of [0x41, 0x42, 0x43, 0x42]) [0x42] j' :=
  find_inst_found_is_first_match (image_of [0x41, 0x42, 0x43, 0x42]) 5 [0x42] 0 none false false 1
    (by decide)

/-- C3 (counterexample). On the image `41 42` the pattern `43` matches nowhere
in `image[0, 2)`, and still the required call, once the message box is
answered with OK, returns the value 0 to its caller: the same value that the
call for the pattern `41`, which does match at offset 0, returns. -/
theorem find_inst_required_miss_returns_offset :
    (∀ j, 0 ≤ j → j + [(0x43 : Byte)].length ≤ 2 → ¬ MatchesAt (image_of [0x41, 0x42]) [0x43] j) ∧
      (find_inst (image_of [0x41, 0x42]) 2 [0x43] 0 (some 2) true false).returned = some 0 ∧
      (find_inst (image_of [0x41, 0x42]) 2 [0x41] 0 (some 2) true false).returned = some 0 := by
  refine ⟨fun j _ hj => ?_, by decide, by decide⟩
  have hj2 : j < 2 := by simp at hj; omega
  interval_cases j <;> decide

/-- C3 (amended). When the pattern is no longer than the search end, and it
matches at no offset inside `image[start, end)`, the scan finds nothing: an
optional call throws `std::logic_error` and returns no value; a required call
shows the message box and then ends the process (Cancel) or returns the
value 0 (OK). -/
theorem find_inst_absent (exe : Nat → Byte) (exe_size : Nat) (needle : List Byte) (start : Nat)
    (end_ : Option Nat) (is_required cancel : Bool)
    (hlen : needle.length ≤ end_.getD exe_size) (hend : end_.getD exe_size < 2 ^ 64)
    (habs : ∀ j, start ≤ j → j + needle.length ≤ end_.getD exe_size → ¬ MatchesAt exe needle j) :
    find_inst exe exe_size needle start end_ is_required cancel =
        (if is_required then (if cancel then .terminate else .required_miss) else .logic_error) ∧
      (find_inst exe exe_size needle start end_ is_required cancel).notice = is_required ∧
      (find_inst exe exe_size needle start end_ is_required cancel).returned =
        (if is_required && !cancel then some 0 else none) := by
  have hscan : find_inst_scan exe needle start (end_.getD exe_size) = none :=
    find_inst_scan_none exe needle start _ hlen hend (fun j h1 h2 => habs j h1 (by omega))
  have hmain : find_inst exe exe_size needle start end_ is_required cancel =
      (if is_required then (if cancel then .terminate else .required_miss) else .logic_error) := by
    simp only [find_inst, hscan]
  rw [hmain]
  cases is_required <;> cases cancel <;> exact ⟨rfl, rfl, rfl⟩

/-- Witness of C3 (amended): the pattern `43` on the image `41 42`, required,
with the message box answered by OK. -/
theorem find_inst_absent_witness :
    find_inst (image_of [0x41, 0x42]) 2 [0x43] 0 none true false =
        (if true then (if false then .terminate else .required_miss) else .logic_error) ∧
      (find_inst (image_of [0x41, 0x42]) 2 [0x43] 0 none true false).notice = true ∧
      (find_inst (image_of [0x41, 0x42]) 2 [0x43] 0 none true false).returned =
        (if true && !false then some 0 else none) :=
  find_inst_absent (image_of [0x41, 0x42]) 2 [0x43] 0 none true false (by decide) (by decide)
    (fun j _ hj => by
      have hj2 : j < 2 := by simp at hj; omega
      interval_cases j <;> decide)

theorem le_uint_one (exe : Nat → Byte) (p : Nat) : le_uint exe p 1 = read_u8 exe p := by
  simp [le_uint, read_u8]

theorem le_uint_two (exe : Nat → Byte) (p : Nat) : le_uint exe p 2 = read_u16 exe p := by
  simp [le_uint, read_u16]

theorem le_uint_four (exe : Nat → Byte) (p : Nat) : le_uint exe p 4 = read_u32 exe p := by
  simp only [le_uint, read_u32, Nat.add_assoc]
  norm_num
  ring

theorem le_uint_eight (exe : Nat → Byte) (p : Nat) : le_uint exe p 8 = read_u64 exe p := by
  simp only [le_uint, read_u64, Nat.add_assoc]
  norm_num
  ring

theorem le_uint_lt (exe : Nat → Byte) (p n : Nat) : le_uint exe p n < 2 ^ (8 * n) := by
  induction n generalizing p with
  | zero => simp [le_uint]
  | succ n ih =>
    have h1 := ih (p + 1)
    have h2 := (exe p).isLt
    have h3 : 2 ^ (8 * (n + 1)) = 256 * 2 ^ (8 * n) := by
      rw [Nat.mul_add, Nat.pow_add]; norm_num; ring
    simp only [le_uint, h3]
    omega

theorem le_uint_congr (exe exe' : Nat → Byte) (p n : Nat)
    (h : ∀ i, i < n → exe' (p + i) = exe (p + i)) : le_uint exe' p n = le_uint exe p n := by
  induction n generalizing p with
  | zero => rfl
  | succ n ih =>
    simp only [le_uint]
    have h0 := h 0 (by omega)
    simp only [Nat.add_zero] at h0
    rw [h0, ih (p + 1) (fun i hi => by
      have := h (i + 1) (by omega)
      simpa [Nat.add_assoc, Nat.add_comm 1 i] using this)]

theorem to_signed_eq_sign_extend (n v : Nat) : to_signed (8 * n) v = sign_extend n v := by
  unfold to_signed sign_extend
  by_cases h : v < 2 ^ (8 * n - 1)
  · simp [h, Nat.not_le.mpr h]
  · simp [h, Nat.le_of_not_lt h]

/-- C4. For an operand size of 1, 2, 4 or 8 bytes, `decode_pc` reads the
little-endian integer of that many bytes at `offset + opcode_len` (a `size_t`
sum), sign-extends it to `v`, and returns
`offset + opcode_len + operand_size + suffix_len + v` modulo `2 ^ 64`. -/
theorem decode_pc_spec (exe : Nat → Byte) (offset opcode_len suffix_len operand_size : Nat)
    (hsize : operand_size = 1 ∨ operand_size = 2 ∨ operand_size = 4 ∨ operand_size = 8) :
    decode_pc exe offset opcode_len suffix_len operand_size =
      wrap64 ((offset : Int) + opcode_len + operand_size + suffix_len +
        sign_extend operand_size
          (le_uint exe ((offset + opcode_len) % 2 ^ 64) operand_size)) := by
  have hp : add64 offset opcode_len = (offset + opcode_len) % 2 ^ 64 := rfl
  rcases hsize with h | h | h | h <;> subst h
  · simp only [decode_pc, hp, le_uint_one, ← to_signed_eq_sign_extend]
    congr 1; push_cast; ring
  · simp only [decode_pc, hp, le_uint_two, ← to_signed_eq_sign_extend]
    congr 1; push_cast; ring
  · simp only [decode_pc, hp, le_uint_four, ← to_signed_eq_sign_extend]
    congr 1; push_cast; ring
  · simp only [decode_pc, hp, le_uint_eight, ← to_signed_eq_sign_extend]
    congr 1; push_cast; ring

/-- Witness of C4: the default decoding (3, 0, 4) at offset 0 of an image whose
bytes 3 to 6 hold `fe ff ff ff`, the signed 32-bit value `-2`, gives
`0 + 3 + 4 + 0 - 2 = 5`. -/
theorem decode_pc_spec_witness :
    ((4 : Nat) = 1 ∨ (4 : Nat) = 2 ∨ (4 : Nat) = 4 ∨ (4 : Nat) = 8) ∧
      decode_pc (image_of [0, 0, 0, 0xfe, 0xff, 0xff, 0xff]) 0 3 0 4 =
        wrap64 (((0 : Nat) : Int) + (3 : Nat) + (4 : Nat) + (0 : Nat) +
          sign_extend 4
            (le_uint (image_of [0, 0, 0, 0xfe, 0xff, 0xff, 0xff]) ((0 + 3) % 2 ^ 64) 4)) ∧
      sign_extend 4 (le_uint (image_of [0, 0, 0, 0xfe, 0xff, 0xff, 0xff]) 3 4) = -2 ∧
      decode_pc (image_of [0, 0, 0, 0xfe, 0xff, 0xff, 0xff]) 0 3 0 4 = 5 :=
  ⟨by decide,
    decode_pc_spec (image_of [0, 0, 0, 0xfe, 0xff, 0xff, 0xff]) 0 3 0 4 (by decide),
    by decide, by decide⟩

/-- C5. For a value size of 1, 2, 4 or 8 bytes, `decode_imm` returns the
little-endian unsigned integer formed by the bytes at `offset + opcode_len`
(a `size_t` sum); the result is below `2 ^ (8 * value_size)` (so also below
`2 ^ 64`), and it is the same for every image that has the same bytes in that
window. -/
theorem decode_imm_spec (exe : Nat → Byte) (offset opcode_len value_size : Nat)
    (hsize : value_size = 1 ∨ value_size = 2 ∨ value_size = 4 ∨ value_size = 8) :
    decode_imm exe offset opcode_len value_size =
        le_uint exe ((offset + opcode_len) % 2 ^ 64) value_size ∧
      decode_imm exe offset opcode_len value_size < 2 ^ (8 * value_size) ∧
      decode_imm exe offset opcode_len value_size < 2 ^ 64 ∧
      ∀ exe' : Nat → Byte,
        (∀ i, i < value_size →
          exe' ((offset + opcode_len) % 2 ^ 64 + i) = exe ((offset + opcode_len) % 2 ^ 64 + i)) →
        decode_imm exe' offset opcode_len value_size =
          decode_imm exe offset opcode_len value_size := by
  have hp : add64 offset opcode_len = (offset + opcode_len) % 2 ^ 64 := rfl
  have heq : ∀ e : Nat → Byte, decode_imm e offset opcode_len value_size =
      le_uint e ((offset + opcode_len) % 2 ^ 64) value_size := by
    intro e
    rcases hsize with h | h | h | h <;> subst h
    · simp only [decode_imm, hp, le_uint_one]
    · simp only [decode_imm, hp, le_uint_two]
    · simp only [decode_imm, hp, le_uint_four]
    · simp only [decode_imm, hp, le_uint_eight]
  have hlt := le_uint_lt exe ((offset + opcode_len) % 2 ^ 64) value_size
  refine ⟨heq exe, by rw [heq exe]; exact hlt, ?_, ?_⟩
  · rw [heq exe]
    refine lt_of_lt_of_le hlt (Nat.pow_le_pow_right (by norm_num) ?_)
    rcases hsize with h | h | h | h <;> subst h <;> norm_num
  · intro exe' h
    rw [heq exe', heq exe]
    exact le_uint_congr exe exe' _ _ h

/-- Witness of C5: a two-byte immediate `34 12` after a one-byte opcode reads
as `0x1234`, whatever the bytes around it are. -/
theorem decode_imm_spec_witness :
    ((2 : Nat) = 1 ∨ (2 : Nat) = 2 ∨ (2 : Nat) = 4 ∨ (2 : Nat) = 8) ∧
      (decode_imm (image_of [0xb8, 0x34, 0x12, 0xff]) 0 1 2 =
          le_uint (image_of [0xb8, 0x34, 0x12, 0xff]) ((0 + 1) % 2 ^ 64) 2 ∧
        decode_imm (image_of [0xb8, 0x34, 0x12, 0xff]) 0 1 2 < 2 ^ (8 * 2) ∧
        decode_imm (image_of [0xb8, 0x34, 0x12, 0xff]) 0 1 2 < 2 ^ 64 ∧
        ∀ exe' : Nat → Byte,
          (∀ i, i < 2 →
            exe' ((0 + 1) % 2 ^ 64 + i) = image_of [0xb8, 0x34, 0x12, 0xff] ((0 + 1) % 2 ^ 64 + i)) →
          decode_imm exe' 0 1 2 = decode_imm (image_of [0xb8, 0x34, 0x12, 0xff]) 0 1 2) ∧
      decode_imm (image_of [0xb8, 0x34, 0x12, 0xff]) 0 1 2 = 0x1234 :=
  ⟨by decide,
    decode_imm_spec (image_of [0xb8, 0x34, 0x12, 0xff]) 0 1 2 (by decide),
    by decide⟩

/-! ## Lemmas about the pipeline and the registry -/

theorem matches_byte (exe : Nat → Byte) (needle : List Byte) (j : Nat)
    (h : MatchesAt exe needle j) (k : Nat) (hk : k < needle.length)
    (hw : needle.get ⟨k, hk⟩ ≠ WILDCARD) : exe (j + k) = needle.get ⟨k, hk⟩ := by
  rcases h k hk with h1 | h1
  · exact absurd h1 hw
  · exact h1.symm

theorem run_commands_append (ctx : Ctx) (resolve : String → Globals → Option (Outcome Nat))
    (name : String) (pre post : List Command) (o : Nat) (b : Bool) (g : Globals) :
    run_commands ctx resolve name (pre ++ post) o b g =
      match run_commands ctx resolve name pre o b g with
      | some (.ok (.next o1 b1) g1) => run_commands ctx resolve name post o1 b1 g1
      | r => r := by
  induction pre generalizing o b g with
  | nil => simp [run_commands]
  | cons c rest ih =>
    simp only [List.cons_append, run_commands]
    cases h : exec_command ctx resolve name o b g c with
    | none => simp
    | some out =>
      cases out with
      | terminated g1 => simp
      | ok fl g1 =>
        cases fl with
        | next o1 b1 => simp [ih]
        | done r => simp

theorem exec_command_done (ctx : Ctx) (resolve : String → Globals → Option (Outcome Nat))
    (name : String) (o : Nat) (b : Bool) (g : Globals) (c : Command) (r : Option Nat)
    (g1 : Globals) (h : exec_command ctx resolve name o b g c = some (.ok (.done r) g1)) :
    r = some 0 := by
  cases c with
  | GetAddress n =>
    simp only [exec_command] at h
    cases hr : resolve n g with
    | none => simp [hr] at h
    | some out =>
      cases out with
      | terminated g2 => simp [hr] at h
      | ok a g2 =>
        simp only [hr] at h
        split at h
        · simp at h; exact h.1.symm
        · simp at h
  | FindInst pattern range =>
    simp only [exec_command] at h
    split at h <;> simp at h
    exact h.1.symm
  | _ => simp [exec_command] at h

theorem run_commands_done (ctx : Ctx) (resolve : String → Globals → Option (Outcome Nat))
    (name : String) (cmds : List Command) (o : Nat) (b : Bool) (g : Globals) (r : Option Nat)
    (g1 : Globals) (h : run_commands ctx resolve name cmds o b g = some (.ok (.done r) g1)) :
    r = some 0 := by
  induction cmds generalizing o b g with
  | nil => simp [run_commands] at h
  | cons c rest ih =>
    simp only [run_commands] at h
    cases hc : exec_command ctx resolve name o b g c with
    | none => simp [hc] at h
    | some out =>
      cases out with
      | terminated g2 => simp [hc] at h
      | ok fl g2 =>
        cases fl with
        | next o1 b1 =>
          simp only [hc] at h
          exact ih o1 b1 g2 h
        | done r2 =>
          simp only [hc, Option.some.injEq, Outcome.ok.injEq, Flow.done.injEq] at h
          obtain ⟨h1, h2⟩ := h
          subst h1 h2
          exact exec_command_done ctx resolve name o b g c r2 g2 hc

theorem call_never_empty (self : PatternCommandBuffer) (ctx : Ctx)
    (resolve : String → Globals → Option (Outcome Nat)) (name : String) (g g1 : Globals) :
    self.call ctx resolve name g ≠ some (.ok none g1) := by
  intro h
  unfold PatternCommandBuffer.call at h
  cases hr : run_commands ctx resolve name self.commands ctx.mem.after_bundle false g with
  | none => simp [hr] at h
  | some out =>
    cases out with
    | terminated g2 => simp [hr] at h
    | ok fl g2 =>
      cases fl with
      | next o1 b1 => simp [hr] at h
      | done r =>
        have := run_commands_done ctx resolve name _ _ _ _ r g2 hr
        subst this
        simp [hr] at h

theorem map_find_map_set_self {α : Type} (c : List (String × α)) (k : String) (v : α) :
    map_find (map_set c k v) k = some v := by
  induction c with
  | nil => simp [map_set, map_find]
  | cons e rest ih =>
    obtain ⟨k1, v1⟩ := e
    by_cases h : k1 = k
    · simp [map_set, map_find, h]
    · simp [map_set, map_find, h, ih]

theorem map_find_map_set_other {α : Type} (c : List (String × α)) (k k' : String) (v : α)
    (hne : k ≠ k') : map_find (map_set c k v) k' = map_find c k' := by
  induction c with
  | nil => simp [map_set, map_find, hne]
  | cons e rest ih =>
    obtain ⟨k1, v1⟩ := e
    by_cases h : k1 = k
    · subst h
      simp [map_set, map_find, hne]
    · by_cases h2 : k1 = k'
      · subst h2
        simp [map_set, map_find, h]
      · simp [map_set, map_find, h, h2, ih]

theorem load_address_succ (ctx : Ctx) (fuel : Nat) (address_name : String) (g : Globals) :
    load_address ctx (fuel + 1) address_name g =
      match map_find ctx.g_address_rules address_name with
      | some rule =>
        match rule.call ctx (get_address ctx fuel) address_name g with
        | none => none
        | some (.terminated g1) => some (.terminated g1)
        | some (.ok (some address) g1) =>
          some (.ok address
            { g1 with g_cached_addresses := map_set g1.g_cached_addresses address_name address })
        | some (.ok none g1) => some (.ok 0 (g1.notify (.unknown_address address_name)))
      | none => some (.ok 0 (g.notify (.unknown_address address_name))) := by
  rfl


/-- C7 (counterexample). The rule `"missing"` has one pattern step, optional,
and the pattern `43` does not match the image `41 42`. Its pipeline returns a
present value, 0, not an empty one; `get_address` returns that 0 and stores
it in the cache as the address of `"missing"`. -/
theorem optional_miss_returns_zero_value :
    find_inst_scan missing_ctx.exe [0x43] 0 2 = none ∧
      missing_buffer.call missing_ctx (get_address missing_ctx 0) "missing" Globals.initial =
        some (.ok (some 0) Globals.initial) ∧
      missing_buffer.call missing_ctx (get_address missing_ctx 0) "missing" Globals.initial ≠
        some (.ok none Globals.initial) ∧
      get_address missing_ctx 1 "missing" Globals.initial =
        some (.ok 0 { g_cached_addresses := [("missing", 0)], notices := [], debug_log := [] }) := by
  decide

/-- C7 (amended). If the pipeline registered for a name reaches a pattern step
with the optional flag set and the pattern is not found, the pipeline ends
there with the present value 0 and no later step runs; `get_address` returns
0 for the name, stores 0 in the cache, shows no message box and throws
nothing. -/
theorem get_address_optional_miss (ctx : Ctx) (fuel : Nat) (address_name : String)
    (g g1 : Globals) (before after : List Command) (pattern : List Byte) (range : Option Nat)
    (o : Nat)
    (hcache : map_find g.g_cached_addresses address_name = none)
    (hrule : map_find ctx.g_address_rules address_name =
      some { commands := before ++ Command.FindInst pattern range :: after })
    (hbefore : run_commands ctx (get_address ctx fuel) address_name before ctx.mem.after_bundle
      false g = some (.ok (.next o true) g1))
    (hmiss : find_inst_scan ctx.exe pattern o ((range.map (add64 o)).getD ctx.exe_size) = none) :
    PatternCommandBuffer.call { commands := before ++ Command.FindInst pattern range :: after } ctx
        (get_address ctx fuel) address_name g = some (.ok (some 0) g1) ∧
      get_address ctx (fuel + 1) address_name g =
        some (.ok 0 { g1 with g_cached_addresses := map_set g1.g_cached_addresses address_name 0 }) ∧
      ({ g1 with g_cached_addresses := map_set g1.g_cached_addresses address_name 0 } : Globals).notices
        = g1.notices := by
  have hfind : ∀ c, find_inst ctx.exe ctx.exe_size pattern o (range.map (add64 o)) (!true) c =
      .logic_error := by
    intro c
    simp [find_inst, hmiss]
  have hcall : PatternCommandBuffer.call
      { commands := before ++ Command.FindInst pattern range :: after } ctx
      (get_address ctx fuel) address_name g = some (.ok (some 0) g1) := by
    simp only [PatternCommandBuffer.call, run_commands_append, hbefore, run_commands, exec_command,
      hfind]
  refine ⟨hcall, ?_, rfl⟩
  simp only [get_address, hcache, load_address_succ, hrule, hcall]

/-- Witness of C7 (amended): the rule `"missing"` over the image `41 42`. -/
theorem get_address_optional_miss_witness :
    missing_buffer.call missing_ctx (get_address missing_ctx 0) "missing" Globals.initial =
        some (.ok (some 0) Globals.initial) ∧
      get_address missing_ctx (0 + 1) "missing" Globals.initial =
        some (.ok 0 { Globals.initial with
          g_cached_addresses := map_set Globals.initial.g_cached_addresses "missing" 0 }) ∧
      ({ Globals.initial with
          g_cached_addresses := map_set Globals.initial.g_cached_addresses "missing" 0 } :
            Globals).notices = Globals.initial.notices :=
  get_address_optional_miss missing_ctx 0 "missing" Globals.initial Globals.initial
    [Command.SetOptional true] [Command.AtExe] [0x43] none 0 (by decide) (by decide) (by decide)
    (by decide)

/-- C8 (counterexample). The rule `"needed"` starts with a required pattern
step whose pattern `43` does not match the image `41 42`. With the message
box answered by OK the later steps Offset(7) and AtExe still run, from offset
0, and the pipeline yields the address `0x7ff600000007`, which `get_address`
returns and caches. -/
theorem required_miss_runs_later_steps :
    find_inst_scan needed_ctx.exe [0x43] 0 2 = none ∧
      needed_buffer.commands = [Command.FindInst [0x43] none, Command.Offset 7, Command.AtExe] ∧
      needed_buffer.call needed_ctx (get_address needed_ctx 0) "needed" Globals.initial =
        some (.ok (some 0x7ff600000007)
          (Globals.initial.notify (.pattern_not_found "needed" [0x43]))) ∧
      get_address needed_ctx 1 "needed" Globals.initial =
        some (.ok 0x7ff600000007
          { g_cached_addresses := [("needed", 0x7ff600000007)],
            notices := [.pattern_not_found "needed" [0x43]], debug_log := [] }) := by
  decide

/-- C8 (amended). If a pattern step is reached with the optional flag clear and
the pattern is not found, the message box is shown; answered with Cancel, the
process ends at that step and no later step runs; answered with OK, the step
sets the current offset to 0 and the later steps run from there, so the
pipeline yields what they compute from offset 0. -/
theorem required_miss_continues (ctx : Ctx) (resolve : String → Globals → Option (Outcome Nat))
    (address_name : String) (g g1 : Globals) (before after : List Command)
    (pattern : List Byte) (range : Option Nat) (o0 o : Nat) (b0 : Bool)
    (hbefore : run_commands ctx resolve address_name before o0 b0 g =
      some (.ok (.next o false) g1))
    (hmiss : find_inst_scan ctx.exe pattern o ((range.map (add64 o)).getD ctx.exe_size) = none) :
    run_commands ctx resolve address_name (before ++ Command.FindInst pattern range :: after)
        o0 b0 g =
      if ctx.msgbox_cancel g1.notices.length then
        some (.terminated (g1.notify (.pattern_not_found address_name pattern)))
      else
        run_commands ctx resolve address_name after 0 false
          (g1.notify (.pattern_not_found address_name pattern)) := by
  have hfind : find_inst ctx.exe ctx.exe_size pattern o (range.map (add64 o)) (!false)
      (ctx.msgbox_cancel g1.notices.length) =
      if ctx.msgbox_cancel g1.notices.length then .terminate else .required_miss := by
    simp [find_inst, hmiss]
  simp only [run_commands_append, hbefore, run_commands, exec_command, hfind]
  cases ctx.msgbox_cancel g1.notices.length <;> simp

/-- Witness of C8 (amended): the rule `"needed"` over the image `41 42`. -/
theorem required_miss_continues_witness :
    run_commands needed_ctx (get_address needed_ctx 0) "needed"
        ([] ++ Command.FindInst [0x43] none :: [Command.Offset 7, Command.AtExe]) 0 false
        Globals.initial =
      if needed_ctx.msgbox_cancel Globals.initial.notices.length then
        some (.terminated (Globals.initial.notify (.pattern_not_found "needed" [0x43])))
      else
        run_commands needed_ctx (get_address needed_ctx 0) "needed"
          [Command.Offset 7, Command.AtExe] 0 false
          (Globals.initial.notify (.pattern_not_found "needed" [0x43])) :=
  required_miss_continues needed_ctx (get_address needed_ctx 0) "needed" Globals.initial
    Globals.initial [] [Command.Offset 7, Command.AtExe] [0x43] none 0 0 false (by decide)
    (by decide)


/-! ### The cache entry of a name survives every later resolution -/

theorem exec_command_keeps (ctx : Ctx) (resolve : String → Globals → Option (Outcome Nat))
    (key : String) (v : Nat)
    (hres : ∀ n g a g1, map_find g.g_cached_addresses key = some v →
      resolve n g = some (.ok a g1) → map_find g1.g_cached_addresses key = some v)
    (name : String) (o : Nat) (b : Bool) (g : Globals) (c : Command) (fl : Flow) (g1 : Globals)
    (hg : map_find g.g_cached_addresses key = some v)
    (h : exec_command ctx resolve name o b g c = some (.ok fl g1)) :
    map_find g1.g_cached_addresses key = some v := by
  cases c with
  | GetAddress n =>
    simp only [exec_command] at h
    cases hr : resolve n g with
    | none => simp [hr] at h
    | some out =>
      cases out with
      | terminated g2 => simp [hr] at h
      | ok a g2 =>
        have hk := hres n g a g2 hg hr
        simp only [hr] at h
        split at h <;> simp at h <;> obtain ⟨_, h2⟩ := h <;> subst h2 <;> exact hk
  | FindInst pattern range =>
    simp only [exec_command] at h
    split at h <;> simp at h <;> obtain ⟨_, h2⟩ := h <;> subst h2 <;> simpa [Globals.notify] using hg
  | _ =>
    simp only [exec_command, Option.some.injEq, Outcome.ok.injEq] at h
    obtain ⟨_, h2⟩ := h
    subst h2
    exact hg

theorem run_commands_keeps (ctx : Ctx) (resolve : String → Globals → Option (Outcome Nat))
    (key : String) (v : Nat)
    (hres : ∀ n g a g1, map_find g.g_cached_addresses key = some v →
      resolve n g = some (.ok a g1) → map_find g1.g_cached_addresses key = some v)
    (name : String) (cmds : List Command) (o : Nat) (b : Bool) (g : Globals) (fl : Flow)
    (g1 : Globals) (hg : map_find g.g_cached_addresses key = some v)
    (h : run_commands ctx resolve name cmds o b g = some (.ok fl g1)) :
    map_find g1.g_cached_addresses key = some v := by
  induction cmds generalizing o b g with
  | nil =>
    simp only [run_commands, Option.some.injEq, Outcome.ok.injEq] at h
    obtain ⟨_, h2⟩ := h
    subst h2
    exact hg
  | cons c rest ih =>
    simp only [run_commands] at h
    cases hc : exec_command ctx resolve name o b g c with
    | none => simp [hc] at h
    | some out =>
      cases out with
      | terminated g2 => simp [hc] at h
      | ok fl2 g2 =>
        have hk := exec_command_keeps ctx resolve key v hres name o b g c fl2 g2 hg hc
        cases fl2 with
        | next o1 b1 =>
          simp only [hc] at h
          exact ih o1 b1 g2 hk h
        | done r2 =>
          simp only [hc, Option.some.injEq, Outcome.ok.injEq] at h
          obtain ⟨_, h2⟩ := h
          subst h2
          exact hk

theorem call_keeps (self : PatternCommandBuffer) (ctx : Ctx)
    (resolve : String → Globals → Option (Outcome Nat)) (key : String) (v : Nat)
    (hres : ∀ n g a g1, map_find g.g_cached_addresses key = some v →
      resolve n g = some (.ok a g1) → map_find g1.g_cached_addresses key = some v)
    (name : String) (g : Globals) (r : Option Nat) (g1 : Globals)
    (hg : map_find g.g_cached_addresses key = some v)
    (h : self.call ctx resolve name g = some (.ok r g1)) :
    map_find g1.g_cached_addresses key = some v := by
  unfold PatternCommandBuffer.call at h
  cases hr : run_commands ctx resolve name self.commands ctx.mem.after_bundle false g with
  | none => simp [hr] at h
  | some out =>
    cases out with
    | terminated g2 => simp [hr] at h
    | ok fl g2 =>
      have hk := run_commands_keeps ctx resolve key v hres name _ _ _ g fl g2 hg hr
      cases fl with
      | next o1 b1 =>
        simp only [hr, Option.some.injEq, Outcome.ok.injEq] at h
        obtain ⟨_, h2⟩ := h
        subst h2
        exact hk
      | done r2 =>
        simp only [hr, Option.some.injEq, Outcome.ok.injEq] at h
        obtain ⟨_, h2⟩ := h
        subst h2
        exact hk

theorem get_address_keeps (ctx : Ctx) (key : String) (v : Nat) (fuel : Nat) :
    ∀ n g a g1, map_find g.g_cached_addresses key = some v →
      get_address ctx fuel n g = some (.ok a g1) → map_find g1.g_cached_addresses key = some v := by
  induction fuel with
  | zero =>
    intro n g a g1 hg h
    unfold get_address at h
    cases hc : map_find g.g_cached_addresses n with
    | some w =>
      simp only [hc, Option.some.injEq, Outcome.ok.injEq] at h
      obtain ⟨_, h2⟩ := h
      subst h2
      exact hg
    | none =>
      simp only [hc, load_address] at h
      split at h
      · simp at h
      · simp only [Option.some.injEq, Outcome.ok.injEq] at h
        obtain ⟨_, h2⟩ := h
        subst h2
        simpa [Globals.notify] using hg
  | succ fuel ih =>
    intro n g a g1 hg h
    unfold get_address at h
    cases hc : map_find g.g_cached_addresses n with
    | some w =>
      simp only [hc, Option.some.injEq, Outcome.ok.injEq] at h
      obtain ⟨_, h2⟩ := h
      subst h2
      exact hg
    | none =>
      have hne : n ≠ key := by
        intro e
        subst e
        rw [hg] at hc
        exact Option.noConfusion hc
      simp only [hc, load_address_succ] at h
      cases hrule : map_find ctx.g_address_rules n with
      | none =>
        simp only [hrule, Option.some.injEq, Outcome.ok.injEq] at h
        obtain ⟨_, h2⟩ := h
        subst h2
        simpa [Globals.notify] using hg
      | some rule =>
        simp only [hrule] at h
        cases hcall : rule.call ctx (get_address ctx fuel) n g with
        | none => simp [hcall] at h
        | some out =>
          cases out with
          | terminated g2 => simp [hcall] at h
          | ok r g2 =>
            have hk := call_keeps rule ctx (get_address ctx fuel) key v ih n g r g2 hg hcall
            cases r with
            | none =>
              simp only [hcall, Option.some.injEq, Outcome.ok.injEq] at h
              obtain ⟨_, h2⟩ := h
              subst h2
              simpa [Globals.notify] using hk
            | some addr =>
              simp only [hcall, Option.some.injEq, Outcome.ok.injEq] at h
              obtain ⟨_, h2⟩ := h
              subst h2
              simp only
              rw [map_find_map_set_other _ n key addr hne]
              exact hk

theorem get_address_caches (ctx : Ctx) (fuel : Nat) (name : String) (g g1 : Globals) (v : Nat)
    (hreg : (map_find ctx.g_address_rules name).isSome = true)
    (h : get_address ctx fuel name g = some (.ok v g1)) :
    map_find g1.g_cached_addresses name = some v := by
  unfold get_address at h
  cases hc : map_find g.g_cached_addresses name with
  | some w =>
    simp only [hc, Option.some.injEq, Outcome.ok.injEq] at h
    obtain ⟨h1, h2⟩ := h
    subst h1 h2
    exact hc
  | none =>
    simp only [hc] at h
    obtain ⟨rule, hrule⟩ := Option.isSome_iff_exists.mp hreg
    cases fuel with
    | zero => simp [load_address, hrule] at h
    | succ fuel =>
      simp only [load_address_succ, hrule] at h
      cases hcall : rule.call ctx (get_address ctx fuel) name g with
      | none => simp [hcall] at h
      | some out =>
        cases out with
        | terminated g2 => simp [hcall] at h
        | ok r g2 =>
          cases r with
          | none => exact absurd hcall (call_never_empty rule ctx _ name g g2)
          | some addr =>
            simp only [hcall, Option.some.injEq, Outcome.ok.injEq] at h
            obtain ⟨h1, h2⟩ := h
            subst h1 h2
            exact map_find_map_set_self _ _ _


theorem get_address_calls_keep (key : String) (v : Nat) (calls : List (Ctx × Nat × String))
    (g g1 : Globals) (hg : map_find g.g_cached_addresses key = some v)
    (h : get_address_calls calls g = some g1) :
    map_find g1.g_cached_addresses key = some v := by
  induction calls generalizing g with
  | nil =>
    simp only [get_address_calls, Option.some.injEq] at h
    subst h
    exact hg
  | cons c rest ih =>
    obtain ⟨ctx, fuel, n⟩ := c
    simp only [get_address_calls] at h
    cases hc : get_address ctx fuel n g with
    | none => simp [hc] at h
    | some out =>
      cases out with
      | terminated g2 => simp [hc] at h
      | ok a g2 =>
        simp only [hc] at h
        exact ih g2 (get_address_keeps ctx key v fuel n g a g2 hg hc) h

/-- C9. Once `get_address(name)` has resolved a registered name to `v`, then
after any further calls of `get_address` (for any names, over any images)
every call `get_address(name)` returns `v` and leaves the globals, the cache
included, as they are; it does so over every image and with no pipeline run
allowed at all (`fuel' = 0`). -/
theorem get_address_memoized (ctx : Ctx) (fuel : Nat) (address_name : String) (g g1 : Globals)
    (v : Nat) (calls : List (Ctx × Nat × String)) (g2 : Globals) (ctx' : Ctx) (fuel' : Nat)
    (hreg : (map_find ctx.g_address_rules address_name).isSome = true)
    (h : get_address ctx fuel address_name g = some (.ok v g1))
    (hcalls : get_address_calls calls g1 = some g2) :
    get_address ctx' fuel' address_name g2 = some (.ok v g2) ∧
      get_address ctx' 0 address_name g2 = some (.ok v g2) ∧
      map_find g2.g_cached_addresses address_name = some v := by
  have h1 := get_address_caches ctx fuel address_name g g1 v hreg h
  have h2 := get_address_calls_keep address_name v calls g1 g2 h1 hcalls
  simp [get_address, h2]

/-- Witness of C9: `"get_state_func"` is resolved over `get_state_func_image`;
then `"slots"` and `"get_state_func"` are asked for over an image of zero
bytes, where the signature no longer occurs; the cached address is returned. -/
theorem get_address_memoized_witness :
    get_address zero_image_ctx 1 "get_state_func"
        { g_cached_addresses := [("get_state_func", 0x7ff600049b8b), ("keyboard", 0x7ff600013aba)],
          notices := [], debug_log := [] } =
        some (.ok 0x7ff600049b8b
          { g_cached_addresses := [("get_state_func", 0x7ff600049b8b), ("keyboard", 0x7ff600013aba)],
            notices := [], debug_log := [] }) ∧
      get_address zero_image_ctx 0 "get_state_func"
        { g_cached_addresses := [("get_state_func", 0x7ff600049b8b), ("keyboard", 0x7ff600013aba)],
          notices := [], debug_log := [] } =
        some (.ok 0x7ff600049b8b
          { g_cached_addresses := [("get_state_func", 0x7ff600049b8b), ("keyboard", 0x7ff600013aba)],
            notices := [], debug_log := [] }) ∧
      map_find
        (Globals.g_cached_addresses
          { g_cached_addresses := [("get_state_func", 0x7ff600049b8b), ("keyboard", 0x7ff600013aba)],
            notices := [], debug_log := [] }) "get_state_func" =
        some 0x7ff600049b8b :=
  get_address_memoized get_state_func_ctx 1 "get_state_func" Globals.initial
    { g_cached_addresses := [("get_state_func", 0x7ff600049b8b)], notices := [], debug_log := [] }
    0x7ff600049b8b [(zero_image_ctx, 1, "keyboard"), (zero_image_ctx, 1, "get_state_func")]
    { g_cached_addresses := [("get_state_func", 0x7ff600049b8b), ("keyboard", 0x7ff600013aba)],
      notices := [], debug_log := [] }
    zero_image_ctx 1 (by decide) (by decide) (by decide)

/-- C10 (counterexample). The name `"nope"` is not in the rule table of the
source; `get_address("nope")` shows the message box and then returns the
value 0 to its caller, and the process goes on. -/
theorem get_address_unknown_returns_zero :
    map_find get_state_func_ctx.g_address_rules "nope" = none ∧
      get_address get_state_func_ctx 0 "nope" Globals.initial =
        some (.ok 0
          { g_cached_addresses := [], notices := [.unknown_address "nope"], debug_log := [] }) ∧
      (∀ g, get_address get_state_func_ctx 0 "nope" Globals.initial ≠ some (.terminated g)) := by
  refine ⟨by decide, by decide, fun g h => ?_⟩
  have h2 : get_address get_state_func_ctx 0 "nope" Globals.initial =
      some (.ok 0
        { g_cached_addresses := [], notices := [.unknown_address "nope"], debug_log := [] }) := by
    decide
  rw [h2] at h
  exact Outcome.noConfusion (Option.some.inj h)

/-- C10 (amended). For a name with no registered pipeline and no cache entry,
`get_address` shows the "unknown address" message box and then returns 0 to
its caller; nothing is stored in the cache and the process goes on. -/
theorem get_address_unknown (ctx : Ctx) (fuel : Nat) (address_name : String) (g : Globals)
    (hrule : map_find ctx.g_address_rules address_name = none)
    (hcache : map_find g.g_cached_addresses address_name = none) :
    get_address ctx fuel address_name g =
        some (.ok 0 (g.notify (.unknown_address address_name))) ∧
      (g.notify (.unknown_address address_name)).g_cached_addresses = g.g_cached_addresses ∧
      (g.notify (.unknown_address address_name)).notices =
        g.notices ++ [.unknown_address address_name] := by
  refine ⟨?_, rfl, rfl⟩
  unfold get_address
  cases fuel <;> simp [hcache, load_address, hrule]

/-- Witness of C10 (amended): the name `"nope"` and the rule table of the source. -/
theorem get_address_unknown_witness :
    get_address get_state_func_ctx 3 "nope" Globals.initial =
        some (.ok 0 (Globals.initial.notify (.unknown_address "nope"))) ∧
      (Globals.initial.notify (.unknown_address "nope")).g_cached_addresses =
        Globals.initial.g_cached_addresses ∧
      (Globals.initial.notify (.unknown_address "nope")).notices =
        Globals.initial.notices ++ [.unknown_address "nope"] :=
  get_address_unknown get_state_func_ctx 3 "nope" Globals.initial (by decide) (by decide)


/-! ## Invariants of a resolution -/

theorem find_inst_miss_of_notice (exe : Nat → Byte) (exe_size : Nat) (needle : List Byte)
    (start : Nat) (end_ : Option Nat) (is_required cancel : Bool)
    (h : find_inst exe exe_size needle start end_ is_required cancel = .required_miss ∨
      find_inst exe exe_size needle start end_ is_required cancel = .terminate) :
    find_inst_scan exe needle start (end_.getD exe_size) = none ∧ is_required = true := by
  unfold find_inst at h
  cases hs : find_inst_scan exe needle start (end_.getD exe_size) with
  | some j => simp [hs] at h
  | none =>
    refine ⟨rfl, ?_⟩
    cases is_required
    · simp [hs] at h
    · rfl

theorem exec_command_inv (ctx : Ctx) (resolve : String → Globals → Option (Outcome Nat))
    (I : Globals → Prop) (Q : String → Prop)
    (hmiss : ∀ g name p, I g → (∃ o e, find_inst_scan ctx.exe p o e = none) →
      I (g.notify (.pattern_not_found name p)))
    (hres : ∀ m g out, Q m → I g → resolve m g = some out → I out.globals)
    (name : String) (o : Nat) (b : Bool) (g : Globals) (c : Command) (out : Outcome Flow)
    (hc : ∀ m, c = Command.GetAddress m → Q m) (hg : I g)
    (h : exec_command ctx resolve name o b g c = some out) : I out.globals := by
  cases c with
  | GetAddress n =>
    simp only [exec_command] at h
    cases hr : resolve n g with
    | none => simp [hr] at h
    | some r =>
      have hk := hres n g r (hc n rfl) hg hr
      cases r with
      | terminated g2 =>
        simp only [hr, Option.some.injEq] at h
        subst h
        exact hk
      | ok a g2 =>
        simp only [hr] at h
        split at h <;> simp only [Option.some.injEq] at h <;> subst h <;> exact hk
  | FindInst pattern range =>
    simp only [exec_command] at h
    split at h
    · simp only [Option.some.injEq] at h; subst h; exact hg
    · rename_i hf
      simp only [Option.some.injEq] at h; subst h
      exact hmiss g name pattern hg ⟨o, _, (find_inst_miss_of_notice _ _ _ _ _ _ _ (Or.inl hf)).1⟩
    · rename_i hf
      simp only [Option.some.injEq] at h; subst h
      exact hmiss g name pattern hg ⟨o, _, (find_inst_miss_of_notice _ _ _ _ _ _ _ (Or.inr hf)).1⟩
    · simp only [Option.some.injEq] at h; subst h; exact hg
  | _ =>
    simp only [exec_command, Option.some.injEq] at h
    subst h
    exact hg

theorem run_commands_inv (ctx : Ctx) (resolve : String → Globals → Option (Outcome Nat))
    (I : Globals → Prop) (Q : String → Prop)
    (hmiss : ∀ g name p, I g → (∃ o e, find_inst_scan ctx.exe p o e = none) →
      I (g.notify (.pattern_not_found name p)))
    (hres : ∀ m g out, Q m → I g → resolve m g = some out → I out.globals)
    (name : String) (cmds : List Command) (o : Nat) (b : Bool) (g : Globals) (out : Outcome Flow)
    (hc : ∀ m, Command.GetAddress m ∈ cmds → Q m) (hg : I g)
    (h : run_commands ctx resolve name cmds o b g = some out) : I out.globals := by
  induction cmds generalizing o b g with
  | nil =>
    simp only [run_commands, Option.some.injEq] at h
    subst h
    exact hg
  | cons c rest ih =>
    simp only [run_commands] at h
    cases hx : exec_command ctx resolve name o b g c with
    | none => simp [hx] at h
    | some r =>
      have hk := exec_command_inv ctx resolve I Q hmiss hres name o b g c r
        (fun m hm => hc m (by simp [hm])) hg hx
      cases r with
      | terminated g2 =>
        simp only [hx, Option.some.injEq] at h
        subst h
        exact hk
      | ok fl g2 =>
        cases fl with
        | next o1 b1 =>
          simp only [hx] at h
          exact ih o1 b1 g2 (fun m hm => hc m (List.mem_cons_of_mem _ hm)) hk h
        | done r2 =>
          simp only [hx, Option.some.injEq] at h
          subst h
          exact hk

theorem call_inv (self : PatternCommandBuffer) (ctx : Ctx)
    (resolve : String → Globals → Option (Outcome Nat))
    (I : Globals → Prop) (Q : String → Prop)
    (hmiss : ∀ g name p, I g → (∃ o e, find_inst_scan ctx.exe p o e = none) →
      I (g.notify (.pattern_not_found name p)))
    (hres : ∀ m g out, Q m → I g → resolve m g = some out → I out.globals)
    (name : String) (g : Globals) (out : Outcome (Option Nat))
    (hc : ∀ m, Command.GetAddress m ∈ self.commands → Q m) (hg : I g)
    (h : self.call ctx resolve name g = some out) : I out.globals := by
  unfold PatternCommandBuffer.call at h
  cases hr : run_commands ctx resolve name self.commands ctx.mem.after_bundle false g with
  | none => simp [hr] at h
  | some r =>
    have hk := run_commands_inv ctx resolve I Q hmiss hres name _ _ _ g r hc hg hr
    cases r with
    | terminated g2 =>
      simp only [hr, Option.some.injEq] at h
      subst h
      exact hk
    | ok fl g2 =>
      cases fl with
      | next o1 b1 =>
        simp only [hr, Option.some.injEq] at h
        subst h
        exact hk
      | done r2 =>
        simp only [hr, Option.some.injEq] at h
        subst h
        exact hk

theorem map_find_mem {α : Type} (c : List (String × α)) (k : String) (v : α)
    (h : map_find c k = some v) : (k, v) ∈ c := by
  induction c with
  | nil => simp [map_find] at h
  | cons e rest ih =>
    obtain ⟨k1, v1⟩ := e
    simp only [map_find] at h
    by_cases hk : k1 = k
    · simp only [hk, if_true, Option.some.injEq] at h
      subst h hk
      simp
    · simp only [hk, if_false] at h
      exact List.mem_cons_of_mem _ (ih h)

theorem get_address_inv (ctx : Ctx) (I : Globals → Prop) (Q : String → Prop)
    (hmiss : ∀ g name p, I g → (∃ o e, find_inst_scan ctx.exe p o e = none) →
      I (g.notify (.pattern_not_found name p)))
    (hunknown : ∀ g n, I g → map_find ctx.g_address_rules n = none →
      I (g.notify (.unknown_address n)))
    (hset : ∀ g n a, Q n → I g →
      I { g with g_cached_addresses := map_set g.g_cached_addresses n a })
    (hrules : ∀ n r, map_find ctx.g_address_rules n = some r →
      ∀ m, Command.GetAddress m ∈ r.commands → Q m)
    (fuel : Nat) :
    ∀ n g out, Q n → I g → get_address ctx fuel n g = some out → I out.globals := by
  induction fuel with
  | zero =>
    intro n g out _ hg h
    unfold get_address at h
    cases hc : map_find g.g_cached_addresses n with
    | some w =>
      simp only [hc, Option.some.injEq] at h
      subst h
      exact hg
    | none =>
      simp only [hc, load_address] at h
      split at h
      · simp at h
      · rename_i hr
        simp only [Option.some.injEq] at h
        subst h
        exact hunknown g n hg hr
  | succ fuel ih =>
    intro n g out hq hg h
    unfold get_address at h
    cases hc : map_find g.g_cached_addresses n with
    | some w =>
      simp only [hc, Option.some.injEq] at h
      subst h
      exact hg
    | none =>
      simp only [hc, load_address_succ] at h
      cases hrule : map_find ctx.g_address_rules n with
      | none =>
        simp only [hrule, Option.some.injEq] at h
        subst h
        exact hunknown g n hg hrule
      | some rule =>
        simp only [hrule] at h
        cases hcall : rule.call ctx (get_address ctx fuel) n g with
        | none => simp [hcall] at h
        | some r =>
          have hk := call_inv rule ctx (get_address ctx fuel) I Q hmiss ih n g r
            (hrules n rule hrule) hg hcall
          cases r with
          | terminated g2 =>
            simp only [hcall, Option.some.injEq] at h
            subst h
            exact hk
          | ok v g2 =>
            cases v with
            | none => exact absurd hcall (call_never_empty rule ctx _ n g g2)
            | some addr =>
              simp only [hcall, Option.some.injEq] at h
              subst h
              exact hset g2 n addr hq hk


/-! ## Lemmas about `preload_addresses` -/

theorem preload_loop_keeps (ctx : Ctx) (fuel : Nat) (key : String) (v : Nat)
    (rest : List (String × PatternCommandBuffer)) (g g1 : Globals)
    (hkey : key ∉ rest.map Prod.fst) (hg : map_find g.g_cached_addresses key = some v)
    (h : preload_loop ctx fuel rest g = some (.ok () g1)) :
    map_find g1.g_cached_addresses key = some v := by
  induction rest generalizing g with
  | nil =>
    simp only [preload_loop, Option.some.injEq, Outcome.ok.injEq, true_and] at h
    subst h
    exact hg
  | cons e rest ih =>
    obtain ⟨n, rule⟩ := e
    simp only [List.map_cons, List.mem_cons, not_or] at hkey
    simp only [preload_loop] at h
    cases hcall : rule.call ctx (get_address ctx fuel) n g with
    | none => simp [hcall] at h
    | some r =>
      cases r with
      | terminated g2 => simp [hcall] at h
      | ok a g2 =>
        have hk := call_keeps rule ctx (get_address ctx fuel) key v
          (get_address_keeps ctx key v fuel) n g a g2 hg hcall
        cases a with
        | none => exact absurd hcall (call_never_empty rule ctx _ n g g2)
        | some addr =>
          simp only [hcall] at h
          refine ih _ hkey.2 ?_ h
          simp only
          rw [map_find_map_set_other _ n key addr (fun e => hkey.1 e.symm)]
          exact hk

theorem preload_loop_covers (ctx : Ctx) (fuel : Nat)
    (rest : List (String × PatternCommandBuffer)) (g g1 : Globals)
    (hnodup : (rest.map Prod.fst).Nodup)
    (h : preload_loop ctx fuel rest g = some (.ok () g1))
    (name : String) (rule : PatternCommandBuffer) (hmem : (name, rule) ∈ rest) :
    ∃ v, map_find g1.g_cached_addresses name = some v ∧
      ∃ g2 g3, rule.call ctx (get_address ctx fuel) name g2 = some (.ok (some v) g3) := by
  induction rest generalizing g with
  | nil => simp at hmem
  | cons e rest ih =>
    obtain ⟨n, r⟩ := e
    simp only [List.map_cons, List.nodup_cons] at hnodup
    simp only [preload_loop] at h
    cases hcall : r.call ctx (get_address ctx fuel) n g with
    | none => simp [hcall] at h
    | some res =>
      cases res with
      | terminated g2 => simp [hcall] at h
      | ok a g2 =>
        cases a with
        | none => exact absurd hcall (call_never_empty r ctx _ n g g2)
        | some addr =>
          simp only [hcall] at h
          rcases List.mem_cons.mp hmem with heq | hin
          · simp only [Prod.mk.injEq] at heq
            obtain ⟨h1, h2⟩ := heq
            subst h1 h2
            refine ⟨addr, ?_, g, g2, hcall⟩
            exact preload_loop_keeps ctx fuel name addr rest _ g1 hnodup.1
              (map_find_map_set_self _ _ _) h
          · exact ih _ hnodup.2 h hin

/-! ## A pipeline without `GetAddress` steps computes one value -/

theorem exec_command_det (ctx : Ctx) (resolve resolve' : String → Globals → Option (Outcome Nat))
    (name name' : String) (o : Nat) (b : Bool) (g g' g1 g1' : Globals) (c : Command)
    (fl fl' : Flow) (hc : ∀ m, c ≠ Command.GetAddress m)
    (h : exec_command ctx resolve name o b g c = some (.ok fl g1))
    (h' : exec_command ctx resolve' name' o b g' c = some (.ok fl' g1')) : fl = fl' := by
  cases c with
  | GetAddress n => exact absurd rfl (hc n)
  | FindInst pattern range =>
    simp only [exec_command, find_inst] at h h'
    cases hs : find_inst_scan ctx.exe pattern o ((range.map (add64 o)).getD ctx.exe_size) with
    | some j =>
      simp only [hs, Option.some.injEq, Outcome.ok.injEq] at h h'
      rw [← h.1, ← h'.1]
    | none =>
      cases b <;> cases hx : ctx.msgbox_cancel g.notices.length <;>
        cases hy : ctx.msgbox_cancel g'.notices.length <;>
        simp [hs, hx, hy] at h h' <;> rw [← h.1, ← h'.1]
  | _ =>
    simp only [exec_command, Option.some.injEq, Outcome.ok.injEq] at h h'
    rw [← h.1, ← h'.1]

theorem run_commands_det (ctx : Ctx) (resolve resolve' : String → Globals → Option (Outcome Nat))
    (name name' : String) (cmds : List Command) (o : Nat) (b : Bool) (g g' g1 g1' : Globals)
    (fl fl' : Flow) (hc : ∀ m, Command.GetAddress m ∉ cmds)
    (h : run_commands ctx resolve name cmds o b g = some (.ok fl g1))
    (h' : run_commands ctx resolve' name' cmds o b g' = some (.ok fl' g1')) : fl = fl' := by
  induction cmds generalizing o b g g' with
  | nil =>
    simp only [run_commands, Option.some.injEq, Outcome.ok.injEq] at h h'
    rw [← h.1, ← h'.1]
  | cons c rest ih =>
    have hc1 : ∀ m, c ≠ Command.GetAddress m := fun m e => hc m (by simp [e])
    have hc2 : ∀ m, Command.GetAddress m ∉ rest := fun m hm => hc m (List.mem_cons_of_mem _ hm)
    simp only [run_commands] at h h'
    cases hx : exec_command ctx resolve name o b g c with
    | none => simp [hx] at h
    | some r =>
      cases hy : exec_command ctx resolve' name' o b g' c with
      | none => simp [hy] at h'
      | some r' =>
        cases r with
        | terminated g2 => simp [hx] at h
        | ok f g2 =>
          cases r' with
          | terminated g2' => simp [hy] at h'
          | ok f' g2' =>
            have hff := exec_command_det ctx resolve resolve' name name' o b g g' g2 g2' c f f'
              hc1 hx hy
            subst hff
            cases f with
            | next o1 b1 =>
              simp only [hx] at h
              simp only [hy] at h'
              exact ih o1 b1 g2 g2' hc2 h h'
            | done r2 =>
              simp only [hx, Option.some.injEq, Outcome.ok.injEq] at h
              simp only [hy, Option.some.injEq, Outcome.ok.injEq] at h'
              rw [← h.1, ← h'.1]

theorem call_det (self : PatternCommandBuffer) (ctx : Ctx)
    (resolve resolve' : String → Globals → Option (Outcome Nat)) (name name' : String)
    (g g' g1 g1' : Globals) (r r' : Option Nat)
    (hc : ∀ m, Command.GetAddress m ∉ self.commands)
    (h : self.call ctx resolve name g = some (.ok r g1))
    (h' : self.call ctx resolve' name' g' = some (.ok r' g1')) : r = r' := by
  unfold PatternCommandBuffer.call at h h'
  cases hx : run_commands ctx resolve name self.commands ctx.mem.after_bundle false g with
  | none => simp [hx] at h
  | some out =>
    cases hy : run_commands ctx resolve' name' self.commands ctx.mem.after_bundle false g' with
    | none => simp [hy] at h'
    | some out' =>
      cases out with
      | terminated g2 => simp [hx] at h
      | ok f g2 =>
        cases out' with
        | terminated g2' => simp [hy] at h'
        | ok f' g2' =>
          have hff := run_commands_det ctx resolve resolve' name name' _ _ _ g g' g2 g2' f f'
            hc hx hy
          subst hff
          cases f with
          | next o1 b1 =>
            simp only [hx, Option.some.injEq, Outcome.ok.injEq] at h
            simp only [hy, Option.some.injEq, Outcome.ok.injEq] at h'
            rw [← h.1, ← h'.1]
          | done r2 =>
            simp only [hx, Option.some.injEq, Outcome.ok.injEq] at h
            simp only [hy, Option.some.injEq, Outcome.ok.injEq] at h'
            rw [← h.1, ← h'.1]

theorem get_address_free_spec (cmds : List Command) (h : get_address_free cmds = true) :
    ∀ m, Command.GetAddress m ∉ cmds := by
  intro m hm
  unfold get_address_free at h
  have := List.all_eq_true.mp h _ hm
  simp at this

/-- C11. When `preload_addresses` has completed, every name registered in the
rule table has a cache entry; the entry is the value that the run of its
pipeline over the image returned (and, for a pipeline without `GetAddress`
steps, the one value every run of it over this image returns); and every
later `get_address` for the name returns that entry from the cache, whatever
the context, with no pipeline run and the globals unchanged. -/
theorem preload_addresses_caches_all (ctx : Ctx) (fuel : Nat) (g g1 : Globals) (name : String)
    (rule : PatternCommandBuffer)
    (hnodup : (ctx.g_address_rules.map Prod.fst).Nodup)
    (hmem : (name, rule) ∈ ctx.g_address_rules)
    (h : preload_addresses ctx fuel g = some (.ok () g1)) :
    ∃ v, map_find g1.g_cached_addresses name = some v ∧
      (∃ g2 g3, rule.call ctx (get_address ctx fuel) name g2 = some (.ok (some v) g3)) ∧
      (get_address_free rule.commands = true →
        ∀ resolve name1 g4 g5 v1,
          rule.call ctx resolve name1 g4 = some (.ok (some v1) g5) → v1 = v) ∧
      ∀ (ctx1 : Ctx) (fuel1 : Nat), get_address ctx1 fuel1 name g1 = some (.ok v g1) := by
  obtain ⟨v, hv, g2, g3, hcall⟩ :=
    preload_loop_covers ctx fuel ctx.g_address_rules g g1 hnodup h name rule hmem
  refine ⟨v, hv, ⟨g2, g3, hcall⟩, ?_, ?_⟩
  · intro hfree resolve name1 g4 g5 v1 h1
    have := call_det rule ctx resolve (get_address ctx fuel) name1 name g4 g2 g5 g3 _ _
      (get_address_free_spec rule.commands hfree) h1 hcall
    exact Option.some.inj this
  · intro ctx1 fuel1
    simp [get_address, hv]


set_option maxRecDepth 4096 in
/-- Witness of C11: the rule table of the source, preloaded over
`preload_image`, and the name `"get_state_func"`. -/
theorem preload_addresses_caches_all_witness :
    get_address_free (get_state_func_steps.at_exe).commands = true ∧
    map_find preload_result.g_cached_addresses "get_state_func" = some 0x7ff600048bab ∧
    ∃ v, map_find preload_result.g_cached_addresses "get_state_func" = some v ∧
      (∃ g2 g3, (get_state_func_steps.at_exe).call preload_ctx (get_address preload_ctx 1)
        "get_state_func" g2 = some (.ok (some v) g3)) ∧
      (get_address_free (get_state_func_steps.at_exe).commands = true →
        ∀ resolve name1 g4 g5 v1,
          (get_state_func_steps.at_exe).call preload_ctx resolve name1 g4 =
            some (.ok (some v1) g5) → v1 = v) ∧
      ∀ (ctx1 : Ctx) (fuel1 : Nat),
        get_address ctx1 fuel1 "get_state_func" preload_result = some (.ok v preload_result) :=
  ⟨by decide, by decide,
    preload_addresses_caches_all preload_ctx 1 Globals.initial preload_result "get_state_func"
      (get_state_func_steps.at_exe) (by decide) (by decide) (by decide)⟩


/-! ## Lemmas about the collision log -/

theorem mem_keys_map_set {α : Type} (c : List (String × α)) (k : String) (v : α) (x : String) :
    x ∈ (map_set c k v).map Prod.fst ↔ x ∈ c.map Prod.fst ∨ x = k := by
  induction c with
  | nil => simp [map_set]
  | cons e rest ih =>
    obtain ⟨k1, v1⟩ := e
    by_cases h : k1 = k
    · subst h
      simp only [map_set, if_true, List.map_cons, List.mem_cons]
      constructor
      · intro hx; exact Or.inl hx
      · rintro (hx | hx)
        · exact hx
        · exact Or.inl hx
    · simp only [map_set, h, if_false, List.map_cons, List.mem_cons, ih]
      constructor
      · rintro (hx | hx | hx)
        · exact Or.inl (Or.inl hx)
        · exact Or.inl (Or.inr hx)
        · exact Or.inr hx
      · rintro ((hx | hx) | hx)
        · exact Or.inl hx
        · exact Or.inr (Or.inl hx)
        · exact Or.inr (Or.inr hx)

theorem map_set_keys_nodup {α : Type} (c : List (String × α)) (k : String) (v : α)
    (h : (c.map Prod.fst).Nodup) : ((map_set c k v).map Prod.fst).Nodup := by
  induction c with
  | nil => simp [map_set]
  | cons e rest ih =>
    obtain ⟨k1, v1⟩ := e
    simp only [List.map_cons, List.nodup_cons] at h
    by_cases hk : k1 = k
    · simp only [map_set, hk, if_true, List.map_cons, List.nodup_cons]
      exact ⟨hk ▸ h.1, h.2⟩
    · simp only [map_set, hk, if_false, List.map_cons, List.nodup_cons]
      refine ⟨?_, ih h.2⟩
      intro hx
      rcases (mem_keys_map_set rest k v k1).mp hx with h1 | h1
      · exact h.1 h1
      · exact hk h1

theorem map_find_none_of_not_mem {α : Type} (c : List (String × α)) (k : String)
    (h : k ∉ c.map Prod.fst) : map_find c k = none := by
  induction c with
  | nil => rfl
  | cons e rest ih =>
    obtain ⟨k1, v1⟩ := e
    simp only [List.map_cons, List.mem_cons, not_or] at h
    have hne : ¬ k1 = k := fun e => h.1 e.symm
    simp only [map_find, hne, if_false]
    exact ih h.2

theorem pair_count_append (l1 l2 : List (String × String)) (a b : String) :
    pair_count (l1 ++ l2) a b = pair_count l1 a b + pair_count l2 a b := by
  simp [pair_count]

theorem pair_count_comm (l : List (String × String)) (a b : String) :
    pair_count l a b = pair_count l b a := by
  unfold pair_count
  congr 1
  congr 1
  funext e
  exact Bool.or_comm _ _

theorem same_entry_comm (c : List (String × Nat)) (a b : String) :
    same_entry c a b = same_entry c b a := by
  unfold same_entry
  cases map_find c a <;> cases map_find c b <;> simp [eq_comm]

theorem log_collisions_cons (k1 : String) (w1 : Nat) (rest : List (String × Nat)) (n : String)
    (addr : Nat) :
    log_collisions ((k1, w1) :: rest) n addr =
      (if w1 = addr ∧ k1 ≠ n then [(k1, n)] else []) ++ log_collisions rest n addr := by
  unfold log_collisions
  by_cases h1 : w1 = addr <;> by_cases h2 : k1 = n <;> simp [List.filter_cons, h1, h2]

theorem collisions_count_other (cache : List (String × Nat)) (n a b : String) (addr : Nat)
    (hna : n ≠ a) (hnb : n ≠ b) : pair_count (log_collisions cache n addr) a b = 0 := by
  induction cache with
  | nil => simp [log_collisions, pair_count]
  | cons e rest ih =>
    obtain ⟨k1, w1⟩ := e
    rw [log_collisions_cons, pair_count_append, ih]
    by_cases h : w1 = addr ∧ k1 ≠ n
    · simp [h, pair_count, hna, hnb]
    · simp [h, pair_count]

theorem collisions_count_left (cache : List (String × Nat)) (a b : String) (addr : Nat)
    (hab : a ≠ b) (hnd : (cache.map Prod.fst).Nodup) :
    pair_count (log_collisions cache a addr) a b =
      if map_find cache b = some addr then 1 else 0 := by
  induction cache with
  | nil => simp [log_collisions, pair_count, map_find]
  | cons e rest ih =>
    obtain ⟨k1, w1⟩ := e
    simp only [List.map_cons, List.nodup_cons] at hnd
    rw [log_collisions_cons, pair_count_append, ih hnd.2]
    by_cases hk : k1 = b
    · subst hk
      have hnone := map_find_none_of_not_mem rest k1 hnd.1
      by_cases hw : w1 = addr
      · simp [map_find, hnone, hw, pair_count, Ne.symm hab]
      · simp [map_find, hnone, hw, pair_count]
    · by_cases hw : w1 = addr ∧ k1 ≠ a
      · simp [map_find, hk, hw, pair_count, hab]
      · simp [map_find, hk, hw, pair_count]


theorem get_address_keeps_log (ctx : Ctx) (L : List (String × String)) (fuel : Nat) :
    ∀ n g out, True → g.debug_log = L → get_address ctx fuel n g = some out →
      out.globals.debug_log = L :=
  get_address_inv ctx (fun g => g.debug_log = L) (fun _ => True)
    (fun g _ _ hg _ => by simpa [Globals.notify] using hg)
    (fun g _ hg _ => by simpa [Globals.notify] using hg)
    (fun g _ _ _ hg => by simpa using hg)
    (fun _ _ _ _ _ => trivial) fuel

theorem get_address_keeps_nodup (ctx : Ctx) (fuel : Nat) :
    ∀ n g out, True → (g.g_cached_addresses.map Prod.fst).Nodup →
      get_address ctx fuel n g = some out →
      (out.globals.g_cached_addresses.map Prod.fst).Nodup :=
  get_address_inv ctx (fun g => (g.g_cached_addresses.map Prod.fst).Nodup) (fun _ => True)
    (fun g _ _ hg _ => by simpa [Globals.notify] using hg)
    (fun g _ hg _ => by simpa [Globals.notify] using hg)
    (fun g n a _ hg => map_set_keys_nodup g.g_cached_addresses n a hg)
    (fun _ _ _ _ _ => trivial) fuel

theorem get_address_keeps_absent (ctx : Ctx) (x : String)
    (hx : ∀ e ∈ ctx.g_address_rules, Command.GetAddress x ∉ e.2.commands) (fuel : Nat) :
    ∀ n g out, n ≠ x → map_find g.g_cached_addresses x = none →
      get_address ctx fuel n g = some out →
      map_find out.globals.g_cached_addresses x = none :=
  get_address_inv ctx (fun g => map_find g.g_cached_addresses x = none) (fun n => n ≠ x)
    (fun g _ _ hg _ => by simpa [Globals.notify] using hg)
    (fun g _ hg _ => by simpa [Globals.notify] using hg)
    (fun g n a hn hg => by
      simp only
      rw [map_find_map_set_other _ n x a hn]
      exact hg)
    (fun n r hr m hm e => hx (n, r) (map_find_mem _ n r hr) (e ▸ hm)) fuel

theorem preload_call_frame (ctx : Ctx) (fuel : Nat) (n : String) (rule : PatternCommandBuffer)
    (g g2 : Globals) (a : Option Nat) (hmem : (n, rule) ∈ ctx.g_address_rules)
    (h : rule.call ctx (get_address ctx fuel) n g = some (.ok a g2)) :
    g2.debug_log = g.debug_log ∧
      ((g.g_cached_addresses.map Prod.fst).Nodup → (g2.g_cached_addresses.map Prod.fst).Nodup) ∧
      ∀ x, (∀ e ∈ ctx.g_address_rules, Command.GetAddress x ∉ e.2.commands) →
        map_find g.g_cached_addresses x = none → map_find g2.g_cached_addresses x = none := by
  refine ⟨?_, ?_, ?_⟩
  · exact call_inv rule ctx (get_address ctx fuel) (fun g0 => g0.debug_log = g.debug_log)
      (fun _ => True) (fun g0 _ _ hg _ => by simpa [Globals.notify] using hg)
      (get_address_keeps_log ctx g.debug_log fuel) n g _ (fun _ _ => trivial) rfl h
  · intro hnd
    exact call_inv rule ctx (get_address ctx fuel)
      (fun g0 => (g0.g_cached_addresses.map Prod.fst).Nodup)
      (fun _ => True) (fun g0 _ _ hg _ => by simpa [Globals.notify] using hg)
      (get_address_keeps_nodup ctx fuel) n g _ (fun _ _ => trivial) hnd h
  · intro x hx hnone
    exact call_inv rule ctx (get_address ctx fuel)
      (fun g0 => map_find g0.g_cached_addresses x = none)
      (fun m => m ≠ x) (fun g0 _ _ hg _ => by simpa [Globals.notify] using hg)
      (get_address_keeps_absent ctx x hx fuel) n g _
      (fun m hm e => hx (n, rule) hmem (e ▸ hm)) hnone h

theorem preload_loop_absent (ctx : Ctx) (fuel : Nat) (x : String)
    (hx : ∀ e ∈ ctx.g_address_rules, Command.GetAddress x ∉ e.2.commands)
    (rest : List (String × PatternCommandBuffer)) (g g1 : Globals)
    (hsub : ∀ e ∈ rest, e ∈ ctx.g_address_rules)
    (hkey : x ∉ rest.map Prod.fst) (hg : map_find g.g_cached_addresses x = none)
    (h : preload_loop ctx fuel rest g = some (.ok () g1)) :
    map_find g1.g_cached_addresses x = none := by
  induction rest generalizing g with
  | nil =>
    simp only [preload_loop, Option.some.injEq, Outcome.ok.injEq, true_and] at h
    subst h
    exact hg
  | cons e rest ih =>
    obtain ⟨n, rule⟩ := e
    simp only [List.map_cons, List.mem_cons, not_or] at hkey
    simp only [preload_loop] at h
    cases hcall : rule.call ctx (get_address ctx fuel) n g with
    | none => simp [hcall] at h
    | some r =>
      cases r with
      | terminated g2 => simp [hcall] at h
      | ok a g2 =>
        have hk := (preload_call_frame ctx fuel n rule g g2 a (hsub _ (List.mem_cons_self _ _))
          hcall).2.2 x hx hg
        cases a with
        | none => exact absurd hcall (call_never_empty rule ctx _ n g g2)
        | some addr =>
          simp only [hcall] at h
          refine ih _ (fun e he => hsub e (List.mem_cons_of_mem _ he)) hkey.2 ?_ h
          simp only
          rw [map_find_map_set_other _ n x addr (fun e => hkey.1 e.symm)]
          exact hk

theorem preload_loop_frame (ctx : Ctx) (fuel : Nat) (x : String)
    (hx : ∀ e ∈ ctx.g_address_rules, Command.GetAddress x ∉ e.2.commands)
    (rest : List (String × PatternCommandBuffer)) (g g1 : Globals)
    (hsub : ∀ e ∈ rest, e ∈ ctx.g_address_rules)
    (hkey : x ∉ rest.map Prod.fst)
    (h : preload_loop ctx fuel rest g = some (.ok () g1)) :
    map_find g1.g_cached_addresses x = map_find g.g_cached_addresses x := by
  cases hg : map_find g.g_cached_addresses x with
  | none => exact preload_loop_absent ctx fuel x hx rest g g1 hsub hkey hg h
  | some v => exact preload_loop_keeps ctx fuel x v rest g g1 hkey hg h


theorem preload_loop_pair_count (ctx : Ctx) (fuel : Nat) (a b : String) (hab : a ≠ b)
    (hra : ∀ e ∈ ctx.g_address_rules, Command.GetAddress a ∉ e.2.commands)
    (hrb : ∀ e ∈ ctx.g_address_rules, Command.GetAddress b ∉ e.2.commands)
    (rest : List (String × PatternCommandBuffer)) (g g1 : Globals)
    (hsub : ∀ e ∈ rest, e ∈ ctx.g_address_rules)
    (hnodup : (rest.map Prod.fst).Nodup)
    (hkeys : (g.g_cached_addresses.map Prod.fst).Nodup)
    (hda : a ∈ rest.map Prod.fst → map_find g.g_cached_addresses a = none)
    (hdb : b ∈ rest.map Prod.fst → map_find g.g_cached_addresses b = none)
    (h : preload_loop ctx fuel rest g = some (.ok () g1)) :
    ∃ new, g1.debug_log = g.debug_log ++ new ∧
      pair_count new a b =
        if (a ∈ rest.map Prod.fst ∨ b ∈ rest.map Prod.fst) ∧
          same_entry g1.g_cached_addresses a b = true then 1 else 0 := by
  induction rest generalizing g with
  | nil =>
    simp only [preload_loop, Option.some.injEq, Outcome.ok.injEq, true_and] at h
    subst h
    exact ⟨[], by simp, by simp [pair_count]⟩
  | cons e rest ih =>
    obtain ⟨n, rule⟩ := e
    simp only [List.map_cons, List.nodup_cons] at hnodup
    simp only [preload_loop] at h
    cases hcall : rule.call ctx (get_address ctx fuel) n g with
    | none => simp [hcall] at h
    | some r =>
      cases r with
      | terminated g2 => simp [hcall] at h
      | ok v g2 =>
        cases v with
        | none => exact absurd hcall (call_never_empty rule ctx _ n g g2)
        | some addr =>
          simp only [hcall] at h
          obtain ⟨hlog, hnd2, habs⟩ :=
            preload_call_frame ctx fuel n rule g g2 _ (hsub _ (List.mem_cons_self _ _)) hcall
          have hnd2 := hnd2 hkeys
          have hsub' : ∀ e ∈ rest, e ∈ ctx.g_address_rules :=
            fun e he => hsub e (List.mem_cons_of_mem _ he)
          -- the globals after this iteration
          have hda' : a ∈ rest.map Prod.fst →
              map_find (map_set g2.g_cached_addresses n addr) a = none := by
            intro ha
            have hne : n ≠ a := fun e => hnodup.1 (e ▸ ha)
            rw [map_find_map_set_other _ n a addr hne]
            exact habs a hra (hda (by simp [ha]))
          have hdb' : b ∈ rest.map Prod.fst →
              map_find (map_set g2.g_cached_addresses n addr) b = none := by
            intro hb
            have hne : n ≠ b := fun e => hnodup.1 (e ▸ hb)
            rw [map_find_map_set_other _ n b addr hne]
            exact habs b hrb (hdb (by simp [hb]))
          obtain ⟨new', hnew', hcount'⟩ := ih _ hsub' hnodup.2
            (map_set_keys_nodup _ n addr hnd2) hda' hdb' h
          refine ⟨log_collisions g2.g_cached_addresses n addr ++ new', ?_, ?_⟩
          · rw [hnew', hlog, List.append_assoc]
          · rw [pair_count_append, hcount']
            have hfa := fun g3 => preload_loop_frame ctx fuel a hra rest g3 g1 hsub'
            have hfb := fun g3 => preload_loop_frame ctx fuel b hrb rest g3 g1 hsub'
            by_cases hna : n = a
            · subst hna
              have ha' : n ∉ rest.map Prod.fst := hnodup.1
              have hfa1 : map_find g1.g_cached_addresses n = some addr := by
                rw [hfa _ ha' h]
                exact map_find_map_set_self _ _ _
              rw [collisions_count_left _ n b addr hab hnd2]
              by_cases hb' : b ∈ rest.map Prod.fst
              · have hb2 : map_find g2.g_cached_addresses b = none :=
                  habs b hrb (hdb (by simp [hb']))
                simp [hb2, hb']
              · have hfb1 : map_find g1.g_cached_addresses b =
                    map_find g2.g_cached_addresses b := by
                  rw [hfb _ hb' h]
                  exact map_find_map_set_other _ n b addr hab
                cases hb2 : map_find g2.g_cached_addresses b with
                | none => simp [same_entry, hfa1, hfb1, hb2, ha', hb']
                | some w =>
                  by_cases hw : w = addr
                  · simp [same_entry, hfa1, hfb1, hb2, ha', hb', hw]
                  · simp [same_entry, hfa1, hfb1, hb2, ha', hb', hw, Ne.symm hw]
            · by_cases hnb : n = b
              · subst hnb
                have hb' : n ∉ rest.map Prod.fst := hnodup.1
                have hfb1 : map_find g1.g_cached_addresses n = some addr := by
                  rw [hfb _ hb' h]
                  exact map_find_map_set_self _ _ _
                rw [pair_count_comm, collisions_count_left _ n a addr (Ne.symm hab) hnd2]
                by_cases ha' : a ∈ rest.map Prod.fst
                · have ha2 : map_find g2.g_cached_addresses a = none :=
                    habs a hra (hda (by simp [ha']))
                  simp [ha2, ha']
                · have hfa1 : map_find g1.g_cached_addresses a =
                      map_find g2.g_cached_addresses a := by
                    rw [hfa _ ha' h]
                    exact map_find_map_set_other _ n a addr (Ne.symm hab)
                  cases ha2 : map_find g2.g_cached_addresses a with
                  | none => simp [same_entry, hfa1, hfb1, ha2, ha', hb']
                  | some w =>
                    by_cases hw : w = addr
                    · simp [same_entry, hfa1, hfb1, ha2, ha', hb', hw]
                    · simp [same_entry, hfa1, hfb1, ha2, ha', hb', hw]
              · rw [collisions_count_other _ n a b addr hna hnb]
                have hna' : ¬ a = n := fun e => hna e.symm
                have hnb' : ¬ b = n := fun e => hnb e.symm
                simp only [List.map_cons, List.mem_cons, hna', hnb', false_or, Nat.zero_add]


/-- C12 (counterexample). In the table `alias_rules` the names `"keyboard"` and
`"keyboard_alias"` resolve to the same address, and the pipeline of
`"keyboard_alias"`, iterated first, reaches `"keyboard"` through a
`GetAddress` step. `preload_addresses` then logs the pair twice: once while
`"keyboard_alias"` is stored (the nested lookup has already cached
`"keyboard"`), and once more while `"keyboard"` is stored. In the other
iteration order the pair is logged once. -/
theorem preload_logs_alias_twice :
    preload_addresses alias_ctx 1 Globals.initial =
        some (.ok ()
          { g_cached_addresses :=
              [("keyboard", 0x7ff600013aba), ("keyboard_alias", 0x7ff600013aba)]
            notices := []
            debug_log := [("keyboard", "keyboard_alias"), ("keyboard_alias", "keyboard")] }) ∧
      pair_count [("keyboard", "keyboard_alias"), ("keyboard_alias", "keyboard")]
        "keyboard" "keyboard_alias" = 2 ∧
      preload_addresses alias_ctx_reversed 1 Globals.initial =
        some (.ok ()
          { g_cached_addresses :=
              [("keyboard", 0x7ff600013aba), ("keyboard_alias", 0x7ff600013aba)]
            notices := []
            debug_log := [("keyboard", "keyboard_alias")] }) := by
  decide

/-- C12 (amended). Let two distinct registered names resolve to the same
address, in a table where no pipeline names either of them in a `GetAddress`
step. After `preload_addresses`, run from an empty cache, each of the two is
returned by `get_address` with that address, and the log written by the run
holds exactly one entry for the pair, whatever the iteration order of the
table is. -/
theorem preload_logs_collision_once (ctx : Ctx) (fuel : Nat) (g g1 : Globals) (a b : String)
    (v : Nat)
    (hnodup : (ctx.g_address_rules.map Prod.fst).Nodup)
    (hcache : g.g_cached_addresses = [])
    (hra : ∀ e ∈ ctx.g_address_rules, Command.GetAddress a ∉ e.2.commands)
    (hrb : ∀ e ∈ ctx.g_address_rules, Command.GetAddress b ∉ e.2.commands)
    (hab : a ≠ b)
    (ha : a ∈ ctx.g_address_rules.map Prod.fst) (_hb : b ∈ ctx.g_address_rules.map Prod.fst)
    (h : preload_addresses ctx fuel g = some (.ok () g1))
    (hva : map_find g1.g_cached_addresses a = some v)
    (hvb : map_find g1.g_cached_addresses b = some v) :
    (∃ new, g1.debug_log = g.debug_log ++ new ∧ pair_count new a b = 1) ∧
      (∀ (ctx1 : Ctx) (fuel1 : Nat), get_address ctx1 fuel1 a g1 = some (.ok v g1)) ∧
      (∀ (ctx1 : Ctx) (fuel1 : Nat), get_address ctx1 fuel1 b g1 = some (.ok v g1)) := by
  refine ⟨?_, ?_, ?_⟩
  · obtain ⟨new, hnew, hcount⟩ := preload_loop_pair_count ctx fuel a b hab hra hrb
      ctx.g_address_rules g g1 (fun e he => he) hnodup (by simp [hcache])
      (fun _ => by simp [hcache, map_find]) (fun _ => by simp [hcache, map_find]) h
    refine ⟨new, hnew, ?_⟩
    rw [hcount]
    simp [same_entry, hva, hvb, ha]
  · intro ctx1 fuel1
    simp [get_address, hva]
  · intro ctx1 fuel1
    simp [get_address, hvb]

/-- Witness of C12 (amended): the table `twin_rules`, whose two names resolve
to `0x7ff600013aba`, in both iteration orders. -/
theorem preload_logs_collision_once_witness :
    ((∃ new,
        ({ g_cached_addresses :=
              [("keyboard", 0x7ff600013aba), ("keyboard_twin", 0x7ff600013aba)]
           notices := []
           debug_log := [("keyboard", "keyboard_twin")] } : Globals).debug_log =
          Globals.initial.debug_log ++ new ∧ pair_count new "keyboard" "keyboard_twin" = 1) ∧
      (∀ (ctx1 : Ctx) (fuel1 : Nat),
        get_address ctx1 fuel1 "keyboard"
            { g_cached_addresses :=
                [("keyboard", 0x7ff600013aba), ("keyboard_twin", 0x7ff600013aba)]
              notices := []
              debug_log := [("keyboard", "keyboard_twin")] } =
          some (.ok 0x7ff600013aba
            { g_cached_addresses :=
                [("keyboard", 0x7ff600013aba), ("keyboard_twin", 0x7ff600013aba)]
              notices := []
              debug_log := [("keyboard", "keyboard_twin")] })) ∧
      (∀ (ctx1 : Ctx) (fuel1 : Nat),
        get_address ctx1 fuel1 "keyboard_twin"
            { g_cached_addresses :=
                [("keyboard", 0x7ff600013aba), ("keyboard_twin", 0x7ff600013aba)]
              notices := []
              debug_log := [("keyboard", "keyboard_twin")] } =
          some (.ok 0x7ff600013aba
            { g_cached_addresses :=
                [("keyboard", 0x7ff600013aba), ("keyboard_twin", 0x7ff600013aba)]
              notices := []
              debug_log := [("keyboard", "keyboard_twin")] }))) ∧
      preload_addresses (example_ctx (image_of []) 0 0x100 twin_rules.reverse false) 1
          Globals.initial =
        some (.ok ()
          { g_cached_addresses :=
              [("keyboard_twin", 0x7ff600013aba), ("keyboard", 0x7ff600013aba)]
            notices := []
            debug_log := [("keyboard_twin", "keyboard")] }) :=
  ⟨preload_logs_collision_once twin_ctx 1 Globals.initial
      { g_cached_addresses := [("keyboard", 0x7ff600013aba), ("keyboard_twin", 0x7ff600013aba)]
        notices := []
        debug_log := [("keyboard", "keyboard_twin")] }
      "keyboard" "keyboard_twin" 0x7ff600013aba (by decide) (by decide) (by decide) (by decide)
      (by decide) (by decide) (by decide) (by decide) (by decide) (by decide),
    by decide⟩


theorem exec_command_globals (ctx : Ctx) (resolve : String → Globals → Option (Outcome Nat))
    (nm : String) (o : Nat) (b : Bool) (g0 : Globals) (c : Command) (res : Outcome Flow)
    (h : exec_command ctx resolve nm o b g0 c = some res) :
    res.globals = g0 ∨
      (∃ p r, c = Command.FindInst p r ∧ b = false ∧
        find_inst_scan ctx.exe p o ((r.map (add64 o)).getD ctx.exe_size) = none ∧
        res.globals = g0.notify (.pattern_not_found nm p)) ∨
      (∃ m lookup, c = Command.GetAddress m ∧ resolve m g0 = some lookup ∧
        res.globals = lookup.globals) := by
  cases c with
  | GetAddress m =>
    right
    right
    simp only [exec_command] at h
    cases hr : resolve m g0 with
    | none => simp [hr] at h
    | some lookup =>
      refine ⟨m, lookup, rfl, hr, ?_⟩
      cases lookup with
      | terminated g2 =>
        simp only [hr, Option.some.injEq] at h
        rw [← h]
        rfl
      | ok a g2 =>
        simp only [hr] at h
        split at h <;>
          · simp only [Option.some.injEq] at h
            rw [← h]
            rfl
  | FindInst p r =>
    simp only [exec_command, find_inst] at h
    cases hs : find_inst_scan ctx.exe p o ((r.map (add64 o)).getD ctx.exe_size) with
    | some j =>
      left
      simp only [hs, Option.some.injEq] at h
      rw [← h]
      rfl
    | none =>
      cases b
      · right
        left
        refine ⟨p, r, rfl, rfl, hs, ?_⟩
        cases hc : ctx.msgbox_cancel g0.notices.length <;>
          · simp only [hs, hc, Bool.not_false, if_true, Bool.false_eq_true, if_false,
              Option.some.injEq] at h
            rw [← h]
            rfl
      · left
        simp only [hs, Bool.not_true, Bool.false_eq_true, if_false, Option.some.injEq] at h
        rw [← h]
        rfl
  | SetOptional _ | GetVirtualFunctionAddress _ _ | Offset _ | DecodePC _ _ _ | DecodeIMM _ _
  | DecodeCall | AtExe | FromExe | FunctionStart _ | FromExeBase _ =>
    left
    simp only [exec_command, Option.some.injEq] at h
    rw [← h]
    rfl

theorem run_commands_justified (ctx : Ctx) (fuel : Nat) (base : Globals) (name : String)
    (rule : PatternCommandBuffer) (hrule : map_find ctx.g_address_rules name = some rule)
    (hres : ∀ m g1 out,
      (∃ new, g1.notices = base.notices ++ new ∧ ∀ x ∈ new, x.justified ctx) →
      get_address ctx fuel m g1 = some out →
      ∃ new, out.globals.notices = base.notices ++ new ∧ ∀ x ∈ new, x.justified ctx)
    (g0 : Globals) :
    ∀ (rest before : List Command) (o : Nat) (b : Bool) (g1 : Globals) (out : Outcome Flow),
      rule.commands = before ++ rest →
      run_commands ctx (get_address ctx fuel) name before ctx.mem.after_bundle false g0 =
        some (.ok (.next o b) g1) →
      (∃ new, g1.notices = base.notices ++ new ∧ ∀ x ∈ new, x.justified ctx) →
      run_commands ctx (get_address ctx fuel) name rest o b g1 = some out →
      ∃ new, out.globals.notices = base.notices ++ new ∧ ∀ x ∈ new, x.justified ctx := by
  intro rest
  induction rest with
  | nil =>
    intro before o b g1 out _ _ hI h
    simp only [run_commands, Option.some.injEq] at h
    rw [← h]
    exact hI
  | cons c rest ih =>
    intro before o b g1 out hsplit hpre hI h
    simp only [run_commands] at h
    cases hex : exec_command ctx (get_address ctx fuel) name o b g1 c with
    | none => simp [hex] at h
    | some res =>
      have hstep : ∃ new, res.globals.notices = base.notices ++ new ∧
          ∀ x ∈ new, x.justified ctx := by
        rcases exec_command_globals ctx _ name o b g1 c res hex with
          hg | ⟨p, r, hc, hb, hs, hg⟩ | ⟨m, lookup, _, hl, hg⟩
        · rw [hg]
          exact hI
        · obtain ⟨new, h1, h2⟩ := hI
          refine ⟨new ++ [.pattern_not_found name p], by rw [hg]; simp [Globals.notify, h1], ?_⟩
          intro x hx
          rcases List.mem_append.mp hx with hx | hx
          · exact h2 x hx
          · simp only [List.mem_singleton] at hx
            subst hx
            subst hc hb
            exact ⟨rule, before, rest, r, fuel, o, g0, g1, hrule, hsplit, hpre, hs⟩
        · rw [hg]
          exact hres m g1 lookup hI hl
      cases res with
      | terminated g2 =>
        simp only [hex, Option.some.injEq] at h
        rw [← h]
        exact hstep
      | ok fl g2 =>
        cases fl with
        | done r =>
          simp only [hex, Option.some.injEq] at h
          rw [← h]
          exact hstep
        | next o1 b1 =>
          simp only [hex] at h
          refine ih (before ++ [c]) o1 b1 g2 out (by rw [hsplit]; simp) ?_ hstep h
          simp only [run_commands_append, hpre, run_commands, hex]

theorem get_address_justified (ctx : Ctx) (base : Globals) (fuel : Nat) :
    ∀ n g1 out,
      (∃ new, g1.notices = base.notices ++ new ∧ ∀ x ∈ new, x.justified ctx) →
      get_address ctx fuel n g1 = some out →
      ∃ new, out.globals.notices = base.notices ++ new ∧ ∀ x ∈ new, x.justified ctx := by
  have hunknown : ∀ (g1 : Globals) (n : String),
      (∃ new, g1.notices = base.notices ++ new ∧ ∀ x ∈ new, x.justified ctx) →
      map_find ctx.g_address_rules n = none →
      ∃ new, (g1.notify (.unknown_address n)).notices = base.notices ++ new ∧
        ∀ x ∈ new, x.justified ctx := by
    rintro g1 n ⟨new, h1, h2⟩ hr
    refine ⟨new ++ [.unknown_address n], by simp [Globals.notify, h1], ?_⟩
    intro x hx
    rcases List.mem_append.mp hx with hx | hx
    · exact h2 x hx
    · simp only [List.mem_singleton] at hx
      subst hx
      exact hr
  induction fuel with
  | zero =>
    intro n g1 out hI h
    unfold get_address at h
    cases hc : map_find g1.g_cached_addresses n with
    | some v =>
      simp only [hc, Option.some.injEq] at h
      rw [← h]
      exact hI
    | none =>
      simp only [hc, load_address] at h
      cases hr : map_find ctx.g_address_rules n with
      | some rule => simp [hr] at h
      | none =>
        simp only [hr, Option.some.injEq] at h
        rw [← h]
        exact hunknown g1 n hI hr
  | succ fuel ih =>
    intro n g1 out hI h
    unfold get_address at h
    cases hc : map_find g1.g_cached_addresses n with
    | some v =>
      simp only [hc, Option.some.injEq] at h
      rw [← h]
      exact hI
    | none =>
      simp only [hc, load_address_succ] at h
      cases hr : map_find ctx.g_address_rules n with
      | none =>
        simp only [hr, Option.some.injEq] at h
        rw [← h]
        exact hunknown g1 n hI hr
      | some rule =>
        simp only [hr] at h
        cases hcall : rule.call ctx (get_address ctx fuel) n g1 with
        | none => simp [hcall] at h
        | some called =>
          have hk : ∃ new, called.globals.notices = base.notices ++ new ∧
              ∀ x ∈ new, x.justified ctx := by
            unfold PatternCommandBuffer.call at hcall
            cases hrun : run_commands ctx (get_address ctx fuel) n rule.commands
                ctx.mem.after_bundle false g1 with
            | none => simp [hrun] at hcall
            | some r =>
              have hj := run_commands_justified ctx fuel base n rule hr ih g1 rule.commands []
                ctx.mem.after_bundle false g1 r rfl rfl hI hrun
              cases r with
              | terminated g2 =>
                simp only [hrun, Option.some.injEq] at hcall
                rw [← hcall]
                exact hj
              | ok fl g2 =>
                cases fl with
                | done v =>
                  simp only [hrun, Option.some.injEq] at hcall
                  rw [← hcall]
                  exact hj
                | next o1 b1 =>
                  simp only [hrun, Option.some.injEq] at hcall
                  rw [← hcall]
                  exact hj
          cases called with
          | terminated g2 =>
            simp only [hcall, Option.some.injEq] at h
            rw [← h]
            exact hk
          | ok v g2 =>
            cases v with
            | none => exact absurd hcall (call_never_empty rule ctx _ n g1 g2)
            | some a =>
              simp only [hcall, Option.some.injEq] at h
              rw [← h]
              exact hk

/-- The predicate `Notice.justified` tells notices apart: over `preload_image`,
where the scan of the rule `"get_state_func"` finds its signature, a box for
that pattern would not be justified. -/
theorem found_pattern_not_justified :
    ¬ Notice.justified preload_ctx (.pattern_not_found "get_state_func" get_state_func_pattern) := by
  rintro ⟨rule, before, after, range, fuel, o, g, g1, hr, hsplit, hrun, hs⟩
  have hrule : rule = (((PatternCommandBuffer.empty.find_inst get_state_func_pattern).offset 7).decode_call).at_exe := by
    have : map_find preload_ctx.g_address_rules "get_state_func" =
        some ((((PatternCommandBuffer.empty.find_inst get_state_func_pattern).offset 7).decode_call).at_exe) := by
      decide
    rw [this] at hr
    exact (Option.some.inj hr).symm
  subst hrule
  have hcmds : ((((PatternCommandBuffer.empty.find_inst get_state_func_pattern).offset 7).decode_call).at_exe).commands =
      [.FindInst get_state_func_pattern none, .Offset 7, .DecodeCall, .AtExe] := rfl
  rw [hcmds] at hsplit
  cases before with
  | nil =>
    simp only [run_commands, Option.some.injEq, Outcome.ok.injEq, Flow.next.injEq] at hrun
    simp only [List.nil_append, List.cons.injEq, Command.FindInst.injEq] at hsplit
    obtain ⟨⟨_, hrange⟩, _⟩ := hsplit
    rw [← hrun.1.1, ← hrange] at hs
    revert hs
    decide
  | cons c before =>
    simp only [List.cons_append, List.cons.injEq] at hsplit
    obtain ⟨_, hsplit⟩ := hsplit
    cases before with
    | nil => simp at hsplit
    | cons c2 before =>
      simp only [List.cons_append, List.cons.injEq] at hsplit
      obtain ⟨_, hsplit⟩ := hsplit
      cases before with
      | nil => simp at hsplit
      | cons c3 before =>
        simp only [List.cons_append, List.cons.injEq] at hsplit
        obtain ⟨_, hsplit⟩ := hsplit
        cases before with
        | nil => simp at hsplit
        | cons c4 before => simp at hsplit

/-- C13 (counterexample). In the pipeline of `"outer"` the step
`GetAddress("nope")` runs with the optional flag set and ends the pipeline
unresolved (value 0, the later `AtExe` does not run); during the step the
message box for the unknown name `"nope"` is shown. In the pipeline of
`"outer2"` the optional step `GetAddress("inner")` ends unresolved as well,
and the message box for the required pattern of `"inner"` is shown. -/
theorem optional_lookup_shows_notice :
    get_address optional_lookup_ctx 2 "outer" Globals.initial =
        some (.ok 0
          { g_cached_addresses := [("outer", 0)]
            notices := [.unknown_address "nope"]
            debug_log := [] }) ∧
      exec_command optional_lookup_ctx (get_address optional_lookup_ctx 1) "outer" 0 true
          Globals.initial (.GetAddress "nope") =
        some (.ok (.done (some 0)) (Globals.initial.notify (.unknown_address "nope"))) ∧
      get_address optional_lookup_ctx 2 "outer2" Globals.initial =
        some (.ok 0
          { g_cached_addresses := [("inner", 0), ("outer2", 0)]
            notices := [.pattern_not_found "inner" [0x43]]
            debug_log := [] }) := by
  decide

/-- C13 (amended). Every message box shown during a resolution is the box of a
pattern step that was reached with the optional flag clear and whose scan
failed, or the box for a name without a rule. A step of a pipeline leaves the
globals as they are, unless it is a pattern step reached with the optional
flag clear whose scan fails, which shows its box, or a `GetAddress` step,
after which the globals are those that the lookup it makes has left; a
pattern step under the optional flag shows nothing, whatever the scan gives.
A lookup shows nothing when the name is cached, shows the unknown-address box
when the name has no rule, and otherwise shows what the steps of the rule of
the name show. -/
theorem notices_only_for_required_miss_or_unknown (ctx : Ctx) (fuel : Nat) (name : String)
    (g : Globals) (out : Outcome Nat) (h : get_address ctx fuel name g = some out) :
    (∃ new, out.globals.notices = g.notices ++ new ∧ ∀ x ∈ new, x.justified ctx) ∧
      (∀ (resolve : String → Globals → Option (Outcome Nat)) (nm : String) (o : Nat)
        (g0 : Globals) (p : List Byte) (r : Option Nat),
        ∃ fl, exec_command ctx resolve nm o true g0 (.FindInst p r) = some (.ok fl g0)) ∧
      (∀ (resolve : String → Globals → Option (Outcome Nat)) (nm : String) (o : Nat) (b : Bool)
        (g0 : Globals) (p : List Byte) (r : Option Nat),
        ∃ res, exec_command ctx resolve nm o b g0 (.FindInst p r) = some res ∧
          (res.globals = g0 ∨
            (b = false ∧ find_inst_scan ctx.exe p o ((r.map (add64 o)).getD ctx.exe_size) = none ∧
              res.globals = g0.notify (.pattern_not_found nm p)))) ∧
      (∀ (resolve : String → Globals → Option (Outcome Nat)) (nm : String) (o : Nat) (b : Bool)
        (g0 : Globals) (m : String),
        (exec_command ctx resolve nm o b g0 (.GetAddress m)).map Outcome.globals =
          (resolve m g0).map Outcome.globals) ∧
      (∀ (resolve : String → Globals → Option (Outcome Nat)) (nm : String) (o : Nat) (b : Bool)
        (g0 : Globals) (c : Command) (res : Outcome Flow),
        exec_command ctx resolve nm o b g0 c = some res →
          res.globals = g0 ∨
            (∃ p r, c = Command.FindInst p r ∧ b = false ∧
              find_inst_scan ctx.exe p o ((r.map (add64 o)).getD ctx.exe_size) = none ∧
              res.globals = g0.notify (.pattern_not_found nm p)) ∨
            (∃ m lookup, c = Command.GetAddress m ∧ resolve m g0 = some lookup ∧
              res.globals = lookup.globals)) ∧
      (∀ (resolve : String → Globals → Option (Outcome Nat)) (nm : String) (o : Nat) (b : Bool)
        (g0 : Globals),
        run_commands ctx resolve nm [] o b g0 = some (.ok (.next o b) g0) ∧
          ∀ (c : Command) (rest : List Command) (res : Outcome Flow),
            run_commands ctx resolve nm (c :: rest) o b g0 = some res →
              ∃ step, exec_command ctx resolve nm o b g0 c = some step ∧
                (res = step ∨
                  ∃ o1 b1 g1, step = .ok (.next o1 b1) g1 ∧
                    run_commands ctx resolve nm rest o1 b1 g1 = some res)) ∧
      (∀ (self : PatternCommandBuffer) (resolve : String → Globals → Option (Outcome Nat))
        (nm : String) (g0 : Globals) (called : Outcome (Option Nat)),
        self.call ctx resolve nm g0 = some called →
          ∃ r, run_commands ctx resolve nm self.commands ctx.mem.after_bundle false g0 = some r ∧
            called.globals = r.globals) ∧
      (∀ (fuel0 : Nat) (n : String) (g0 : Globals) (res : Outcome Nat),
        get_address ctx fuel0 n g0 = some res →
          (∃ v, map_find g0.g_cached_addresses n = some v ∧ res = .ok v g0) ∨
            (map_find g0.g_cached_addresses n = none ∧ map_find ctx.g_address_rules n = none ∧
              res = .ok 0 (g0.notify (.unknown_address n))) ∨
            (map_find g0.g_cached_addresses n = none ∧
              ∃ rule fuel1 called, fuel0 = fuel1 + 1 ∧
                map_find ctx.g_address_rules n = some rule ∧
                rule.call ctx (get_address ctx fuel1) n g0 = some called ∧
                res.globals.notices = called.globals.notices)) := by
  refine ⟨?_, ?_, ?_, ?_, ?_, ?_, ?_, ?_⟩
  · exact get_address_justified ctx g fuel name g out ⟨[], by simp, by simp⟩ h
  · intro resolve nm o g0 p r
    simp only [exec_command, find_inst, Bool.not_true]
    cases find_inst_scan ctx.exe p o ((r.map (add64 o)).getD ctx.exe_size) <;> simp
  · intro resolve nm o b g0 p r
    simp only [exec_command, find_inst]
    cases hs : find_inst_scan ctx.exe p o ((r.map (add64 o)).getD ctx.exe_size) with
    | some j => exact ⟨_, rfl, Or.inl rfl⟩
    | none =>
      cases b <;> cases hc : ctx.msgbox_cancel g0.notices.length
      · exact ⟨_, rfl, Or.inr ⟨rfl, rfl, rfl⟩⟩
      · exact ⟨_, rfl, Or.inr ⟨rfl, rfl, rfl⟩⟩
      · exact ⟨_, rfl, Or.inl rfl⟩
      · exact ⟨_, rfl, Or.inl rfl⟩
  · intro resolve nm o b g0 m
    simp only [exec_command]
    cases resolve m g0 with
    | none => rfl
    | some r =>
      cases r with
      | terminated g2 => rfl
      | ok a g2 =>
        simp only
        split <;> rfl
  · intro resolve nm o b g0 c res hex
    exact exec_command_globals ctx resolve nm o b g0 c res hex
  · intro resolve nm o b g0
    refine ⟨rfl, ?_⟩
    intro c rest res hrun
    simp only [run_commands] at hrun
    cases hex : exec_command ctx resolve nm o b g0 c with
    | none => simp [hex] at hrun
    | some step =>
      refine ⟨step, rfl, ?_⟩
      cases step with
      | terminated g1 =>
        simp only [hex, Option.some.injEq] at hrun
        exact Or.inl hrun.symm
      | ok fl g1 =>
        cases fl with
        | done v =>
          simp only [hex, Option.some.injEq] at hrun
          exact Or.inl hrun.symm
        | next o1 b1 =>
          simp only [hex] at hrun
          exact Or.inr ⟨o1, b1, g1, rfl, hrun⟩
  · intro self resolve nm g0 called hcall
    unfold PatternCommandBuffer.call at hcall
    cases hrun : run_commands ctx resolve nm self.commands ctx.mem.after_bundle false g0 with
    | none => simp [hrun] at hcall
    | some r =>
      refine ⟨r, rfl, ?_⟩
      cases r with
      | terminated g2 =>
        simp only [hrun, Option.some.injEq] at hcall
        rw [← hcall]
        rfl
      | ok fl g2 =>
        cases fl <;>
          · simp only [hrun, Option.some.injEq] at hcall
            rw [← hcall]
            rfl
  · intro fuel0 n g0 res hres
    unfold get_address at hres
    cases hc : map_find g0.g_cached_addresses n with
    | some v =>
      simp only [hc, Option.some.injEq] at hres
      exact Or.inl ⟨v, rfl, hres.symm⟩
    | none =>
      right
      simp only [hc] at hres
      cases hr : map_find ctx.g_address_rules n with
      | none =>
        left
        refine ⟨rfl, rfl, ?_⟩
        cases fuel0 with
        | zero =>
          simp only [load_address, hr, Option.some.injEq] at hres
          exact hres.symm
        | succ fuel1 =>
          simp only [load_address_succ, hr, Option.some.injEq] at hres
          exact hres.symm
      | some rule =>
        right
        cases fuel0 with
        | zero => simp [load_address, hr] at hres
        | succ fuel1 =>
          simp only [load_address_succ, hr] at hres
          cases hcall : rule.call ctx (get_address ctx fuel1) n g0 with
          | none => simp [hcall] at hres
          | some called =>
            refine ⟨rfl, rule, fuel1, called, rfl, rfl, hcall, ?_⟩
            cases called with
            | terminated g2 =>
              simp only [hcall, Option.some.injEq] at hres
              rw [← hres]
              rfl
            | ok v g2 =>
              cases v with
              | none => exact absurd hcall (call_never_empty rule ctx _ n g0 g2)
              | some a =>
                simp only [hcall, Option.some.injEq] at hres
                rw [← hres]
                rfl

/-- Witness of C13 (amended): resolving `"slots"` over `preload_image`, where its
required pattern is not found, shows exactly the message box for that
pattern; the pattern step is the first one of the rule, reached at the start
of the pipeline with the optional flag clear. -/
theorem notices_only_for_required_miss_or_unknown_witness :
    get_address preload_ctx 1 "slots" Globals.initial =
        some (.ok 0x7ff600000007
          { g_cached_addresses := [("slots", 0x7ff600000007)]
            notices := [.pattern_not_found "slots" slots_pattern]
            debug_log := [] }) ∧
      (∃ new,
        (Outcome.ok 0x7ff600000007
          { g_cached_addresses := [("slots", 0x7ff600000007)]
            notices := [.pattern_not_found "slots" slots_pattern]
            debug_log := [] } : Outcome Nat).globals.notices =
          Globals.initial.notices ++ new ∧
        ∀ x ∈ new, x.justified preload_ctx) ∧
      find_inst_scan preload_ctx.exe slots_pattern preload_ctx.mem.after_bundle
        preload_ctx.exe_size = none :=
  ⟨by decide,
    (notices_only_for_required_miss_or_unknown preload_ctx 1 "slots" Globals.initial
      (.ok 0x7ff600000007
        { g_cached_addresses := [("slots", 0x7ff600000007)]
          notices := [.pattern_not_found "slots" slots_pattern]
          debug_log := [] })
      (by decide)).1,
    by decide⟩

/-- C14 (counterexample). The required pattern `43` does not match the image
`41 42`; when the user answers the message box with Cancel, `find_inst` calls
`std::terminate()` and hands nothing back, and the resolution of `"needed"`
ends the process. -/
theorem find_inst_cancel_terminates :
    find_inst_scan (image_of [0x41, 0x42]) [0x43] 0 2 = none ∧
      find_inst (image_of [0x41, 0x42]) 2 [0x43] 0 none true true = .terminate ∧
      (find_inst (image_of [0x41, 0x42]) 2 [0x43] 0 none true true).returned = none ∧
      get_address needed_ctx_cancel 1 "needed" Globals.initial =
        some (.terminated (Globals.initial.notify (.pattern_not_found "needed" [0x43]))) := by
  decide

/-- C14 (amended). When a required pattern is not found, `find_inst` shows the
message box. Answered with OK, it returns control to its caller with the
value 0, the step goes on with offset 0 and the cache is left as it was;
answered with Cancel, it calls `std::terminate()` and the process ends at the
step. -/
theorem required_miss_step (ctx : Ctx) (resolve : String → Globals → Option (Outcome Nat))
    (address_name : String) (o : Nat) (g : Globals) (pattern : List Byte) (range : Option Nat)
    (hmiss : find_inst_scan ctx.exe pattern o ((range.map (add64 o)).getD ctx.exe_size) = none) :
    find_inst ctx.exe ctx.exe_size pattern o (range.map (add64 o)) true
        (ctx.msgbox_cancel g.notices.length) =
        (if ctx.msgbox_cancel g.notices.length then .terminate else .required_miss) ∧
      (find_inst ctx.exe ctx.exe_size pattern o (range.map (add64 o)) true
        (ctx.msgbox_cancel g.notices.length)).returned =
        (if ctx.msgbox_cancel g.notices.length then none else some 0) ∧
      (find_inst ctx.exe ctx.exe_size pattern o (range.map (add64 o)) true
        (ctx.msgbox_cancel g.notices.length)).notice = true ∧
      exec_command ctx resolve address_name o false g (.FindInst pattern range) =
        (if ctx.msgbox_cancel g.notices.length then
          some (.terminated (g.notify (.pattern_not_found address_name pattern)))
        else some (.ok (.next 0 false) (g.notify (.pattern_not_found address_name pattern)))) ∧
      (g.notify (.pattern_not_found address_name pattern)).g_cached_addresses =
        g.g_cached_addresses := by
  simp only [exec_command, find_inst, hmiss, Bool.not_false]
  cases ctx.msgbox_cancel g.notices.length <;> simp [FindOutcome.returned, FindOutcome.notice,
    Globals.notify]

/-- Witness of C14 (amended): the pattern `43` over the image `41 42`, with the
message box answered by Cancel. -/
theorem required_miss_step_witness :
    find_inst needed_ctx_cancel.exe needed_ctx_cancel.exe_size [0x43] 0
        ((none : Option Nat).map (add64 0)) true
        (needed_ctx_cancel.msgbox_cancel Globals.initial.notices.length) =
        (if needed_ctx_cancel.msgbox_cancel Globals.initial.notices.length then .terminate
          else .required_miss) ∧
      (find_inst needed_ctx_cancel.exe needed_ctx_cancel.exe_size [0x43] 0
        ((none : Option Nat).map (add64 0)) true
        (needed_ctx_cancel.msgbox_cancel Globals.initial.notices.length)).returned =
        (if needed_ctx_cancel.msgbox_cancel Globals.initial.notices.length then none
          else some 0) ∧
      (find_inst needed_ctx_cancel.exe needed_ctx_cancel.exe_size [0x43] 0
        ((none : Option Nat).map (add64 0)) true
        (needed_ctx_cancel.msgbox_cancel Globals.initial.notices.length)).notice = true ∧
      exec_command needed_ctx_cancel (get_address needed_ctx_cancel 0) "needed" 0 false
          Globals.initial (.FindInst [0x43] none) =
        (if needed_ctx_cancel.msgbox_cancel Globals.initial.notices.length then
          some (.terminated (Globals.initial.notify (.pattern_not_found "needed" [0x43])))
        else
          some (.ok (.next 0 false)
            (Globals.initial.notify (.pattern_not_found "needed" [0x43])))) ∧
      (Globals.initial.notify (.pattern_not_found "needed" [0x43])).g_cached_addresses =
        Globals.initial.g_cached_addresses :=
  required_miss_step needed_ctx_cancel (get_address needed_ctx_cancel 0) "needed" 0
    Globals.initial [0x43] none (by decide)


/-! ## Lemmas about the interpreter loop -/

theorem foldl_fold_step_ended (ctx : Ctx) (resolve : String → Globals → Option (Outcome Nat))
    (name : String) (cmds : List Command) (r : Option (Outcome Flow))
    (hr : ∀ o b g, r ≠ some (.ok (.next o b) g)) :
    cmds.foldl (fold_step ctx resolve name) r = r := by
  induction cmds with
  | nil => rfl
  | cons c rest ih =>
    simp only [List.foldl_cons]
    have : fold_step ctx resolve name r c = r := by
      unfold fold_step
      split
      · rename_i o b g
        exact absurd rfl (hr o b g)
      · rfl
    rw [this, ih]

theorem run_commands_eq_foldl (ctx : Ctx) (resolve : String → Globals → Option (Outcome Nat))
    (name : String) (cmds : List Command) (o : Nat) (b : Bool) (g : Globals) :
    run_commands ctx resolve name cmds o b g =
      cmds.foldl (fold_step ctx resolve name) (some (.ok (.next o b) g)) := by
  induction cmds generalizing o b g with
  | nil => rfl
  | cons c rest ih =>
    simp only [run_commands, List.foldl_cons, fold_step]
    cases h : exec_command ctx resolve name o b g c with
    | none => rw [foldl_fold_step_ended _ _ _ _ _ (fun _ _ _ e => Option.noConfusion e)]
    | some out =>
      cases out with
      | terminated g1 =>
        rw [foldl_fold_step_ended _ _ _ _ _ (fun _ _ _ e => by simp at e)]
      | ok fl g1 =>
        cases fl with
        | next o1 b1 => exact ih o1 b1 g1
        | done r =>
          rw [foldl_fold_step_ended _ _ _ _ _ (fun _ _ _ e => by simp at e)]

/-- C18. Every builder method appends its command or commands at the end of the
list; running the commands is the left fold of the step semantics over the
list, from the first command to the last; and the run of a list `pre ++ post`
is the run of `pre` followed, when `pre` has not ended the pipeline, by the
run of `post` from the state `pre` has left: no step selects the step that
runs next. -/
theorem pipeline_is_left_fold (ctx : Ctx) (resolve : String → Globals → Option (Outcome Nat))
    (address_name : String) (self : PatternCommandBuffer) (g : Globals) :
    (∀ cmds o b g0, run_commands ctx resolve address_name cmds o b g0 =
        cmds.foldl (fold_step ctx resolve address_name) (some (.ok (.next o b) g0))) ∧
      self.call ctx resolve address_name g =
        (match self.commands.foldl (fold_step ctx resolve address_name)
            (some (.ok (.next ctx.mem.after_bundle false) g)) with
          | none => none
          | some (.terminated g1) => some (.terminated g1)
          | some (.ok (.done r) g1) => some (.ok r g1)
          | some (.ok (.next offset _) g1) => some (.ok (some offset) g1)) ∧
      (∀ pre post o b g0, run_commands ctx resolve address_name (pre ++ post) o b g0 =
        match run_commands ctx resolve address_name pre o b g0 with
        | some (.ok (.next o1 b1) g1) => run_commands ctx resolve address_name post o1 b1 g1
        | r => r) ∧
      (∀ v, (self.set_optional v).commands = self.commands ++ [.SetOptional v]) ∧
      (∀ n, (self.get_address n).commands = self.commands ++ [.GetAddress n]) ∧
      (∀ t f, (self.get_virtual_function_address t f).commands =
        self.commands ++ [.GetVirtualFunctionAddress t f]) ∧
      (∀ p, (self.find_inst p).commands = self.commands ++ [.FindInst p none]) ∧
      (∀ p, (self.find_after_inst p).commands =
        self.commands ++ [.FindInst p none, .Offset p.length]) ∧
      (∀ p, (self.find_next_inst p).commands = self.commands ++ [.Offset 1, .FindInst p none]) ∧
      (∀ p r, (self.find_inst_in_range p r).commands = self.commands ++ [.FindInst p (some r)]) ∧
      (∀ p r, (self.find_after_inst_in_range p r).commands =
        self.commands ++ [.FindInst p (some r), .Offset p.length]) ∧
      (∀ p r, (self.find_next_inst_in_range p r).commands =
        self.commands ++ [.Offset 1, .FindInst p (some r)]) ∧
      (∀ d, (self.offset d).commands = self.commands ++ [.Offset d]) ∧
      (∀ x y z, (self.decode_pc x y z).commands = self.commands ++ [.DecodePC x y z]) ∧
      (∀ x y, (self.decode_imm x y).commands = self.commands ++ [.DecodeIMM x y]) ∧
      self.decode_call.commands = self.commands ++ [.DecodeCall] ∧
      self.at_exe.commands = self.commands ++ [.AtExe] ∧
      self.from_exe.commands = self.commands ++ [.FromExe] ∧
      (∀ x, (self.function_start x).commands = self.commands ++ [.FunctionStart x]) ∧
      (∀ x, (self.from_exe_base x).commands = self.commands ++ [.FromExeBase x, .AtExe]) := by
  refine ⟨fun cmds o b g0 => run_commands_eq_foldl ctx resolve address_name cmds o b g0, ?_,
    fun pre post o b g0 => run_commands_append ctx resolve address_name pre post o b g0, ?_⟩
  · unfold PatternCommandBuffer.call
    rw [run_commands_eq_foldl]
  · simp [PatternCommandBuffer.set_optional, PatternCommandBuffer.get_address,
      PatternCommandBuffer.get_virtual_function_address, PatternCommandBuffer.find_inst,
      PatternCommandBuffer.find_after_inst, PatternCommandBuffer.find_next_inst,
      PatternCommandBuffer.find_inst_in_range, PatternCommandBuffer.find_after_inst_in_range,
      PatternCommandBuffer.find_next_inst_in_range, PatternCommandBuffer.offset,
      PatternCommandBuffer.decode_pc, PatternCommandBuffer.decode_imm,
      PatternCommandBuffer.decode_call, PatternCommandBuffer.at_exe,
      PatternCommandBuffer.from_exe, PatternCommandBuffer.function_start,
      PatternCommandBuffer.from_exe_base, PatternCommandBuffer.push_back]


theorem exec_command_flag (ctx : Ctx) (resolve : String → Globals → Option (Outcome Nat))
    (name : String) (o : Nat) (b : Bool) (g : Globals) (c : Command) (o1 : Nat) (b1 : Bool)
    (g1 : Globals) (h : exec_command ctx resolve name o b g c = some (.ok (.next o1 b1) g1)) :
    b1 = (set_optional_args [c]).getLast?.getD b := by
  cases c with
  | SetOptional v =>
    simp only [exec_command, Option.some.injEq, Outcome.ok.injEq, Flow.next.injEq] at h
    simp [set_optional_args, h.1.2]
  | GetAddress n =>
    simp only [exec_command] at h
    cases hr : resolve n g with
    | none => simp [hr] at h
    | some out =>
      cases out with
      | terminated g2 => simp [hr] at h
      | ok a g2 =>
        simp only [hr] at h
        split at h
        · simp at h
        · simp only [Option.some.injEq, Outcome.ok.injEq, Flow.next.injEq] at h
          simp [set_optional_args, h.1.2]
  | FindInst pattern range =>
    simp only [exec_command] at h
    split at h <;> simp at h <;> simp [set_optional_args, h.1.2]
  | _ =>
    simp only [exec_command, Option.some.injEq, Outcome.ok.injEq, Flow.next.injEq] at h
    simp [set_optional_args, h.1.2]

theorem getLast_getD_append (l1 l2 : List Bool) (b : Bool) :
    (l1 ++ l2).getLast?.getD b = l2.getLast?.getD (l1.getLast?.getD b) := by
  rw [List.getLast?_append]
  cases l2.getLast? <;> cases l1.getLast? <;> rfl

theorem set_optional_args_cons (c : Command) (rest : List Command) :
    set_optional_args (c :: rest) = set_optional_args [c] ++ set_optional_args rest := by
  simp only [set_optional_args]
  rw [← List.filterMap_append]
  rfl

theorem run_commands_flag (ctx : Ctx) (resolve : String → Globals → Option (Outcome Nat))
    (name : String) (cmds : List Command) (o : Nat) (b : Bool) (g : Globals) (o1 : Nat)
    (b1 : Bool) (g1 : Globals)
    (h : run_commands ctx resolve name cmds o b g = some (.ok (.next o1 b1) g1)) :
    b1 = (set_optional_args cmds).getLast?.getD b := by
  induction cmds generalizing o b g with
  | nil =>
    simp only [run_commands, Option.some.injEq, Outcome.ok.injEq, Flow.next.injEq] at h
    simp [set_optional_args, h.1.2]
  | cons c rest ih =>
    simp only [run_commands] at h
    cases hx : exec_command ctx resolve name o b g c with
    | none => simp [hx] at h
    | some out =>
      cases out with
      | terminated g2 => simp [hx] at h
      | ok fl g2 =>
        cases fl with
        | done r => simp [hx] at h
        | next o2 b2 =>
          simp only [hx] at h
          have h1 := exec_command_flag ctx resolve name o b g c o2 b2 g2 hx
          have h2 := ih o2 b2 g2 h
          rw [set_optional_args_cons, getLast_getD_append, ← h1, ← h2]

/-- C19. The optional flag in effect at a pattern step is the argument of the
most recent `SetOptional` step before it, and `false` if there is none. When
the pattern is not found: with the flag set, the pipeline ends at the step
with the unresolved value 0, shows nothing and does not end the process;
with the flag clear (never set, or cleared again by a later
`SetOptional(false)`), the miss is a required one: the message box is shown
and the process ends (Cancel) or the later steps run from offset 0 (OK). -/
theorem optional_flag_in_effect (ctx : Ctx) (resolve : String → Globals → Option (Outcome Nat))
    (address_name : String) (g g1 : Globals) (before after : List Command) (pattern : List Byte)
    (range : Option Nat) (o : Nat) (flag : Bool)
    (hbefore : run_commands ctx resolve address_name before ctx.mem.after_bundle false g =
      some (.ok (.next o flag) g1))
    (hmiss : find_inst_scan ctx.exe pattern o ((range.map (add64 o)).getD ctx.exe_size) = none) :
    flag = most_recent_set_optional before ∧
      run_commands ctx resolve address_name (before ++ Command.FindInst pattern range :: after)
          ctx.mem.after_bundle false g =
        (if most_recent_set_optional before then some (.ok (.done (some 0)) g1)
        else if ctx.msgbox_cancel g1.notices.length then
          some (.terminated (g1.notify (.pattern_not_found address_name pattern)))
        else
          run_commands ctx resolve address_name after 0 false
            (g1.notify (.pattern_not_found address_name pattern))) := by
  have hflag : flag = most_recent_set_optional before :=
    run_commands_flag ctx resolve address_name before _ _ g o flag g1 hbefore
  have hrun : run_commands ctx resolve address_name
      (before ++ Command.FindInst pattern range :: after) ctx.mem.after_bundle false g =
      (if most_recent_set_optional before then some (.ok (.done (some 0)) g1)
      else if ctx.msgbox_cancel g1.notices.length then
        some (.terminated (g1.notify (.pattern_not_found address_name pattern)))
      else
        run_commands ctx resolve address_name after 0 false
          (g1.notify (.pattern_not_found address_name pattern))) := by
    rw [← hflag]
    simp only [run_commands_append, hbefore, run_commands, exec_command, find_inst, hmiss]
    cases flag <;> cases ctx.msgbox_cancel g1.notices.length <;> simp
  exact ⟨hflag, hrun⟩

/-- Witness of C19: after `SetOptional(true)`, `Offset(1)`, `SetOptional(false)`
the flag is clear again, and the pattern `43`, not found in the image `41 42`,
is a required miss; after `SetOptional(true)` alone the same miss ends the
pipeline with the value 0. -/
theorem optional_flag_in_effect_witness :
    (false = most_recent_set_optional flag_steps ∧
      run_commands needed_ctx (get_address needed_ctx 0) "needed"
          (flag_steps ++ Command.FindInst [0x43] none :: [Command.AtExe])
          needed_ctx.mem.after_bundle false Globals.initial =
        (if most_recent_set_optional flag_steps then
          some (.ok (.done (some 0)) Globals.initial)
        else if needed_ctx.msgbox_cancel Globals.initial.notices.length then
          some (.terminated (Globals.initial.notify (.pattern_not_found "needed" [0x43])))
        else
          run_commands needed_ctx (get_address needed_ctx 0) "needed" [Command.AtExe] 0 false
            (Globals.initial.notify (.pattern_not_found "needed" [0x43])))) ∧
      most_recent_set_optional flag_steps = false ∧
      most_recent_set_optional [.SetOptional true] = true ∧
      run_commands needed_ctx (get_address needed_ctx 0) "needed"
          ([.SetOptional true] ++ Command.FindInst [0x43] none :: [Command.AtExe])
          needed_ctx.mem.after_bundle false Globals.initial =
        some (.ok (.done (some 0)) Globals.initial) :=
  ⟨optional_flag_in_effect needed_ctx (get_address needed_ctx 0) "needed" Globals.initial
      Globals.initial flag_steps [Command.AtExe] [0x43] none 1 false (by decide) (by decide),
    by decide, by decide, by decide⟩

/-- C20. A `GetAddress(name)` step calls `get_address(name)`, which returns the
memoized value when the cache holds one and loads the address otherwise.
With the optional flag set and the value 0, the pipeline ends at the step
with the unresolved value 0 and no later step runs; in every other case the
current offset becomes that value minus the image base (on `size_t`) and the
later steps run from there. -/
theorem get_address_step (ctx : Ctx) (fuel : Nat) (address_name name : String)
    (after : List Command) (o : Nat) (optional : Bool) (g g1 : Globals) (a : Nat)
    (h : get_address ctx fuel name g = some (.ok a g1)) :
    exec_command ctx (get_address ctx fuel) address_name o optional g (.GetAddress name) =
        (if optional && a == 0 then some (.ok (.done (some 0)) g1)
        else some (.ok (.next (sub64 a ctx.mem.exe_ptr) optional) g1)) ∧
      run_commands ctx (get_address ctx fuel) address_name (Command.GetAddress name :: after)
          o optional g =
        (if optional && a == 0 then some (.ok (.done (some 0)) g1)
        else run_commands ctx (get_address ctx fuel) address_name after
          (sub64 a ctx.mem.exe_ptr) optional g1) ∧
      (match map_find g.g_cached_addresses name with
        | some v => a = v ∧ g1 = g
        | none => load_address ctx fuel name g = some (.ok a g1)) := by
  have hstep : exec_command ctx (get_address ctx fuel) address_name o optional g
      (.GetAddress name) =
      (if optional && a == 0 then some (.ok (.done (some 0)) g1)
      else some (.ok (.next (sub64 a ctx.mem.exe_ptr) optional) g1)) := by
    simp only [exec_command, h]
  refine ⟨hstep, ?_, ?_⟩
  · simp only [run_commands, hstep]
    by_cases hz : (optional && a == 0) = true
    · simp [hz]
    · simp [hz]
  · unfold get_address at h
    cases hc : map_find g.g_cached_addresses name with
    | some v =>
      simp only [hc, Option.some.injEq, Outcome.ok.injEq] at h
      exact ⟨h.1.symm, h.2.symm⟩
    | none =>
      simp only [hc] at h
      exact h

/-- Witness of C20: the step `GetAddress("keyboard")` of `"keyboard_alias"`,
once with an empty cache (the address is loaded and stored) and with the
image base `0x7ff600000000` taken off. -/
theorem get_address_step_witness :
    exec_command alias_ctx (get_address alias_ctx 1) "keyboard_alias" 0 false Globals.initial
        (.GetAddress "keyboard") =
        (if false && 0x7ff600013aba == 0 then
          some (.ok (.done (some 0))
            { g_cached_addresses := [("keyboard", 0x7ff600013aba)], notices := [],
              debug_log := [] })
        else
          some (.ok (.next (sub64 0x7ff600013aba alias_ctx.mem.exe_ptr) false)
            { g_cached_addresses := [("keyboard", 0x7ff600013aba)], notices := [],
              debug_log := [] })) ∧
      run_commands alias_ctx (get_address alias_ctx 1) "keyboard_alias"
          (Command.GetAddress "keyboard" :: [Command.AtExe]) 0 false Globals.initial =
        (if false && 0x7ff600013aba == 0 then
          some (.ok (.done (some 0))
            { g_cached_addresses := [("keyboard", 0x7ff600013aba)], notices := [],
              debug_log := [] })
        else
          run_commands alias_ctx (get_address alias_ctx 1) "keyboard_alias" [Command.AtExe]
            (sub64 0x7ff600013aba alias_ctx.mem.exe_ptr) false
            { g_cached_addresses := [("keyboard", 0x7ff600013aba)], notices := [],
              debug_log := [] }) ∧
      (match map_find Globals.initial.g_cached_addresses "keyboard" with
        | some v =>
          0x7ff600013aba = v ∧
            ({ g_cached_addresses := [("keyboard", 0x7ff600013aba)], notices := [],
               debug_log := [] } : Globals) = Globals.initial
        | none =>
          load_address alias_ctx 1 "keyboard" Globals.initial =
            some (.ok 0x7ff600013aba
              { g_cached_addresses := [("keyboard", 0x7ff600013aba)], notices := [],
                debug_log := [] })) :=
  get_address_step alias_ctx 1 "keyboard_alias" "keyboard" [Command.AtExe] 0 false
    Globals.initial
    { g_cached_addresses := [("keyboard", 0x7ff600013aba)], notices := [], debug_log := [] }
    0x7ff600013aba (by decide)


/-! ## Lemmas about the patch manager -/

theorem read_bytes_length (m : Nat → Byte) (a len : Nat) : (read_bytes m a len).length = len := by
  simp [read_bytes]

theorem read_bytes_getD (m : Nat → Byte) (a len i : Nat) (h : i < len) :
    (read_bytes m a len).getD i 0 = m (a + i) := by
  simp [read_bytes, List.getD_eq_getElem?_getD, List.getElem?_map, List.getElem?_range h]

theorem read_write_bytes (m : Nat → Byte) (a : Nat) (bs : List Byte) :
    read_bytes (write_bytes m a bs) a bs.length = bs := by
  apply List.ext_getElem
  · simp [read_bytes]
  · intro i h1 h2
    simp only [read_bytes, List.getElem_map, List.getElem_range, write_bytes]
    have h3 : a ≤ a + i ∧ a + i < a + bs.length := ⟨by omega, by omega⟩
    simp only [h3, and_self, if_true, Nat.add_sub_cancel_left]
    simp [List.getD_eq_getElem?_getD, List.getElem?_eq_getElem h2]

theorem write_back_restores (m m1 : Nat → Byte) (a len : Nat)
    (hout : ∀ p, ¬ (a ≤ p ∧ p < a + len) → m1 p = m p) (p : Nat) :
    write_bytes m1 a (read_bytes m a len) p = m p := by
  unfold write_bytes
  rw [read_bytes_length]
  by_cases h : a ≤ p ∧ p < a + len
  · simp only [h, and_self, if_true]
    rw [read_bytes_getD m a len (p - a) (by omega)]
    congr 1
    omega
  · simp only [h, if_false]
    exact hout p h

theorem write_bytes_outside (m : Nat → Byte) (a : Nat) (bs : List Byte) (p : Nat)
    (h : ¬ (a ≤ p ∧ p < a + bs.length)) : write_bytes m a bs p = m p := by
  simp [write_bytes, h]

theorem apply_revert_fresh (s : PatchState) (name : String) (a : Nat) (bs : List Byte)
    (hfresh : map_find s.patches name = none) :
    (∀ p, (recover_mem (write_mem_recoverable s name a bs) name).memory p = s.memory p) ∧
      map_find (recover_mem (write_mem_recoverable s name a bs) name).patches name =
        some { address := a, original_bytes := read_bytes s.memory a bs.length,
               replacement := bs, applied := false } := by
  simp only [write_mem_recoverable, hfresh, recover_mem, map_find_map_set_self, if_true]
  refine ⟨fun p => ?_, ?_⟩
  · exact write_back_restores s.memory _ a bs.length
      (fun q hq => write_bytes_outside s.memory a bs q hq) p
  · trivial

theorem apply_revert_again (s : PatchState) (m : Nat → Byte) (name : String) (a : Nat)
    (bs : List Byte) (hmem : ∀ p, s.memory p = m p)
    (hrec : map_find s.patches name =
      some { address := a, original_bytes := read_bytes m a bs.length,
             replacement := bs, applied := false }) :
    (∀ p, (recover_mem (write_mem_recoverable s name a bs) name).memory p = m p) ∧
      map_find (recover_mem (write_mem_recoverable s name a bs) name).patches name =
        some { address := a, original_bytes := read_bytes m a bs.length,
               replacement := bs, applied := false } := by
  simp only [write_mem_recoverable, hrec, recover_mem, map_find_map_set_self, Bool.false_and,
    Bool.false_eq_true, if_false, if_true]
  refine ⟨fun p => ?_, ?_⟩
  · exact write_back_restores m _ a bs.length
      (fun q hq => by rw [write_bytes_outside s.memory a bs q hq]; exact hmem q) p
  · trivial

theorem apply_revert_cycles_again (m : Nat → Byte) (name : String) (a : Nat) (bs : List Byte)
    (n : Nat) (s : PatchState) (hmem : ∀ p, s.memory p = m p)
    (hrec : map_find s.patches name =
      some { address := a, original_bytes := read_bytes m a bs.length,
             replacement := bs, applied := false }) :
    ∀ p, (apply_revert_cycles name a bs n s).memory p = m p := by
  induction n generalizing s with
  | zero => exact hmem
  | succ n ih =>
    obtain ⟨h1, h2⟩ := apply_revert_again s m name a bs hmem hrec
    exact ih _ h1 h2

/-- C15. From a state with no record for the name, any number of cycles, each
an apply of the same bytes at the same address followed by a revert, leaves
every byte of the memory as it was before the first apply; after an apply the
bytes read at the address are the replacement, and after the revert that
follows they are the original ones. -/
theorem apply_revert_restores (s : PatchState) (name : String) (address : Nat)
    (bytes : List Byte) (n : Nat) (hfresh : map_find s.patches name = none) :
    (∀ p, (apply_revert_cycles name address bytes n s).memory p = s.memory p) ∧
      read_bytes (write_mem_recoverable s name address bytes).memory address bytes.length =
        bytes ∧
      read_bytes (recover_mem (write_mem_recoverable s name address bytes) name).memory address
        bytes.length = read_bytes s.memory address bytes.length := by
  obtain ⟨h1, h2⟩ := apply_revert_fresh s name address bytes hfresh
  refine ⟨?_, ?_, ?_⟩
  · cases n with
    | zero => intro p; rfl
    | succ n =>
      exact apply_revert_cycles_again s.memory name address bytes n _ h1 h2
  · simp only [write_mem_recoverable, hfresh]
    exact read_write_bytes s.memory address bytes
  · simp only [read_bytes, h1]

/-- Witness of C15: the patch `"shortjmp"` writes `eb` over the byte `74`;
reading the address gives `eb` after the apply and `74` again after the
revert, also after three cycles. -/
theorem apply_revert_restores_witness :
    ((∀ p, (apply_revert_cycles "shortjmp" 0x7ff600001000 [0xEB] 3 shortjmp_state).memory p =
        shortjmp_state.memory p) ∧
      read_bytes (write_mem_recoverable shortjmp_state "shortjmp" 0x7ff600001000 [0xEB]).memory
        0x7ff600001000 [(0xEB : Byte)].length = [0xEB] ∧
      read_bytes
        (recover_mem (write_mem_recoverable shortjmp_state "shortjmp" 0x7ff600001000 [0xEB])
          "shortjmp").memory 0x7ff600001000 [(0xEB : Byte)].length =
        read_bytes shortjmp_state.memory 0x7ff600001000 [(0xEB : Byte)].length) ∧
      shortjmp_state.memory 0x7ff600001000 = 0x74 ∧
      (write_mem_recoverable shortjmp_state "shortjmp" 0x7ff600001000 [0xEB]).memory
        0x7ff600001000 = 0xEB ∧
      (recover_mem (write_mem_recoverable shortjmp_state "shortjmp" 0x7ff600001000 [0xEB])
        "shortjmp").memory 0x7ff600001000 = 0x74 :=
  ⟨apply_revert_restores shortjmp_state "shortjmp" 0x7ff600001000 [0xEB] 3 (by decide),
    by decide, by decide, by decide⟩


theorem apply_idempotent (s : PatchState) (name : String) (a : Nat) (bs : List Byte) :
    write_mem_recoverable (write_mem_recoverable s name a bs) name a bs =
      write_mem_recoverable s name a bs := by
  cases h : map_find s.patches name with
  | none =>
    simp only [write_mem_recoverable, h, map_find_map_set_self]
    simp
  | some r =>
    by_cases hc : (r.applied && r.replacement == bs) = true
    · have h1 : write_mem_recoverable s name a bs = s := by
        simp only [write_mem_recoverable, h, hc, if_true]
      rw [h1, h1]
    · have h1 : write_mem_recoverable s name a bs =
          { memory := write_bytes s.memory a bs
            patches := map_set s.patches name { r with replacement := bs, applied := true }
            writes := s.writes + 1 } := by
        simp only [write_mem_recoverable, h, hc]
        simp
      rw [h1]
      simp only [write_mem_recoverable, map_find_map_set_self]
      simp

theorem apply_times_after_first (name : String) (a : Nat) (bs : List Byte) (n : Nat)
    (s : PatchState) :
    apply_times name a bs n (write_mem_recoverable s name a bs) =
      write_mem_recoverable s name a bs := by
  induction n with
  | zero => rfl
  | succ n ih =>
    simp only [apply_times]
    rw [apply_idempotent, ih]

/-- C16. When the patch is not already applied with these bytes, any number
`n + 1` of consecutive apply calls with identical arguments makes exactly one
call of the write primitive: the first call writes, and every later call
returns the state (memory, records and write count) as it finds it. -/
theorem repeated_apply_writes_once (s : PatchState) (name : String) (address : Nat)
    (bytes : List Byte) (n : Nat)
    (hnot : ∀ r, map_find s.patches name = some r → ¬ (r.applied = true ∧ r.replacement = bytes)) :
    (apply_times name address bytes (n + 1) s).writes = s.writes + 1 ∧
      apply_times name address bytes (n + 1) s = write_mem_recoverable s name address bytes ∧
      (∀ k, write_mem_recoverable (apply_times name address bytes (k + 1) s) name address bytes =
        apply_times name address bytes (k + 1) s) := by
  have hall : ∀ k, apply_times name address bytes (k + 1) s =
      write_mem_recoverable s name address bytes :=
    fun k => apply_times_after_first name address bytes k s
  refine ⟨?_, hall n, fun k => ?_⟩
  · rw [hall n]
    cases h : map_find s.patches name with
    | none => simp only [write_mem_recoverable, h]
    | some r =>
      have hc : ¬ ((r.applied && r.replacement == bytes) = true) := by
        intro hc
        simp only [Bool.and_eq_true, beq_iff_eq] at hc
        exact hnot r h hc
      simp only [write_mem_recoverable, h, hc]
      simp
  · rw [hall k, apply_idempotent]

/-- Witness of C16: four apply calls of the patch `"shortjmp"` on a state
without records make one write. -/
theorem repeated_apply_writes_once_witness :
    ((apply_times "shortjmp" 0x7ff600001000 [0xEB] (3 + 1) shortjmp_state).writes =
        shortjmp_state.writes + 1 ∧
      apply_times "shortjmp" 0x7ff600001000 [0xEB] (3 + 1) shortjmp_state =
        write_mem_recoverable shortjmp_state "shortjmp" 0x7ff600001000 [0xEB] ∧
      (∀ k,
        write_mem_recoverable (apply_times "shortjmp" 0x7ff600001000 [0xEB] (k + 1) shortjmp_state)
            "shortjmp" 0x7ff600001000 [0xEB] =
          apply_times "shortjmp" 0x7ff600001000 [0xEB] (k + 1) shortjmp_state)) ∧
      (apply_times "shortjmp" 0x7ff600001000 [0xEB] 4 shortjmp_state).writes = 1 :=
  ⟨repeated_apply_writes_once shortjmp_state "shortjmp" 0x7ff600001000 [0xEB] 3
      (fun r h => by simp [shortjmp_state, map_find] at h),
    by decide⟩

theorem patch_op_keeps_original (name : String) (x : List Byte) (op : PatchOp) (s : PatchState)
    (h : (map_find s.patches name).map PatchRecord.original_bytes = some x) :
    (map_find (run_patch_ops [op] s).patches name).map PatchRecord.original_bytes = some x := by
  cases op with
  | apply n a bs =>
    simp only [run_patch_ops, write_mem_recoverable]
    cases hn : map_find s.patches n with
    | none =>
      have hne : n ≠ name := by
        intro e
        subst e
        simp [hn] at h
      simp only
      rw [map_find_map_set_other _ n name _ hne]
      exact h
    | some r =>
      simp only
      split
      · exact h
      · simp only
        by_cases e : n = name
        · subst e
          rw [map_find_map_set_self]
          simpa [hn] using h
        · rw [map_find_map_set_other _ n name _ e]
          exact h
  | revert n =>
    simp only [run_patch_ops, recover_mem]
    cases hn : map_find s.patches n with
    | none => exact h
    | some r =>
      simp only
      split
      · simp only
        by_cases e : n = name
        · subst e
          rw [map_find_map_set_self]
          simpa [hn] using h
        · rw [map_find_map_set_other _ n name _ e]
          exact h
      · exact h

theorem patch_ops_keep_original (name : String) (x : List Byte) (ops : List PatchOp)
    (s : PatchState)
    (h : (map_find s.patches name).map PatchRecord.original_bytes = some x) :
    (map_find (run_patch_ops ops s).patches name).map PatchRecord.original_bytes = some x := by
  induction ops generalizing s with
  | nil => exact h
  | cons op rest ih =>
    have h1 := patch_op_keeps_original name x op s h
    cases op with
    | apply n a bs => exact ih _ h1
    | revert n => exact ih _ h1

/-- C17. The first apply under a name stores the bytes that are live at the
address; no later call of the patch manager, for any name, changes that
snapshot. A second apply under the name with different bytes of the same
length writes them over the live bytes and keeps the snapshot, and a revert
after it restores every byte of the memory to what it was before the first
apply. -/
theorem original_bytes_captured_once (s : PatchState) (name : String) (address : Nat)
    (b1 b2 : List Byte) (ops : List PatchOp)
    (hfresh : map_find s.patches name = none) (hlen : b2.length = b1.length) (hne : b2 ≠ b1) :
    (map_find (write_mem_recoverable s name address b1).patches name).map
        PatchRecord.original_bytes = some (read_bytes s.memory address b1.length) ∧
      (map_find (run_patch_ops ops (write_mem_recoverable s name address b1)).patches name).map
        PatchRecord.original_bytes = some (read_bytes s.memory address b1.length) ∧
      map_find
        (write_mem_recoverable (write_mem_recoverable s name address b1) name address b2).patches
        name =
        some { address := address, original_bytes := read_bytes s.memory address b1.length,
               replacement := b2, applied := true } ∧
      read_bytes
        (write_mem_recoverable (write_mem_recoverable s name address b1) name address b2).memory
        address b2.length = b2 ∧
      (write_mem_recoverable (write_mem_recoverable s name address b1) name address b2).writes =
        s.writes + 2 ∧
      ∀ p,
        (recover_mem
          (write_mem_recoverable (write_mem_recoverable s name address b1) name address b2)
          name).memory p = s.memory p := by
  have h1 : (map_find (write_mem_recoverable s name address b1).patches name).map
      PatchRecord.original_bytes = some (read_bytes s.memory address b1.length) := by
    simp only [write_mem_recoverable, hfresh, map_find_map_set_self, Option.map_some']
  have hc : ¬ ((true && b1 == b2) = true) := by
    simp only [Bool.true_and, beq_iff_eq]
    exact fun e => hne e.symm
  have h2 : write_mem_recoverable (write_mem_recoverable s name address b1) name address b2 =
      { memory := write_bytes (write_bytes s.memory address b1) address b2
        patches := map_set (map_set s.patches name
            { address := address, original_bytes := read_bytes s.memory address b1.length,
              replacement := b1, applied := true }) name
          { address := address, original_bytes := read_bytes s.memory address b1.length,
            replacement := b2, applied := true }
        writes := s.writes + 1 + 1 } := by
    simp only [write_mem_recoverable, hfresh, map_find_map_set_self, hc]
    simp
  refine ⟨h1, patch_ops_keep_original name _ ops _ h1, ?_, ?_, ?_, ?_⟩
  · rw [h2]
    simp only [map_find_map_set_self]
  · rw [h2]
    exact read_write_bytes _ address b2
  · rw [h2]
  · intro p
    rw [h2]
    simp only [recover_mem, map_find_map_set_self, if_true]
    refine write_back_restores s.memory _ address b1.length (fun q hq => ?_) p
    rw [write_bytes_outside _ address b2 q (by rw [hlen]; exact hq),
      write_bytes_outside _ address b1 q hq]

/-- Witness of C17: `"shortjmp"` is applied with `eb` over the byte `74`, then
with `90`; the snapshot stays `74` through further calls, and the revert
gives `74` back. -/
theorem original_bytes_captured_once_witness :
    ((map_find (write_mem_recoverable shortjmp_state "shortjmp" 0x7ff600001000 [0xEB]).patches
          "shortjmp").map PatchRecord.original_bytes =
        some (read_bytes shortjmp_state.memory 0x7ff600001000 [(0xEB : Byte)].length) ∧
      (map_find
          (run_patch_ops
            [.revert "shortjmp", .apply "shortjmp" 0x7ff600001000 [0x90],
              .apply "other" 0x7ff600001000 [0xCC], .revert "shortjmp"]
            (write_mem_recoverable shortjmp_state "shortjmp" 0x7ff600001000 [0xEB])).patches
          "shortjmp").map PatchRecord.original_bytes =
        some (read_bytes shortjmp_state.memory 0x7ff600001000 [(0xEB : Byte)].length) ∧
      map_find
        (write_mem_recoverable
          (write_mem_recoverable shortjmp_state "shortjmp" 0x7ff600001000 [0xEB])
          "shortjmp" 0x7ff600001000 [0x90]).patches "shortjmp" =
        some { address := 0x7ff600001000,
               original_bytes :=
                 read_bytes shortjmp_state.memory 0x7ff600001000 [(0xEB : Byte)].length,
               replacement := [0x90], applied := true } ∧
      read_bytes
        (write_mem_recoverable
          (write_mem_recoverable shortjmp_state "shortjmp" 0x7ff600001000 [0xEB])
          "shortjmp" 0x7ff600001000 [0x90]).memory 0x7ff600001000 [(0x90 : Byte)].length =
        [0x90] ∧
      (write_mem_recoverable
          (write_mem_recoverable shortjmp_state "shortjmp" 0x7ff600001000 [0xEB])
          "shortjmp" 0x7ff600001000 [0x90]).writes = shortjmp_state.writes + 2 ∧
      ∀ p,
        (recover_mem
          (write_mem_recoverable
            (write_mem_recoverable shortjmp_state "shortjmp" 0x7ff600001000 [0xEB])
            "shortjmp" 0x7ff600001000 [0x90])
          "shortjmp").memory p = shortjmp_state.memory p) ∧
      read_bytes shortjmp_state.memory 0x7ff600001000 1 = [0x74] :=
  ⟨original_bytes_captured_once shortjmp_state "shortjmp" 0x7ff600001000 [0xEB] [0x90]
      [.revert "shortjmp", .apply "shortjmp" 0x7ff600001000 [0x90],
        .apply "other" 0x7ff600001000 [0xCC], .revert "shortjmp"]
      (by decide) (by decide) (by decide),
    by decide⟩


/-- C21 (failing input). A pattern step for `41 42 43` with range 2 at offset 0
is to search `image[0, 2)` only. The pattern is longer than the range, so
`search_end - needle_length` (line 160) is `2 - 3` on `size_t`, the
largest `size_t`: the scan runs on past offset 2 and returns the occurrence
at offset 5, which lies beyond `0 + 2`, instead of reporting the pattern as not
found. -/
theorem find_inst_range_underflow :
    scan_bound [0x41, 0x42, 0x43] (add64 0 2) = 2 ^ 64 - 1 ∧
      MatchesAt range_image [0x41, 0x42, 0x43] 5 ∧
      (∀ j, j < 5 → ¬ MatchesAt range_image [0x41, 0x42, 0x43] j) ∧
      exec_command range_ctx (get_address range_ctx 0) "name" 0 false Globals.initial
          (.FindInst [0x41, 0x42, 0x43] (some 2)) =
        some (.ok (.next 5 false) Globals.initial) ∧
      ¬ (5 + [(0x41 : Byte), 0x42, 0x43].length ≤ 0 + 2) := by
  decide


/-! ## Offset arithmetic and address-space conversion -/

theorem wrap64_cast (z : Int) : ((wrap64 z : Nat) : Int) = z % (2 : Int) ^ 64 := by
  unfold wrap64 SIZE
  have h : (0 : Int) ≤ z % ((2 ^ 64 : Nat) : Int) := Int.emod_nonneg _ (by norm_num)
  rw [Int.toNat_of_nonneg h]
  norm_num

theorem wrap64_wrap64_add (z d : Int) : wrap64 ((wrap64 z : Int) + d) = wrap64 (z + d) := by
  rw [wrap64_cast]
  unfold wrap64 SIZE
  congr 1
  have : (((2 : Nat) ^ 64 : Nat) : Int) = (2 : Int) ^ 64 := by norm_num
  rw [this, Int.emod_add_emod]

theorem wrap64_add_wrap64 (z d : Int) : wrap64 (z + (wrap64 d : Int)) = wrap64 (z + d) := by
  rw [Int.add_comm, wrap64_wrap64_add, Int.add_comm]

theorem wrap64_of_lt (o : Nat) (ho : o < 2 ^ 64) : wrap64 (o : Int) = o := by
  unfold wrap64 SIZE
  have : ((o : Int)) % (((2 : Nat) ^ 64 : Nat) : Int) = (o : Int) := by
    apply Int.emod_eq_of_lt (by omega)
    exact_mod_cast ho
  rw [this]
  simp

theorem wrap64_signed (z : Int) : wrap64 (to_signed 64 (wrap64 z)) = wrap64 z := by
  unfold to_signed
  split
  · rw [wrap64_cast]
    unfold wrap64 SIZE
    congr 1
    have : (((2 : Nat) ^ 64 : Nat) : Int) = (2 : Int) ^ 64 := by norm_num
    rw [this, Int.emod_emod_of_dvd _ (dvd_refl _)]
  · rw [wrap64_cast]
    unfold wrap64 SIZE
    congr 1
    have : (((2 : Nat) ^ 64 : Nat) : Int) = (2 : Int) ^ 64 := by norm_num
    rw [this, Int.sub_emod, Int.emod_self, Int.sub_zero, Int.emod_emod_of_dvd _ (dvd_refl _),
      Int.emod_emod_of_dvd _ (dvd_refl _)]

/-- C22. An `Offset(delta)` step replaces the current offset `o` by `o + delta`
reduced modulo `2 ^ 64`. After a match at `o ≥ 6`, `Offset(-6)` gives `o - 6`;
`Offset(a)` followed by `Offset(b)` ends like `Offset(a + b)`, also when the sum
is first wrapped to the signed 64-bit range; and `Offset(-d)` undoes
`Offset(d)`. -/
theorem offset_step_arithmetic (ctx : Ctx) (resolve : String → Globals → Option (Outcome Nat))
    (address_name : String) (o : Nat) (optional : Bool) (g : Globals) (ho : o < 2 ^ 64) :
    (∀ d : Int, exec_command ctx resolve address_name o optional g (.Offset d) =
        some (.ok (.next ((((o : Int) + d) % 2 ^ 64).toNat) optional) g)) ∧
      (6 ≤ o → exec_command ctx resolve address_name o optional g (.Offset (-6)) =
        some (.ok (.next (o - 6) optional) g)) ∧
      (∀ a b : Int, run_commands ctx resolve address_name [.Offset a, .Offset b] o optional g =
        run_commands ctx resolve address_name [.Offset (a + b)] o optional g) ∧
      (∀ a b : Int, run_commands ctx resolve address_name [.Offset a, .Offset b] o optional g =
        run_commands ctx resolve address_name [.Offset (to_signed 64 (wrap64 (a + b)))] o
          optional g) ∧
      (∀ d : Int, run_commands ctx resolve address_name [.Offset d, .Offset (-d)] o optional g =
        some (.ok (.next o optional) g)) := by
  refine ⟨fun d => ?_, fun h6 => ?_, fun a b => ?_, fun a b => ?_, fun d => ?_⟩
  · simp only [exec_command, wrap64, SIZE]
    norm_num
  · simp only [exec_command]
    have h : wrap64 ((o : Int) + -6) = o - 6 := by
      have h1 : (o : Int) + -6 = ((o - 6 : Nat) : Int) := by omega
      rw [h1, wrap64_of_lt _ (by omega)]
    rw [h]
  · simp only [run_commands, exec_command, wrap64_wrap64_add, Int.add_assoc]
  · simp only [run_commands, exec_command, wrap64_wrap64_add, Int.add_assoc]
    have h : wrap64 ((o : Int) + to_signed 64 (wrap64 (a + b))) = wrap64 ((o : Int) + (a + b)) := by
      rw [← wrap64_add_wrap64, wrap64_signed, wrap64_add_wrap64]
    rw [h]
  · simp only [run_commands, exec_command, wrap64_wrap64_add, Int.add_assoc]
    have h : (o : Int) + (d + -d) = o := by omega
    rw [h, wrap64_of_lt o ho]

/-- Witness of C22 on the rule `"check"`, whose pattern step is followed by
`offset(-6)`: at offset 0x1b the step gives 0x15. -/
theorem offset_step_arithmetic_witness :
    (0x1b : Nat) < 2 ^ 64 ∧
      exec_command get_state_func_ctx (get_address get_state_func_ctx 0) "check" 0x1b false
          Globals.initial (.Offset (-6)) =
        some (.ok (.next 0x15 false) Globals.initial) :=
  ⟨by decide,
    (offset_step_arithmetic get_state_func_ctx (get_address get_state_func_ctx 0) "check" 0x1b
      false Globals.initial (by decide)).2.1 (by decide)⟩


/-- C23. For every image base, `AtExe` maps the offset `o` to `base + o` and
`FromExe` maps it to `o - base`, both on `size_t`; `FromExe` after `AtExe`, and
`AtExe` after `FromExe`, leave the offset unchanged. -/
theorem at_exe_from_exe_inverse (ctx : Ctx) (resolve : String → Globals → Option (Outcome Nat))
    (address_name : String) (o : Nat) (optional : Bool) (g : Globals) (ho : o < 2 ^ 64) :
    exec_command ctx resolve address_name o optional g .AtExe =
        some (.ok (.next ((ctx.mem.exe_ptr + o) % 2 ^ 64) optional) g) ∧
      exec_command ctx resolve address_name o optional g .FromExe =
        some (.ok (.next ((o + (2 ^ 64 - ctx.mem.exe_ptr % 2 ^ 64)) % 2 ^ 64) optional) g) ∧
      run_commands ctx resolve address_name [.AtExe, .FromExe] o optional g =
        some (.ok (.next o optional) g) ∧
      run_commands ctx resolve address_name [.FromExe, .AtExe] o optional g =
        some (.ok (.next o optional) g) := by
  refine ⟨rfl, rfl, ?_, ?_⟩
  · have h : sub64 (at_exe ctx.mem o) ctx.mem.exe_ptr = o := by
      simp only [at_exe, add64, sub64, SIZE]
      omega
    simp only [run_commands, exec_command, h]
  · have h : at_exe ctx.mem (sub64 o ctx.mem.exe_ptr) = o := by
      simp only [at_exe, add64, sub64, SIZE]
      omega
    simp only [run_commands, exec_command, h]

/-- Witness of C23 at the image base `0x7ff600000000` and the offset `0x1234`. -/
theorem at_exe_from_exe_inverse_witness :
    (0x1234 : Nat) < 2 ^ 64 ∧
      exec_command get_state_func_ctx (get_address get_state_func_ctx 0) "name" 0x1234 false
          Globals.initial .AtExe =
        some (.ok (.next 0x7ff600001234 false) Globals.initial) ∧
      run_commands get_state_func_ctx (get_address get_state_func_ctx 0) "name"
          [.AtExe, .FromExe] 0x1234 false Globals.initial =
        some (.ok (.next 0x1234 false) Globals.initial) :=
  ⟨by decide,
    (at_exe_from_exe_inverse get_state_func_ctx (get_address get_state_func_ctx 0) "name" 0x1234
      false Globals.initial (by decide)).1,
    (at_exe_from_exe_inverse get_state_func_ctx (get_address get_state_func_ctx 0) "name" 0x1234
      false Globals.initial (by decide)).2.2.1⟩

/-- C27. For every `opcode_addr_size` other than 1, 2 and 8, `decode_pc` reads
the signed 32-bit value `rel` at `offset + opcode_offset` and returns
`offset + rel + opcode_offset + opcode_addr_size + opcode_suffix_offset` modulo
`2 ^ 64`, with the given size itself as a summand; for every `value_size`
other than 1, 2 and 8, `decode_imm` returns the unsigned 32-bit value there. -/
theorem decode_default_width (exe : Nat → Byte) (offset opcode_offset opcode_suffix_offset
    size : Nat) (h1 : size ≠ 1) (h2 : size ≠ 2) (h8 : size ≠ 8) :
    decode_pc exe offset opcode_offset opcode_suffix_offset size =
        wrap64 ((offset : Int) +
          sign_extend 4 (le_uint exe ((offset + opcode_offset) % 2 ^ 64) 4) +
          opcode_offset + size + opcode_suffix_offset) ∧
      decode_imm exe offset opcode_offset size =
        le_uint exe ((offset + opcode_offset) % 2 ^ 64) 4 ∧
      decode_imm exe offset opcode_offset size < 2 ^ 32 := by
  have hp : add64 offset opcode_offset = (offset + opcode_offset) % 2 ^ 64 := rfl
  have hpc : decode_pc exe offset opcode_offset opcode_suffix_offset size =
      wrap64 ((offset : Int) + to_signed 32 (read_u32 exe (add64 offset opcode_offset)) +
        opcode_offset + size + opcode_suffix_offset) := by
    unfold decode_pc
    split <;> first | omega | rfl
  have him : decode_imm exe offset opcode_offset size =
      read_u32 exe (add64 offset opcode_offset) := by
    unfold decode_imm
    split <;> first | omega | rfl
  have hs : to_signed 32 (read_u32 exe (add64 offset opcode_offset)) =
      sign_extend 4 (le_uint exe ((offset + opcode_offset) % 2 ^ 64) 4) := by
    rw [le_uint_four, ← hp]
    exact to_signed_eq_sign_extend 4 _
  refine ⟨by rw [hpc, hs], by rw [him, le_uint_four, hp], ?_⟩
  rw [him, ← le_uint_four]
  exact le_uint_lt exe _ 4

/-- Witness of C27: with size 3 the bytes `fe ff ff ff` at offset 1 are read as
the signed 32-bit value `-2` and 3 is added, `0 - 2 + 1 + 3 + 0 = 2`; with size
0 the size added is 0; `decode_imm` reads all four bytes. -/
theorem decode_default_width_witness :
    decode_pc (image_of [0xe8, 0xfe, 0xff, 0xff, 0xff]) 0 1 0 3 =
        wrap64 (((0 : Nat) : Int) +
          sign_extend 4 (le_uint (image_of [0xe8, 0xfe, 0xff, 0xff, 0xff]) ((0 + 1) % 2 ^ 64) 4) +
          (1 : Nat) + (3 : Nat) + (0 : Nat)) ∧
      decode_pc (image_of [0xe8, 0xfe, 0xff, 0xff, 0xff]) 0 1 0 3 = 2 ∧
      decode_pc (image_of [0xe8, 0xfe, 0xff, 0xff, 0xff]) 0 1 0 0 = 2 ^ 64 - 1 ∧
      decode_imm (image_of [0xe8, 0xfe, 0xff, 0xff, 0xff]) 0 1 3 = 0xfffffffe :=
  ⟨(decode_default_width (image_of [0xe8, 0xfe, 0xff, 0xff, 0xff]) 0 1 0 3 (by decide)
      (by decide) (by decide)).1,
    by decide, by decide, by decide⟩


/-- C25. The wildcard is recognised by its byte value. At a needle position
that holds `0x2A` the image byte is irrelevant: the comparison at `j` has the
same result whatever byte the image holds under that position, so also when it
is not `0x2A`. At a position holding another value a match forces the image
byte to be that value. The needle made of the single byte `0x2A` matches
every image at every position. -/
theorem wildcard_is_byte_value (exe : Nat → Byte) (needle : List Byte) (j k : Nat)
    (hk : k < needle.length) :
    (needle.get ⟨k, hk⟩ = 0x2A → ∀ b : Byte,
        needle_found (Function.update exe (j + k) b) needle j = needle_found exe needle j) ∧
      (needle.get ⟨k, hk⟩ ≠ 0x2A → needle_found exe needle j = true →
        exe (j + k) = needle.get ⟨k, hk⟩) ∧
      needle_found exe [0x2A] j = true := by
  refine ⟨fun hw b => ?_, fun hw hf => ?_, ?_⟩
  · rw [Bool.eq_iff_iff, needle_found_iff, needle_found_iff]
    constructor
    · intro h i hi
      by_cases hik : i = k
      · subst hik
        exact Or.inl hw
      · have := h i hi
        rwa [Function.update_noteq (by omega)] at this
    · intro h i hi
      by_cases hik : i = k
      · subst hik
        exact Or.inl hw
      · rw [Function.update_noteq (by omega)]
        exact h i hi
  · exact matches_byte exe needle j ((needle_found_iff exe needle j).mp hf) k hk hw
  · simp [needle_found, needle_loop, WILDCARD]

/-- Witness of C25: the needle `41 2A 43` matches the image `41 00 43` at 0 and
still matches when the middle byte is replaced by `ff`; the byte under the
first position is forced to be `41`; and `find_inst` finds the needle `2A` at
the start of an image whose first byte is `00`. -/
theorem wildcard_is_byte_value_witness :
    ([(0x41 : Byte), 0x2A, 0x43].get ⟨1, by decide⟩ = 0x2A →
        ∀ b : Byte, needle_found (Function.update (image_of [0x41, 0x00, 0x43]) (0 + 1) b)
            [0x41, 0x2A, 0x43] 0 =
          needle_found (image_of [0x41, 0x00, 0x43]) [0x41, 0x2A, 0x43] 0) ∧
      needle_found (image_of [0x41, 0x00, 0x43]) [0x41, 0x2A, 0x43] 0 = true ∧
      find_inst (image_of [0x00, 0x00]) 2 [0x2A] 0 none true false = .found 0 :=
  ⟨(wildcard_is_byte_value (image_of [0x41, 0x00, 0x43]) [0x41, 0x2A, 0x43] 0 1 (by decide)).1,
    by decide, by decide⟩


theorem wrap64_nat (n : Nat) : wrap64 (n : Int) = n % 2 ^ 64 := by
  unfold wrap64 SIZE
  rw [← Int.natCast_mod, Int.toNat_natCast]

theorem run_commands_single (ctx : Ctx) (resolve : String → Globals → Option (Outcome Nat))
    (name : String) (c : Command) (o : Nat) (b : Bool) (g : Globals) :
    run_commands ctx resolve name [c] o b g = exec_command ctx resolve name o b g c := by
  simp only [run_commands]
  cases exec_command ctx resolve name o b g c with
  | none => rfl
  | some out =>
    cases out with
    | terminated g1 => rfl
    | ok fl g1 =>
      cases fl with
      | next o1 b1 => rfl
      | done r => rfl

/-- C28. The composite builder steps append exactly the commands of their
parts: `find_after_inst(p)` appends the pattern step and `Offset(length p)`,
`find_next_inst(p)` appends `Offset(1)` and the pattern step, and the
`_in_range` variants do the same with the range in the pattern step. So when
the scan from the current offset `o` finds `p` at `j`, `find_after_inst` leaves
the offset at `j + length p`; and `find_next_inst` started at `o` runs the
pattern step at `o + 1`, so every match `j` it reports has `o + 1 ≤ j`. -/
theorem composite_builders (self : PatternCommandBuffer) (p : List Byte) (r : Nat) (ctx : Ctx)
    (resolve : String → Globals → Option (Outcome Nat)) (name : String) (o : Nat)
    (optional : Bool) (g : Globals) (ho : o + 1 < 2 ^ 64) :
    (self.find_after_inst p = (self.find_inst p).offset p.length ∧
        (self.find_after_inst p).commands =
          self.commands ++ [.FindInst p none, .Offset p.length]) ∧
      (self.find_next_inst p = (self.offset 1).find_inst p ∧
        (self.find_next_inst p).commands = self.commands ++ [.Offset 1, .FindInst p none]) ∧
      (self.find_after_inst_in_range p r = (self.find_inst_in_range p r).offset p.length ∧
        (self.find_after_inst_in_range p r).commands =
          self.commands ++ [.FindInst p (some r), .Offset p.length]) ∧
      (self.find_next_inst_in_range p r = (self.offset 1).find_inst_in_range p r ∧
        (self.find_next_inst_in_range p r).commands =
          self.commands ++ [.Offset 1, .FindInst p (some r)]) ∧
      (∀ j, find_inst_scan ctx.exe p o ctx.exe_size = some j → j + p.length < 2 ^ 64 →
        run_commands ctx resolve name (PatternCommandBuffer.empty.find_after_inst p).commands
            o optional g =
          some (.ok (.next (j + p.length) optional) g)) ∧
      run_commands ctx resolve name (PatternCommandBuffer.empty.find_next_inst p).commands
          o optional g =
        exec_command ctx resolve name (o + 1) optional g (.FindInst p none) ∧
      (∀ j, find_inst_scan ctx.exe p (o + 1) ctx.exe_size = some j →
        o + 1 ≤ j ∧ MatchesAt ctx.exe p j ∧
          run_commands ctx resolve name (PatternCommandBuffer.empty.find_next_inst p).commands
              o optional g =
            some (.ok (.next j optional) g)) := by
  have h1 : wrap64 ((o : Int) + 1) = o + 1 := by
    have : (o : Int) + 1 = ((o + 1 : Nat) : Int) := by push_cast; ring
    rw [this, wrap64_nat, Nat.mod_eq_of_lt ho]
  have hnext : run_commands ctx resolve name
      (PatternCommandBuffer.empty.find_next_inst p).commands o optional g =
      exec_command ctx resolve name (o + 1) optional g (.FindInst p none) := by
    have hc : (PatternCommandBuffer.empty.find_next_inst p).commands =
        [.Offset 1, .FindInst p none] := rfl
    rw [hc]
    simp only [run_commands, exec_command, h1]
    exact run_commands_single ctx resolve name (.FindInst p none) (o + 1) optional g
  refine ⟨⟨rfl, by simp [PatternCommandBuffer.find_after_inst, PatternCommandBuffer.find_inst,
      PatternCommandBuffer.offset, PatternCommandBuffer.push_back]⟩,
    ⟨rfl, by simp [PatternCommandBuffer.find_next_inst, PatternCommandBuffer.find_inst,
      PatternCommandBuffer.offset, PatternCommandBuffer.push_back]⟩,
    ⟨rfl, by simp [PatternCommandBuffer.find_after_inst_in_range,
      PatternCommandBuffer.find_inst_in_range, PatternCommandBuffer.offset,
      PatternCommandBuffer.push_back]⟩,
    ⟨rfl, by simp [PatternCommandBuffer.find_next_inst_in_range,
      PatternCommandBuffer.find_inst_in_range, PatternCommandBuffer.offset,
      PatternCommandBuffer.push_back]⟩, ?_, hnext, ?_⟩
  · intro j hj hlt
    have hc : (PatternCommandBuffer.empty.find_after_inst p).commands =
        [.FindInst p none, .Offset p.length] := rfl
    have h2 : wrap64 ((j : Int) + (p.length : Int)) = j + p.length := by
      have : (j : Int) + (p.length : Int) = ((j + p.length : Nat) : Int) := by push_cast; ring
      rw [this, wrap64_nat, Nat.mod_eq_of_lt hlt]
    rw [hc]
    simp only [run_commands, exec_command, find_inst, Option.map_none', Option.getD_none, hj, h2]
  · intro j hj
    have hs := hj
    unfold find_inst_scan at hs
    obtain ⟨r1, _, r3, _⟩ := find_inst_loop_some ctx.exe p _ (o + 1) j hs
    refine ⟨r1, (needle_found_iff ctx.exe p j).mp r3, ?_⟩
    rw [hnext]
    simp only [exec_command, find_inst, Option.map_none', Option.getD_none, hj]

/-- Witness of C28 on the image with `41 42 43` at offsets 5 to 7:
`find_after_inst` started at 0 ends at `5 + 3`, and `find_next_inst` with the
needle `00`, started at 0 where the image already matches, reports offset 1. -/
theorem composite_builders_witness :
    (0 : Nat) + 1 < 2 ^ 64 ∧
      run_commands range_ctx (get_address range_ctx 0) "name"
          (PatternCommandBuffer.empty.find_after_inst [0x41, 0x42, 0x43]).commands
          0 false Globals.initial =
        some (.ok (.next (5 + 3) false) Globals.initial) ∧
      needle_found range_ctx.exe [0x00] 0 = true ∧
      run_commands range_ctx (get_address range_ctx 0) "name"
          (PatternCommandBuffer.empty.find_next_inst [0x00]).commands
          0 false Globals.initial =
        some (.ok (.next 1 false) Globals.initial) :=
  ⟨by decide,
    (composite_builders PatternCommandBuffer.empty [0x41, 0x42, 0x43] 0 range_ctx
      (get_address range_ctx 0) "name" 0 false Globals.initial (by decide)).2.2.2.2.1 5
      (by decide) (by decide),
    by decide,
    ((composite_builders PatternCommandBuffer.empty [0x00] 0 range_ctx
      (get_address range_ctx 0) "name" 0 false Globals.initial (by decide)).2.2.2.2.2.2 1
      (by decide)).2.2⟩


/-! ## The reads of the scan -/

theorem needle_loop_reads_mem (exe : Nat → Byte) (j : Nat) (needle : List Byte) (k0 i : Nat)
    (h : i ∈ needle_loop_reads exe j needle k0) :
    ∃ k, i = j + k ∧ k0 ≤ k ∧ k < k0 + needle.length := by
  induction needle generalizing k0 with
  | nil => simp [needle_loop_reads] at h
  | cons c rest ih =>
    simp only [needle_loop_reads] at h
    by_cases hw : (c == WILDCARD) = true
    · simp only [hw, if_true] at h
      obtain ⟨k, h1, h2, h3⟩ := ih (k0 + 1) h
      exact ⟨k, h1, by omega, by simp only [List.length_cons]; omega⟩
    · simp only [hw, Bool.false_eq_true, if_false] at h
      by_cases he : (c == exe (j + k0)) = true
      · simp only [he, if_true, List.mem_cons] at h
        rcases h with hl | hr
        · exact ⟨k0, hl, le_rfl, by simp only [List.length_cons]; omega⟩
        · obtain ⟨k, h1, h2, h3⟩ := ih (k0 + 1) hr
          exact ⟨k, h1, by omega, by simp only [List.length_cons]; omega⟩
      · simp only [he, Bool.false_eq_true, if_false, List.mem_singleton] at h
        exact ⟨k0, by simpa using h, le_rfl, by simp only [List.length_cons]; omega⟩

theorem find_inst_loop_reads_mem (exe : Nat → Byte) (needle : List Byte) (n start i : Nat)
    (h : i ∈ find_inst_loop_reads exe needle n start) :
    ∃ j k, i = j + k ∧ start ≤ j ∧ j < start + n ∧ k < needle.length := by
  induction n generalizing start with
  | zero => simp [find_inst_loop_reads] at h
  | succ n ih =>
    simp only [find_inst_loop_reads, List.mem_append] at h
    rcases h with h | h
    · obtain ⟨k, h1, _, h3⟩ := needle_loop_reads_mem exe start needle 0 i h
      exact ⟨start, k, h1, le_rfl, by omega, by omega⟩
    · by_cases hf : needle_found exe needle start = true
      · simp [hf] at h
      · simp only [hf] at h
        obtain ⟨j, k, h1, h2, h3, h4⟩ := ih (start + 1) h
        exact ⟨j, k, h1, by omega, by omega, h4⟩

/-- C24. If `length(needle) ≤ search_end ≤ image size`, every image index the
scan of `find_inst` reads is `j + k` for a candidate position `j` with
`start ≤ j` and a needle index `k < length(needle)` with `j + k < search_end`:
it lies in `[start, search_end)` and inside the image. -/
theorem find_inst_reads_in_range (exe : Nat → Byte) (needle : List Byte)
    (start search_end image_size : Nat) (hlen : needle.length ≤ search_end)
    (hend : search_end ≤ image_size) (hsize : image_size < 2 ^ 64) :
    ∀ i ∈ find_inst_reads exe needle start search_end,
      (∃ j k, i = j + k ∧ start ≤ j ∧ k < needle.length ∧ j + k < search_end) ∧
        start ≤ i ∧ i < search_end ∧ i < image_size := by
  intro i hi
  unfold find_inst_reads at hi
  rw [scan_bound_eq needle search_end hlen (by omega)] at hi
  obtain ⟨j, k, h1, h2, h3, h4⟩ := find_inst_loop_reads_mem exe needle _ start i hi
  exact ⟨⟨j, k, h1, h2, h4, by omega⟩, by omega, by omega, by omega⟩

/-- Witness of C24: the scan for `41 42 43` over the first 8 bytes of the image
with the pattern at offsets 5 to 7 reads the indices 0 to 4, one byte at each
candidate position, and stops; all of them are below 8. -/
theorem find_inst_reads_in_range_witness :
    [(0x41 : Byte), 0x42, 0x43].length ≤ 8 ∧ (8 : Nat) ≤ 8 ∧ (8 : Nat) < 2 ^ 64 ∧
      find_inst_reads range_image [0x41, 0x42, 0x43] 0 8 = [0, 1, 2, 3, 4] ∧
      find_inst_reads range_image [0x41, 0x42, 0x43] 0 9 = [0, 1, 2, 3, 4, 5, 6, 7] ∧
      ∀ i ∈ find_inst_reads range_image [0x41, 0x42, 0x43] 0 8,
        (∃ j k, i = j + k ∧ 0 ≤ j ∧ k < [(0x41 : Byte), 0x42, 0x43].length ∧ j + k < 8) ∧
          0 ≤ i ∧ i < 8 ∧ i < 8 :=
  ⟨by decide, by decide, by decide, by decide, by decide,
    find_inst_reads_in_range range_image [0x41, 0x42, 0x43] 0 8 8 (by decide) (by decide)
      (by decide)⟩


/-! ## Registered names and the unknown-address notice -/

theorem get_address_unknown_inv (ctx : Ctx) (g0 : Globals) (fuel : Nat) :
    ∀ n g out,
      (∀ m, Notice.unknown_address m ∈ g.notices →
        Notice.unknown_address m ∈ g0.notices ∨ map_find ctx.g_address_rules m = none) →
      get_address ctx fuel n g = some out →
      ∀ m, Notice.unknown_address m ∈ out.globals.notices →
        Notice.unknown_address m ∈ g0.notices ∨ map_find ctx.g_address_rules m = none := by
  intro n g out hg h
  refine get_address_inv ctx
    (fun g1 => ∀ m, Notice.unknown_address m ∈ g1.notices →
      Notice.unknown_address m ∈ g0.notices ∨ map_find ctx.g_address_rules m = none)
    (fun _ => True) ?_ ?_ ?_ (fun _ _ _ _ _ => trivial) fuel n g out trivial hg h
  · intro g1 nm p h1 _ m hm
    simp only [Globals.notify, List.mem_append, List.mem_singleton] at hm
    rcases hm with hm | hm
    · exact h1 m hm
    · cases hm
  · intro g1 k h1 hrule m hm
    simp only [Globals.notify, List.mem_append, List.mem_singleton] at hm
    rcases hm with hm | hm
    · exact h1 m hm
    · cases hm
      exact Or.inr hrule
  · intro g1 k a _ h1
    exact h1

theorem call_unknown_inv (self : PatternCommandBuffer) (ctx : Ctx) (g0 : Globals) (fuel : Nat)
    (name : String) (g : Globals) (out : Outcome (Option Nat))
    (hg : ∀ m, Notice.unknown_address m ∈ g.notices →
      Notice.unknown_address m ∈ g0.notices ∨ map_find ctx.g_address_rules m = none)
    (h : self.call ctx (get_address ctx fuel) name g = some out) :
    ∀ m, Notice.unknown_address m ∈ out.globals.notices →
      Notice.unknown_address m ∈ g0.notices ∨ map_find ctx.g_address_rules m = none := by
  refine call_inv self ctx (get_address ctx fuel)
    (fun g1 => ∀ m, Notice.unknown_address m ∈ g1.notices →
      Notice.unknown_address m ∈ g0.notices ∨ map_find ctx.g_address_rules m = none)
    (fun _ => True) ?_ ?_ name g out (fun _ _ => trivial) hg h
  · intro g1 nm p h1 _ m hm
    simp only [Globals.notify, List.mem_append, List.mem_singleton] at hm
    rcases hm with hm | hm
    · exact h1 m hm
    · cases hm
  · intro m g1 out1 _ h1 hr
    exact get_address_unknown_inv ctx g0 fuel m g1 out1 h1 hr

theorem preload_loop_unknown_inv (ctx : Ctx) (g0 : Globals) (fuel : Nat)
    (rest : List (String × PatternCommandBuffer)) (g : Globals) (out : Outcome Unit)
    (hg : ∀ m, Notice.unknown_address m ∈ g.notices →
      Notice.unknown_address m ∈ g0.notices ∨ map_find ctx.g_address_rules m = none)
    (h : preload_loop ctx fuel rest g = some out) :
    ∀ m, Notice.unknown_address m ∈ out.globals.notices →
      Notice.unknown_address m ∈ g0.notices ∨ map_find ctx.g_address_rules m = none := by
  induction rest generalizing g with
  | nil =>
    simp only [preload_loop, Option.some.injEq] at h
    subst h
    exact hg
  | cons e rest ih =>
    obtain ⟨n, rule⟩ := e
    simp only [preload_loop] at h
    cases hcall : rule.call ctx (get_address ctx fuel) n g with
    | none => simp [hcall] at h
    | some r =>
      have hk := call_unknown_inv rule ctx g0 fuel n g r hg hcall
      cases r with
      | terminated g1 =>
        simp only [hcall, Option.some.injEq] at h
        subst h
        exact hk
      | ok v g1 =>
        cases v with
        | none =>
          simp only [hcall] at h
          exact ih g1 hk h
        | some a =>
          simp only [hcall] at h
          exact ih { g1 with
            debug_log := g1.debug_log ++ log_collisions g1.g_cached_addresses n a
            g_cached_addresses := map_set g1.g_cached_addresses n a } hk h

/-- C26. Executing a pipeline never returns an empty optional: whenever it
returns, the value is present, and a pattern step that misses under the
optional flag makes it return the value 0. So for a registered name
`load_address` stores what the pipeline returned in the cache (0 included) and
returns it, `get_address` returns the stored value from then on,
`preload_addresses` leaves an entry for the name, and neither of them shows
the "unknown address" notice for the name. -/
theorem registered_name_is_cached (ctx : Ctx) (fuel : Nat) (name : String)
    (rule : PatternCommandBuffer) (hrule : map_find ctx.g_address_rules name = some rule) :
    (∀ (self : PatternCommandBuffer) (resolve : String → Globals → Option (Outcome Nat))
        (n : String) (g g1 : Globals) (r : Option Nat),
        self.call ctx resolve n g = some (.ok r g1) → ∃ v, r = some v) ∧
      (∀ (resolve : String → Globals → Option (Outcome Nat)) (n : String) (g g1 : Globals)
        (before after : List Command) (pattern : List Byte) (range : Option Nat) (o : Nat),
        run_commands ctx resolve n before ctx.mem.after_bundle false g =
            some (.ok (.next o true) g1) →
          find_inst_scan ctx.exe pattern o ((range.map (add64 o)).getD ctx.exe_size) = none →
          PatternCommandBuffer.call { commands := before ++ Command.FindInst pattern range :: after }
              ctx resolve n g = some (.ok (some 0) g1)) ∧
      (∀ g a g1, rule.call ctx (get_address ctx fuel) name g = some (.ok (some a) g1) →
        load_address ctx (fuel + 1) name g =
            some (.ok a
              { g1 with g_cached_addresses := map_set g1.g_cached_addresses name a }) ∧
          ∀ (fuel' : Nat),
            get_address ctx fuel' name
                { g1 with g_cached_addresses := map_set g1.g_cached_addresses name a } =
              some (.ok a
                { g1 with g_cached_addresses := map_set g1.g_cached_addresses name a })) ∧
      (∀ g v g1, load_address ctx fuel name g = some (.ok v g1) →
        map_find g1.g_cached_addresses name = some v ∧
          ∀ (fuel' : Nat), get_address ctx fuel' name g1 = some (.ok v g1)) ∧
      ((ctx.g_address_rules.map Prod.fst).Nodup →
        ∀ g g1, preload_addresses ctx fuel g = some (.ok () g1) →
          ∃ v, map_find g1.g_cached_addresses name = some v ∧
            ∀ (fuel' : Nat), get_address ctx fuel' name g1 = some (.ok v g1)) ∧
      (∀ n g out, get_address ctx fuel n g = some out →
        Notice.unknown_address name ∈ out.globals.notices →
        Notice.unknown_address name ∈ g.notices) ∧
      (∀ g out, preload_addresses ctx fuel g = some out →
        Notice.unknown_address name ∈ out.globals.notices →
        Notice.unknown_address name ∈ g.notices) := by
  have hcached : ∀ (g1 : Globals) (v : Nat), map_find g1.g_cached_addresses name = some v →
      ∀ (fuel' : Nat), get_address ctx fuel' name g1 = some (.ok v g1) := by
    intro g1 v h fuel'
    simp only [get_address, h]
  refine ⟨?_, ?_, ?_, ?_, ?_, ?_, ?_⟩
  · intro self resolve n g g1 r h
    cases r with
    | some v => exact ⟨v, rfl⟩
    | none => exact absurd h (call_never_empty self ctx resolve n g g1)
  · intro resolve n g g1 before after pattern range o hbefore hmiss
    have hfind : ∀ c, find_inst ctx.exe ctx.exe_size pattern o (range.map (add64 o)) (!true) c =
        .logic_error := by
      intro c
      simp [find_inst, hmiss]
    simp only [PatternCommandBuffer.call, run_commands_append, hbefore, run_commands, exec_command,
      hfind]
  · intro g a g1 hcall
    refine ⟨by simp only [load_address_succ, hrule, hcall], ?_⟩
    exact hcached _ a (map_find_map_set_self _ _ _)
  · intro g v g1 h
    have hstore : map_find g1.g_cached_addresses name = some v := by
      cases fuel with
      | zero => simp [load_address, hrule] at h
      | succ fuel =>
        rw [load_address_succ] at h
        simp only [hrule] at h
        cases hcall : rule.call ctx (get_address ctx fuel) name g with
        | none => simp [hcall] at h
        | some r =>
          cases r with
          | terminated g2 => simp [hcall] at h
          | ok r g2 =>
            cases r with
            | none => exact absurd hcall (call_never_empty rule ctx _ name g g2)
            | some a =>
              simp only [hcall, Option.some.injEq, Outcome.ok.injEq] at h
              rw [← h.2, ← h.1]
              exact map_find_map_set_self _ _ _
    exact ⟨hstore, hcached g1 v hstore⟩
  · intro hnodup g g1 h
    obtain ⟨v, hv, _⟩ := preload_loop_covers ctx fuel ctx.g_address_rules g g1 hnodup h name rule
      (map_find_mem _ _ _ hrule)
    exact ⟨v, hv, hcached g1 v hv⟩
  · intro n g out h hm
    rcases get_address_unknown_inv ctx g fuel n g out (fun m hm => Or.inl hm) h name hm with h1 | h1
    · exact h1
    · rw [hrule] at h1
      cases h1
  · intro g out h hm
    rcases preload_loop_unknown_inv ctx g fuel ctx.g_address_rules g out (fun m hm => Or.inl hm) h
      name hm with h1 | h1
    · exact h1
    · rw [hrule] at h1
      cases h1

/-- Witness of C26: the rule `"missing"`, whose only pattern step is optional
and misses on the image `41 42`. The pipeline returns the present value 0,
`load_address` stores 0, `get_address` returns 0, and no notice is shown. -/
theorem registered_name_is_cached_witness :
    map_find missing_ctx.g_address_rules "missing" = some missing_buffer ∧
      missing_buffer.call missing_ctx (get_address missing_ctx 0) "missing" Globals.initial =
        some (.ok (some 0) Globals.initial) ∧
      (load_address missing_ctx (0 + 1) "missing" Globals.initial =
          some (.ok 0
            { Globals.initial with
              g_cached_addresses := map_set Globals.initial.g_cached_addresses "missing" 0 }) ∧
        ∀ (fuel' : Nat),
          get_address missing_ctx fuel' "missing"
              { Globals.initial with
                g_cached_addresses := map_set Globals.initial.g_cached_addresses "missing" 0 } =
            some (.ok 0
              { Globals.initial with
                g_cached_addresses := map_set Globals.initial.g_cached_addresses "missing" 0 })) ∧
      preload_addresses missing_ctx 0 Globals.initial =
        some (.ok ()
          { g_cached_addresses := [("missing", 0)], notices := [], debug_log := [] }) :=
  ⟨by decide, by decide,
    (registered_name_is_cached missing_ctx 0 "missing" missing_buffer (by decide)).2.2.1
      Globals.initial 0 Globals.initial (by decide),
    by decide⟩


/-! ## The ordering of `SearchTiles` -/

theorem tile_less_iff (a b : SelectedTile) : tile_less a b = true ↔ tile_key a < tile_key b := by
  simp only [tile_less, tile_key, Prod.Lex.lt_iff, Bool.or_eq_true, Bool.and_eq_true,
    decide_eq_true_eq, beq_iff_eq]
  omega

theorem tile_less_false_iff (a b : SelectedTile) :
    tile_less a b = false ↔ tile_key b ≤ tile_key a := by
  rw [← not_lt, ← tile_less_iff]
  simp

theorem tile_key_eq_iff (a b : SelectedTile) :
    tile_key a = tile_key b ↔
      a.map = b.map ∧ a.room.y = b.room.y ∧ a.room.x = b.room.x ∧ a.pos.y = b.pos.y ∧
        a.pos.x = b.pos.x ∧ a.layer = b.layer := by
  simp only [tile_key, toLex_inj, Prod.mk.injEq]

theorem std_sort_sorted (v : List SelectedTile) : sorted_by_key (std_sort tile_less v) := by
  have htotal : IsTotal SelectedTile (fun a b => tile_less b a = false) :=
    ⟨fun a b => by
      simp only [tile_less_false_iff]
      exact le_total _ _⟩
  have htrans : IsTrans SelectedTile (fun a b => tile_less b a = false) :=
    ⟨fun a b c => by
      simp only [tile_less_false_iff]
      exact le_trans⟩
  have h := List.sorted_insertionSort (fun a b : SelectedTile => tile_less b a = false) v
  unfold sorted_by_key std_sort
  exact List.Pairwise.imp (fun {a b} hab => (tile_less_false_iff b a).mp hab) h

theorem std_sort_perm (v : List SelectedTile) : (std_sort tile_less v).Perm v :=
  List.perm_insertionSort _ v

/-- C29 (counterexample). For a map id that is none of `-1`, `s32_max` and
`0 .. 4`, line 502 returns before anything is appended or sorted: called with
map id 9 on a vector that holds a tile of map 1 before a tile of map 0,
`SearchTiles` returns with the vector unchanged, which is not sorted. -/
theorem search_tiles_returns_unsorted :
    SearchTiles example_world [tile_at 1 0 0 0 0 0, tile_at 0 0 0 0 0 0] 7 9 =
        [tile_at 1 0 0 0 0 0, tile_at 0 0 0 0 0 0] ∧
      tile_less (tile_at 0 0 0 0 0 0) (tile_at 1 0 0 0 0 0) = true ∧
      ¬ sorted_by_key
        (SearchTiles example_world [tile_at 1 0 0 0 0 0, tile_at 0 0 0 0 0 0] 7 9) := by
  refine ⟨by decide, by decide, ?_⟩
  have h : SearchTiles example_world [tile_at 1 0 0 0 0 0, tile_at 0 0 0 0 0 0] 7 9 =
      [tile_at 1 0 0 0 0 0, tile_at 0 0 0 0 0 0] := by decide
  rw [h]
  unfold sorted_by_key
  decide

/-- C29 (amended). The comparator that `SearchTiles` passes to `std::sort` is a
strict weak ordering equal to the lexicographic order on
`(map, room.y, room.x, pos.y, pos.x, layer)`: it is irreflexive and transitive,
and two tiles are equivalent under it exactly when all six keys are equal.
After `SearchTiles` returns from a call whose map id is `-1`, `s32_max` or one
of `0 .. 4`, the result vector is sorted ascending in that order and holds the
tiles it held before together with the matches; for every other map id the
call returns with the vector unchanged. -/
theorem search_tiles_sorted (world : World) (searchTiles : List SelectedTile) (searchId : Nat)
    (mapId : Int) :
    (∀ a b, tile_less a b = true ↔ tile_key a < tile_key b) ∧
      (∀ a, tile_less a a = false) ∧
      (∀ a b c, tile_less a b = true → tile_less b c = true → tile_less a c = true) ∧
      (∀ a b, (tile_less a b = false ∧ tile_less b a = false) ↔
        (a.map = b.map ∧ a.room.y = b.room.y ∧ a.room.x = b.room.x ∧ a.pos.y = b.pos.y ∧
          a.pos.x = b.pos.x ∧ a.layer = b.layer)) ∧
      (∀ a b c, tile_less a b = false ∧ tile_less b a = false →
        tile_less b c = false ∧ tile_less c b = false →
        tile_less a c = false ∧ tile_less c a = false) ∧
      ((mapId = -1 ∨ mapId = s32_max ∨ (0 ≤ mapId ∧ mapId ≤ 4)) →
        sorted_by_key (SearchTiles world searchTiles searchId mapId) ∧
          (SearchTiles world searchTiles searchId mapId).Pairwise
            (fun a b => tile_less b a = false) ∧
          ∃ mapMin mapMax, (SearchTiles world searchTiles searchId mapId).Perm
            (searchTiles ++ search_matches world searchId mapMin mapMax)) ∧
      (¬ (mapId = -1 ∨ mapId = s32_max ∨ (0 ≤ mapId ∧ mapId ≤ 4)) →
        SearchTiles world searchTiles searchId mapId = searchTiles) := by
  have hequiv : ∀ a b, (tile_less a b = false ∧ tile_less b a = false) ↔
      tile_key a = tile_key b := by
    intro a b
    rw [tile_less_false_iff, tile_less_false_iff]
    exact ⟨fun h => le_antisymm h.2 h.1, fun h => ⟨h.ge, h.le⟩⟩
  have hsorted : ∀ v, sorted_by_key (std_sort tile_less v) ∧
      (std_sort tile_less v).Pairwise (fun a b => tile_less b a = false) := by
    intro v
    refine ⟨std_sort_sorted v, ?_⟩
    exact List.Pairwise.imp (fun {a b} hab => (tile_less_false_iff b a).mpr hab)
      (std_sort_sorted v)
  refine ⟨tile_less_iff, ?_, ?_, ?_, ?_, ?_, ?_⟩
  · intro a
    rw [tile_less_false_iff]
  · intro a b c hab hbc
    rw [tile_less_iff] at *
    exact lt_trans hab hbc
  · intro a b
    rw [hequiv, tile_key_eq_iff]
  · intro a b c hab hbc
    rw [hequiv] at *
    exact hab.trans hbc
  · intro hvalid
    unfold SearchTiles
    by_cases h1 : mapId = -1
    · simp only [h1, if_true]
      exact ⟨(hsorted _).1, (hsorted _).2, _, _, std_sort_perm _⟩
    · by_cases h2 : mapId = s32_max
      · simp only [h1, h2, if_true, if_false]
        exact ⟨(hsorted _).1, (hsorted _).2, _, _, std_sort_perm _⟩
      · have h3 : 0 ≤ mapId ∧ mapId ≤ 4 := by
          rcases hvalid with h | h | h
          · exact absurd h h1
          · exact absurd h h2
          · exact h
        simp only [h1, h2, h3, and_self, if_true, if_false]
        exact ⟨(hsorted _).1, (hsorted _).2, _, _, std_sort_perm _⟩
  · intro hinvalid
    simp only [not_or] at hinvalid
    unfold SearchTiles
    simp only [hinvalid.1, hinvalid.2.1, hinvalid.2.2, if_false]

/-- Witness of C29 (amended): searching id 7 in map 1 of the example world, on
a vector that already holds a tile of map 2, gives the two matches in key
order before the tile of map 2; with map id 9 the vector is returned as it
was. -/
theorem search_tiles_sorted_witness :
    SearchTiles example_world [tile_at 2 0 0 0 0 0] 7 1 =
        [tile_at 1 2 3 0 0 1, tile_at 1 2 3 0 1 0, tile_at 2 0 0 0 0 0] ∧
      sorted_by_key (SearchTiles example_world [tile_at 2 0 0 0 0 0] 7 1) ∧
      SearchTiles example_world [tile_at 2 0 0 0 0 0] 7 9 = [tile_at 2 0 0 0 0 0] :=
  ⟨by decide,
    ((search_tiles_sorted example_world [tile_at 2 0 0 0 0 0] 7 1).2.2.2.2.2.1
      (Or.inr (Or.inr (by decide)))).1,
    (search_tiles_sorted example_world [tile_at 2 0 0 0 0 0] 7 9).2.2.2.2.2.2 (by decide)⟩


/-! ## Lemmas about `UI::Cheats` -/

theorem and_then_ok {α β : Type} (r : Option (Outcome α))
    (k : α → Globals → Option (Outcome β)) (b : β) (g2 : Globals)
    (h : and_then r k = some (.ok b g2)) :
    ∃ a g1, r = some (.ok a g1) ∧ k a g1 = some (.ok b g2) := by
  cases r with
  | none => simp [and_then] at h
  | some out =>
    cases out with
    | terminated g1 => simp [and_then] at h
    | ok a g1 => exact ⟨a, g1, rfl, h⟩

theorem get_address_settled (ctx : Ctx) (fuel : Nat) (name : String) (g : Globals)
    (hs : ∀ n, map_find ctx.g_address_rules n ≠ none → map_find g.g_cached_addresses n ≠ none) :
    ∃ g1, get_address ctx fuel name g =
        some (.ok (lookup_value g.g_cached_addresses name) g1) ∧
      g1.g_cached_addresses = g.g_cached_addresses := by
  unfold get_address lookup_value
  cases hc : map_find g.g_cached_addresses name with
  | some v => exact ⟨g, rfl, rfl⟩
  | none =>
    have hr : map_find ctx.g_address_rules name = none := by
      by_contra hne
      exact hs name hne hc
    refine ⟨g.notify (.unknown_address name), ?_, rfl⟩
    cases fuel with
    | zero => simp [load_address, hr]
    | succ fuel => simp [load_address_succ, hr]

theorem exec_statement_settled (ctx : Ctx) (fuel : Nat) (inp : CheatsInputs) (st : CheatsState)
    (g : Globals) (s : CheatStatement) (hinit : st.is_init = true)
    (hs : ∀ n, map_find ctx.g_address_rules n ≠ none → map_find g.g_cached_addresses n ≠ none) :
    ∃ g1, exec_statement ctx fuel inp st g s =
        some (.ok { st with calls := st.calls ++ expected_calls inp g.g_cached_addresses s } g1) ∧
      g1.g_cached_addresses = g.g_cached_addresses := by
  have hlook : ∀ (name : String) (g0 : Globals),
      g0.g_cached_addresses = g.g_cached_addresses →
      ∃ g1, get_address ctx fuel name g0 =
          some (.ok (lookup_value g.g_cached_addresses name) g1) ∧
        g1.g_cached_addresses = g.g_cached_addresses := by
    intro name g0 h0
    obtain ⟨g1, h1, h2⟩ := get_address_settled ctx fuel name g0 (by rw [h0]; exact hs)
    exact ⟨g1, by rw [h1, h0], by rw [h2, h0]⟩
  cases s with
  | toggle condition address_name patch_name bytes =>
    obtain ⟨g1, h1, c1⟩ := hlook address_name g rfl
    obtain ⟨g2, h2, c2⟩ := hlook address_name g1 c1
    cases condition
    · exact ⟨g, by simp [exec_statement, expected_calls, toggle_call, CheatsState.call], rfl⟩
    · by_cases hz : (lookup_value g.g_cached_addresses address_name != 0 && CheatsEnabled inp) = true
      · exact ⟨g2, by simp [exec_statement, expected_calls, toggle_call, CheatsState.call, h1, h2,
          and_then, hz], c2⟩
      · exact ⟨g1, by simp [exec_statement, expected_calls, toggle_call, CheatsState.call, h1,
          and_then, hz], c1⟩
  | block condition bytes =>
    obtain ⟨g1, h1, c1⟩ := hlook "keyboard" g rfl
    obtain ⟨g2, h2, c2⟩ := hlook "keyboard" g1 c1
    cases condition
    · exact ⟨g, by simp [exec_statement, expected_calls, toggle_call, CheatsState.call], rfl⟩
    · by_cases hz : (lookup_value g.g_cached_addresses "keyboard" != 0 && CheatsEnabled inp) = true
      · cases hb : inp.Block
        · exact ⟨g1, by simp [exec_statement, expected_calls, toggle_call, CheatsState.call, h1,
            and_then, hz, hb], c1⟩
        · exact ⟨g2, by simp [exec_statement, expected_calls, toggle_call, CheatsState.call, h1,
            h2, and_then, hz, hb], c2⟩
      · cases hb : inp.Block
        · exact ⟨g1, by simp [exec_statement, expected_calls, toggle_call, CheatsState.call, h1,
            and_then, hz, hb], c1⟩
        · exact ⟨g1, by simp [exec_statement, expected_calls, toggle_call, CheatsState.call, h1,
            and_then, hz, hb], c1⟩
  | noclip condition =>
    obtain ⟨g1, h1, c1⟩ := hlook "slots" g rfl
    obtain ⟨i, cs⟩ := st
    simp only at hinit
    subst hinit
    by_cases hz : (condition && CheatsEnabled inp) = true
    · exact ⟨g1, by simp [exec_statement, expected_calls, Max_get, h1, and_then, hz], c1⟩
    · exact ⟨g, by simp [exec_statement, expected_calls, hz], rfl⟩
  | groundhog condition bytes =>
    obtain ⟨g1, h1, c1⟩ := hlook "groundhog_day" g rfl
    obtain ⟨g2, h2, c2⟩ := hlook "groundhog_day" g1 c1
    obtain ⟨g3, h3, c3⟩ := hlook "groundhog_day" g2 c2
    cases condition
    · exact ⟨g, by simp [exec_statement, expected_calls, CheatsState.call], rfl⟩
    · by_cases hz : (lookup_value g.g_cached_addresses "groundhog_day" != 0 &&
          CheatsEnabled inp) = true
      · exact ⟨g3, by simp [exec_statement, expected_calls, CheatsState.call, h1, h2, h3,
          and_then, hz], c3⟩
      · exact ⟨g1, by simp [exec_statement, expected_calls, CheatsState.call, h1,
          and_then, hz], c1⟩

theorem run_statements_settled (ctx : Ctx) (fuel : Nat) (inp : CheatsInputs)
    (stmts : List CheatStatement) (st : CheatsState) (g : Globals) (hinit : st.is_init = true)
    (hs : ∀ n, map_find ctx.g_address_rules n ≠ none → map_find g.g_cached_addresses n ≠ none) :
    ∃ g1, run_statements ctx fuel inp stmts st g =
        some (.ok
          { st with
            calls := st.calls ++ stmts.flatMap (expected_calls inp g.g_cached_addresses) } g1) ∧
      g1.g_cached_addresses = g.g_cached_addresses := by
  induction stmts generalizing st g with
  | nil => exact ⟨g, by simp [run_statements], rfl⟩
  | cons s rest ih =>
    obtain ⟨g1, h1, c1⟩ := exec_statement_settled ctx fuel inp st g s hinit hs
    obtain ⟨g2, h2, c2⟩ := ih
      { st with calls := st.calls ++ expected_calls inp g.g_cached_addresses s } g1 hinit
      (by rw [c1]; exact hs)
    refine ⟨g2, ?_, by rw [c2, c1]⟩
    simp only [run_statements, h1, and_then, h2, c1, List.flatMap_cons, List.append_assoc]

theorem toggle_call_name (inp : CheatsInputs) (o : Bool) (a : Nat) (p : String) (b : List Byte) :
    (toggle_call inp o a p b).name = p := by
  unfold toggle_call
  split <;> rfl

theorem calls_for_append (p : String) (l1 l2 : List PatchOp) :
    calls_for p (l1 ++ l2) = calls_for p l1 ++ calls_for p l2 := by
  simp [calls_for]

theorem calls_for_expected_toggle (inp : CheatsInputs) (cache : List (String × Nat)) (p : String)
    (c : Bool) (a q : String) (b : List Byte) :
    calls_for p (expected_calls inp cache (.toggle c a q b)) =
      if q = p then [toggle_call inp c (lookup_value cache a) q b] else [] := by
  simp only [calls_for, expected_calls, List.filter_cons, toggle_call_name, List.filter_nil,
    beq_iff_eq]

theorem calls_for_expected_block (inp : CheatsInputs) (cache : List (String × Nat)) (p : String)
    (c : Bool) (b : List Byte) (hp : p ≠ "block") :
    calls_for p (expected_calls inp cache (.block c b)) = [] := by
  simp only [calls_for, expected_calls, List.filter_cons, toggle_call_name, List.filter_nil,
    beq_iff_eq]
  rw [if_neg (fun h => hp h.symm)]

theorem calls_for_expected_noclip (inp : CheatsInputs) (cache : List (String × Nat)) (p : String)
    (c : Bool) : calls_for p (expected_calls inp cache (.noclip c)) = [] := rfl

theorem calls_for_expected_groundhog (inp : CheatsInputs) (cache : List (String × Nat))
    (p : String) (c : Bool) (b : List Byte) (hp : p ≠ "groundhog_day")
    (hp2 : p ≠ "groundhog_day2") :
    calls_for p (expected_calls inp cache (.groundhog c b)) = [] := by
  simp only [calls_for, expected_calls]
  split <;> simp [PatchOp.name, Ne.symm hp, Ne.symm hp2]

theorem calls_for_cheats (inp : CheatsInputs) (cache : List (String × Nat))
    (t : String × String × String × List Byte) (ht : t ∈ single_patch_toggles inp) :
    calls_for t.2.2.1 ((cheats_statements inp).flatMap (expected_calls inp cache)) =
      [toggle_call inp (inp.options t.1) (lookup_value cache t.2.1) t.2.2.1 t.2.2.2] := by
  simp only [single_patch_toggles, List.mem_cons, List.mem_singleton, List.not_mem_nil,
    or_false] at ht
  rcases ht with h | h | h | h | h | h | h | h | h | h <;> subst h <;>
    simp [cheats_statements, calls_for_append, calls_for_expected_toggle,
      calls_for_expected_block, calls_for_expected_noclip, calls_for_expected_groundhog]

theorem get_address_nonzero_again (ctx : Ctx) (fuel : Nat) (name : String) (g g1 : Globals)
    (a : Nat) (h : get_address ctx fuel name g = some (.ok a g1)) (ha : a ≠ 0) (fuel' : Nat) :
    get_address ctx fuel' name g1 = some (.ok a g1) := by
  have hc : map_find g1.g_cached_addresses name = some a := by
    cases hr : map_find ctx.g_address_rules name with
    | some rule => exact get_address_caches ctx fuel name g g1 a (by simp [hr]) h
    | none =>
      unfold get_address at h
      cases hg : map_find g.g_cached_addresses name with
      | some v =>
        simp only [hg, Option.some.injEq, Outcome.ok.injEq] at h
        rw [← h.2, ← h.1]
        exact hg
      | none =>
        exfalso
        simp only [hg] at h
        cases fuel with
        | zero =>
          simp only [load_address, hr, Option.some.injEq, Outcome.ok.injEq] at h
          exact ha h.1.symm
        | succ fuel =>
          simp only [load_address_succ, hr, Option.some.injEq, Outcome.ok.injEq] at h
          exact ha h.1.symm
  simp only [get_address, hc]

theorem exec_toggle_returns (ctx : Ctx) (fuel : Nat) (inp : CheatsInputs) (st st1 : CheatsState)
    (g g1 : Globals) (condition : Bool) (address_name patch_name : String) (bytes : List Byte)
    (h : exec_statement ctx fuel inp st g (.toggle condition address_name patch_name bytes) =
      some (.ok st1 g1)) :
    ∃ v, st1 = st.call (toggle_call inp condition v patch_name bytes) ∧
      (condition = true → ∃ g2, get_address ctx fuel address_name g = some (.ok v g2)) := by
  cases condition
  · simp only [exec_statement, Bool.false_eq_true, if_false, Option.some.injEq,
      Outcome.ok.injEq] at h
    exact ⟨0, by rw [← h.1]; simp [toggle_call], by simp⟩
  · simp only [exec_statement, if_true] at h
    obtain ⟨a, g2, h1, h2⟩ := and_then_ok _ _ _ _ h
    refine ⟨a, ?_, fun _ => ⟨g2, h1⟩⟩
    by_cases hz : (a != 0 && CheatsEnabled inp) = true
    · simp only [hz, if_true] at h2
      obtain ⟨a2, g3, h3, h4⟩ := and_then_ok _ _ _ _ h2
      have ha : a ≠ 0 := by
        intro h0
        simp [h0] at hz
      have h5 := get_address_nonzero_again ctx fuel address_name g g2 a h1 ha fuel
      rw [h5] at h3
      simp only [Option.some.injEq, Outcome.ok.injEq] at h3 h4
      rw [← h4.1, ← h3.1]
      simp [toggle_call, hz]
    · simp only [hz, Bool.false_eq_true, if_false, Option.some.injEq, Outcome.ok.injEq] at h2
      rw [← h2.1]
      simp [toggle_call, hz]

theorem exec_statement_allowed (ctx : Ctx) (fuel : Nat) (inp : CheatsInputs) (st st1 : CheatsState)
    (g g1 : Globals) (s : CheatStatement)
    (h : exec_statement ctx fuel inp st g s = some (.ok st1 g1)) :
    ∃ new, st1.calls = st.calls ++ new ∧ allowed_calls inp s new := by
  cases s with
  | toggle condition address_name patch_name bytes =>
    obtain ⟨v, h1, _⟩ := exec_toggle_returns ctx fuel inp st st1 g g1 _ _ _ _ h
    exact ⟨_, by rw [h1]; rfl, v, rfl⟩
  | block condition bytes =>
    cases condition
    · simp only [exec_statement, Bool.false_eq_true, if_false, Option.some.injEq,
        Outcome.ok.injEq] at h
      exact ⟨_, by rw [← h.1]; rfl, 0, by simp [toggle_call]⟩
    · simp only [exec_statement, if_true] at h
      obtain ⟨a, g2, h1, h2⟩ := and_then_ok _ _ _ _ h
      by_cases hz : (a != 0 && CheatsEnabled inp) = true
      · simp only [hz, if_true] at h2
        cases hb : inp.Block
        · simp only [hb, Bool.false_eq_true, if_false, Option.some.injEq, Outcome.ok.injEq] at h2
          exact ⟨_, by rw [← h2.1]; rfl, a, by simp [toggle_call, hb]⟩
        · simp only [hb, if_true] at h2
          obtain ⟨a2, g3, h3, h4⟩ := and_then_ok _ _ _ _ h2
          have ha : a ≠ 0 := by
            intro h0
            simp [h0] at hz
          have h5 := get_address_nonzero_again ctx fuel "keyboard" g g2 a h1 ha fuel
          rw [h5] at h3
          simp only [Option.some.injEq, Outcome.ok.injEq] at h3 h4
          refine ⟨_, by rw [← h4.1]; rfl, a, ?_⟩
          rw [← h3.1]
          simp [toggle_call, hb, hz]
      · simp only [hz, Bool.false_eq_true, if_false, Option.some.injEq, Outcome.ok.injEq] at h2
        refine ⟨_, by rw [← h2.1]; rfl, a, ?_⟩
        unfold toggle_call
        cases hA : (a != 0) <;> cases hE : CheatsEnabled inp <;> simp_all
  | noclip condition =>
    by_cases hz : (condition && CheatsEnabled inp) = true
    · simp only [exec_statement, hz, if_true] at h
      obtain ⟨st2, g2, h1, h2⟩ := and_then_ok _ _ _ _ h
      obtain ⟨_, g3, _, h4⟩ := and_then_ok _ _ _ _ h2
      simp only [Option.some.injEq, Outcome.ok.injEq] at h4
      rw [← h4.1]
      unfold Max_get at h1
      by_cases hi : st.is_init = true
      · simp only [hi, if_true, Option.some.injEq, Outcome.ok.injEq] at h1
        exact ⟨[], by rw [← h1.1]; simp, Or.inl rfl⟩
      · simp only [hi, Bool.false_eq_true, if_false] at h1
        obtain ⟨_, g4, _, h5⟩ := and_then_ok _ _ _ _ h1
        obtain ⟨off, g5, _, h6⟩ := and_then_ok _ _ _ _ h5
        simp only [Option.some.injEq, Outcome.ok.injEq] at h6
        rw [← h6.1]
        by_cases ho : (off != 0) = true
        · exact ⟨[.apply "check" off [0xE9, 0x01, 0x03, 0x00, 0x00, 0x90]],
            by simp only [ho, if_true], Or.inr ⟨off, _, rfl⟩⟩
        · exact ⟨[], by simp [ho], Or.inl rfl⟩
    · simp only [exec_statement, hz, Bool.false_eq_true, if_false, Option.some.injEq,
        Outcome.ok.injEq] at h
      exact ⟨[], by rw [← h.1]; simp, Or.inl rfl⟩
  | groundhog condition bytes =>
    cases condition
    · simp only [exec_statement, Bool.false_eq_true, if_false, Option.some.injEq,
        Outcome.ok.injEq] at h
      exact ⟨[.revert "groundhog_day", .revert "groundhog_day2"],
        by rw [← h.1]; simp [CheatsState.call], 0, by simp⟩
    · simp only [exec_statement, if_true] at h
      obtain ⟨a, g2, h1, h2⟩ := and_then_ok _ _ _ _ h
      by_cases hz : (a != 0 && CheatsEnabled inp) = true
      · simp only [hz, if_true] at h2
        obtain ⟨a2, g3, h3, h4⟩ := and_then_ok _ _ _ _ h2
        obtain ⟨a3, g4, h5, h6⟩ := and_then_ok _ _ _ _ h4
        have ha : a ≠ 0 := by
          intro h0
          simp [h0] at hz
        have h7 := get_address_nonzero_again ctx fuel "groundhog_day" g g2 a h1 ha fuel
        rw [h7] at h3
        simp only [Option.some.injEq, Outcome.ok.injEq] at h3
        rw [← h3.2, h7] at h5
        simp only [Option.some.injEq, Outcome.ok.injEq] at h5 h6
        have e2 : a2 = a := h3.1.symm
        have e3 : a3 = a := h5.1.symm
        rw [e2, e3] at h6
        exact ⟨[.apply "groundhog_day" a bytes, .apply "groundhog_day2" (add64 a 26) bytes],
          by rw [← h6.1]; simp [CheatsState.call], a, by simp [hz]⟩
      · simp only [hz, Bool.false_eq_true, if_false, Option.some.injEq, Outcome.ok.injEq] at h2
        refine ⟨[.revert "groundhog_day", .revert "groundhog_day2"],
          by rw [← h2.1]; simp [CheatsState.call], a, ?_⟩
        cases hA : (a != 0) <;> cases hE : CheatsEnabled inp <;> simp_all

theorem run_statements_allowed (ctx : Ctx) (fuel : Nat) (inp : CheatsInputs)
    (stmts : List CheatStatement) (st st1 : CheatsState) (g g1 : Globals)
    (h : run_statements ctx fuel inp stmts st g = some (.ok st1 g1)) :
    ∃ new, st1.calls = st.calls ++ new ∧ run_allowed inp stmts new := by
  induction stmts generalizing st g with
  | nil =>
    simp only [run_statements, Option.some.injEq, Outcome.ok.injEq] at h
    exact ⟨[], by rw [← h.1]; simp, rfl⟩
  | cons s rest ih =>
    simp only [run_statements] at h
    obtain ⟨st2, g2, h1, h2⟩ := and_then_ok _ _ _ _ h
    obtain ⟨first, hf, haf⟩ := exec_statement_allowed ctx fuel inp st st2 g g2 s h1
    obtain ⟨later, hl, hal⟩ := ih st2 g2 h2
    exact ⟨first ++ later, by rw [hl, hf, List.append_assoc], first, later, rfl, haf, hal⟩

theorem calls_for_allowed_other (inp : CheatsInputs) (s : CheatStatement) (new : List PatchOp)
    (p : String) (h : allowed_calls inp s new) (hp : p ∉ patch_names s) (hc : p ≠ "check") :
    calls_for p new = [] := by
  cases s with
  | toggle c a q b =>
    obtain ⟨v, hv⟩ := h
    simp only [patch_names, List.mem_singleton] at hp
    simp [hv, calls_for, toggle_call_name, Ne.symm hp]
  | block c b =>
    obtain ⟨v, hv⟩ := h
    simp only [patch_names, List.mem_singleton] at hp
    simp [hv, calls_for, toggle_call_name, Ne.symm hp]
  | noclip c =>
    rcases h with h | ⟨off, bytes, h⟩
    · rw [h]
      rfl
    · simp [h, calls_for, PatchOp.name, Ne.symm hc]
  | groundhog c b =>
    obtain ⟨v, hv⟩ := h
    simp only [patch_names, List.mem_cons, List.mem_singleton, List.not_mem_nil, or_false,
      not_or] at hp
    rw [hv]
    split <;> simp [calls_for, PatchOp.name, Ne.symm hp.1, Ne.symm hp.2]

theorem calls_for_run_allowed_other (inp : CheatsInputs) (stmts : List CheatStatement)
    (new : List PatchOp) (p : String) (h : run_allowed inp stmts new)
    (hp : ∀ s ∈ stmts, p ∉ patch_names s) (hc : p ≠ "check") : calls_for p new = [] := by
  induction stmts generalizing new with
  | nil =>
    simp only [run_allowed] at h
    rw [h]
    rfl
  | cons s rest ih =>
    obtain ⟨first, later, h1, h2, h3⟩ := h
    rw [h1, calls_for_append,
      calls_for_allowed_other inp s first p h2 (hp s (List.mem_cons_self _ _)) hc,
      ih later h3 (fun s' hs' => hp s' (List.mem_cons_of_mem _ hs'))]
    rfl

theorem calls_for_run_allowed_at (inp : CheatsInputs) (pre post : List CheatStatement)
    (new : List PatchOp) (c : Bool) (a p : String) (b : List Byte)
    (h : run_allowed inp (pre ++ .toggle c a p b :: post) new)
    (hpre : ∀ s ∈ pre, p ∉ patch_names s) (hpost : ∀ s ∈ post, p ∉ patch_names s)
    (hc : p ≠ "check") : ∃ v, calls_for p new = [toggle_call inp c v p b] := by
  induction pre generalizing new with
  | nil =>
    obtain ⟨first, later, h1, ⟨v, h2⟩, h3⟩ := h
    refine ⟨v, ?_⟩
    rw [h1, calls_for_append, calls_for_run_allowed_other inp post later p h3 hpost hc, h2]
    simp [calls_for, toggle_call_name]
  | cons s rest ih =>
    obtain ⟨first, later, h1, h2, h3⟩ := h
    obtain ⟨v, hv⟩ := ih later h3 (fun s' hs' => hpre s' (List.mem_cons_of_mem _ hs'))
    refine ⟨v, ?_⟩
    rw [h1, calls_for_append,
      calls_for_allowed_other inp s first p h2 (hpre s (List.mem_cons_self _ _)) hc, hv]
    rfl

theorem calls_for_cheats_allowed (inp : CheatsInputs) (new : List PatchOp)
    (h : run_allowed inp (cheats_statements inp) new)
    (t : String × String × String × List Byte) (ht : t ∈ single_patch_toggles inp) :
    ∃ v, calls_for t.2.2.1 new = [toggle_call inp (inp.options t.1) v t.2.2.1 t.2.2.2] := by
  simp only [single_patch_toggles, List.mem_cons, List.mem_singleton, List.not_mem_nil,
    or_false] at ht
  rcases ht with e | e | e | e | e | e | e | e | e | e <;> subst e
  · exact calls_for_run_allowed_at inp ((cheats_statements inp).take 2)
      ((cheats_statements inp).drop 3) new _ _ _ _ h (by simp [cheats_statements, patch_names])
      (by simp [cheats_statements, patch_names]) (by simp)
  · exact calls_for_run_allowed_at inp ((cheats_statements inp).take 3)
      ((cheats_statements inp).drop 4) new _ _ _ _ h (by simp [cheats_statements, patch_names])
      (by simp [cheats_statements, patch_names]) (by simp)
  · exact calls_for_run_allowed_at inp ((cheats_statements inp).take 4)
      ((cheats_statements inp).drop 5) new _ _ _ _ h (by simp [cheats_statements, patch_names])
      (by simp [cheats_statements, patch_names]) (by simp)
  · exact calls_for_run_allowed_at inp ((cheats_statements inp).take 5)
      ((cheats_statements inp).drop 6) new _ _ _ _ h (by simp [cheats_statements, patch_names])
      (by simp [cheats_statements, patch_names]) (by simp)
  · exact calls_for_run_allowed_at inp ((cheats_statements inp).take 6)
      ((cheats_statements inp).drop 7) new _ _ _ _ h (by simp [cheats_statements, patch_names])
      (by simp [cheats_statements, patch_names]) (by simp)
  · exact calls_for_run_allowed_at inp ((cheats_statements inp).take 7)
      ((cheats_statements inp).drop 8) new _ _ _ _ h (by simp [cheats_statements, patch_names])
      (by simp [cheats_statements, patch_names]) (by simp)
  · exact calls_for_run_allowed_at inp ((cheats_statements inp).take 8)
      ((cheats_statements inp).drop 9) new _ _ _ _ h (by simp [cheats_statements, patch_names])
      (by simp [cheats_statements, patch_names]) (by simp)
  · exact calls_for_run_allowed_at inp ((cheats_statements inp).take 9)
      ((cheats_statements inp).drop 10) new _ _ _ _ h (by simp [cheats_statements, patch_names])
      (by simp [cheats_statements, patch_names]) (by simp)
  · exact calls_for_run_allowed_at inp ((cheats_statements inp).take 10)
      ((cheats_statements inp).drop 11) new _ _ _ _ h (by simp [cheats_statements, patch_names])
      (by simp [cheats_statements, patch_names]) (by simp)
  · exact calls_for_run_allowed_at inp ((cheats_statements inp).take 13)
      ((cheats_statements inp).drop 14) new _ _ _ _ h (by simp [cheats_statements, patch_names])
      (by simp [cheats_statements, patch_names]) (by simp)

/-- C30. Each of the ten toggles with a single patch is one statement of
`UI::Cheats`. Whenever that statement returns it has made exactly one call of
the patch manager: `write_mem_recoverable` for its patch name, at the address
`v` that `get_address` gave for its address name, if the option is on, `v` is
not zero and cheats are enabled, and `recover_mem` for its patch name
otherwise. Whenever a call of `UI::Cheats` returns, exactly one call of that
form has been made for the patch name. When `Max::get` has run before and
every registered name is in the cache, the call of `UI::Cheats` does return,
and `v` is what `get_address` gives on entry. -/
theorem cheats_toggle_calls (ctx : Ctx) (fuel : Nat) (inp : CheatsInputs) (st : CheatsState)
    (g : Globals) (option address_name patch_name : String) (bytes : List Byte)
    (ht : (option, address_name, patch_name, bytes) ∈ single_patch_toggles inp) :
    CheatStatement.toggle (inp.options option) address_name patch_name bytes ∈
        cheats_statements inp ∧
      (∀ st0 g0 st1 g1,
        exec_statement ctx fuel inp st0 g0
            (.toggle (inp.options option) address_name patch_name bytes) = some (.ok st1 g1) →
          ∃ v, (inp.options option = true →
              ∃ g2, get_address ctx fuel address_name g0 = some (.ok v g2)) ∧
            st1.calls = st0.calls ++
              [if inp.options option && v != 0 && CheatsEnabled inp then
                PatchOp.apply patch_name v bytes
              else PatchOp.revert patch_name]) ∧
      (∀ st1 g1, Cheats ctx fuel inp st g = some (.ok st1 g1) →
        ∃ new v, st1.calls = st.calls ++ new ∧
          calls_for patch_name new =
            [if inp.options option && v != 0 && CheatsEnabled inp then
              PatchOp.apply patch_name v bytes
            else PatchOp.revert patch_name]) ∧
      (st.is_init = true →
        (∀ n, map_find ctx.g_address_rules n ≠ none → map_find g.g_cached_addresses n ≠ none) →
        ∃ st1 g1 new v g2, Cheats ctx fuel inp st g = some (.ok st1 g1) ∧
          st1.calls = st.calls ++ new ∧
          get_address ctx fuel address_name g = some (.ok v g2) ∧
          calls_for patch_name new =
            [if inp.options option && v != 0 && CheatsEnabled inp then
              PatchOp.apply patch_name v bytes
            else PatchOp.revert patch_name]) ∧
      (CheatsEnabled inp = true ↔
        inp.options "cheat_active" = true ∧
          (inp.options "ui_visible" = true ∨ inp.options "ui_ignore_cheats" = false)) := by
  refine ⟨?_, ?_, ?_, ?_, ?_⟩
  · simp only [single_patch_toggles, List.mem_cons, List.mem_singleton, List.not_mem_nil,
      or_false, Prod.mk.injEq] at ht
    rcases ht with h | h | h | h | h | h | h | h | h | h <;>
      obtain ⟨h1, h2, h3, h4⟩ := h <;> subst h1 h2 h3 h4 <;> simp [cheats_statements]
  · intro st0 g0 st1 g1 h
    obtain ⟨v, h1, h2⟩ := exec_toggle_returns ctx fuel inp st0 st1 g0 g1 _ _ _ _ h
    exact ⟨v, h2, by rw [h1]; rfl⟩
  · intro st1 g1 h
    obtain ⟨new, h1, h2⟩ := run_statements_allowed ctx fuel inp _ st st1 g g1 h
    obtain ⟨v, hv⟩ := calls_for_cheats_allowed inp new h2 _ ht
    exact ⟨new, v, h1, hv⟩
  · intro hinit hs
    obtain ⟨g1, h1, _⟩ := run_statements_settled ctx fuel inp (cheats_statements inp) st g hinit hs
    obtain ⟨g2, h2, _⟩ := get_address_settled ctx fuel address_name g hs
    exact ⟨_, g1, _, _, g2, h1, rfl, h2, calls_for_cheats inp g.g_cached_addresses _ ht⟩
  · simp [CheatsEnabled]

/-- Witness of C30: with `cheat_damage` on, cheats enabled and `"damage"`
cached at `0x7ff600001000`, a call of `UI::Cheats` writes the six `90` bytes
for the patch `"damage"` and calls `recover_mem` for every other patch. -/
theorem cheats_toggle_calls_witness :
    ("cheat_damage", "damage", "damage", cheats_inputs.get_nop 6) ∈
        single_patch_toggles cheats_inputs ∧
      Cheats cheats_ctx 0 cheats_inputs { is_init := true, calls := [] } cheats_globals =
        some (.ok
          { is_init := true
            calls :=
              [.revert "warp", .revert "block",
                .apply "damage" 0x7ff600001000 [0x90, 0x90, 0x90, 0x90, 0x90, 0x90],
                .revert "god", .revert "render_darkness", .revert "render_lights",
                .revert "render_gameboy", .revert "render_clouds", .revert "render_hud",
                .revert "render_player", .revert "skip_credits", .revert "groundhog_day",
                .revert "groundhog_day2", .revert "cheat_water"] } cheats_globals) ∧
      ∃ st1 g1 new v g2,
        Cheats cheats_ctx 0 cheats_inputs { is_init := true, calls := [] } cheats_globals =
            some (.ok st1 g1) ∧
          st1.calls = ([] : List PatchOp) ++ new ∧
          get_address cheats_ctx 0 "damage" cheats_globals = some (.ok v g2) ∧
          calls_for "damage" new =
            [if cheats_inputs.options "cheat_damage" && v != 0 && CheatsEnabled cheats_inputs then
              PatchOp.apply "damage" v (cheats_inputs.get_nop 6)
            else PatchOp.revert "damage"] :=
  ⟨by decide, by decide,
    (cheats_toggle_calls cheats_ctx 0 cheats_inputs { is_init := true, calls := [] }
      cheats_globals "cheat_damage" "damage" "damage" (cheats_inputs.get_nop 6)
      (by decide)).2.2.2.1 rfl
      (by
        intro n hn
        by_cases h : n = "damage"
        · subst h
          decide
        · exfalso
          apply hn
          simp [cheats_ctx, example_ctx, map_find, Ne.symm h])⟩

end Maxwell
